import Mathlib

/-!
# DC-lib partitioning: nodal graph builder, separator renumbering, partition drivers

Shallow embedding of `src/src/partitioning.cc`.  The older
`src/src/DC_partitioning.cc` holds the same four routines with the arity
fixed to the constant `DIM_ELEM`; its loops, tests and arithmetic are the
same.

Conventions of the embedding:
* a C `int` is a Lean `Int` (no wrap-around: the sizes of a mesh are taken
  to fit the machine word);
* a C array is a `List Int`; every read and write is bounds checked and an
  access outside the array makes the whole routine return `none`;
* an array the caller passes for output (`graphIndex`, `graphValue`,
  `sepToNode`, the global `elemPerm`) is a parameter with the caller's
  length, and the routine returns its final content;
* a counted `for` loop is `forUp` / `forDown`, a structural recursion on
  the number of iterations;
* a call of a function defined outside the file is recorded as an `Event`
  with the arguments passed.

The file has two parts: the definitions (the routines, then the vocabulary
of the statements and the loop invariants), and the theorems.
-/

namespace DC

/-! ## Memory primitives -/

/-- Checked read `a[i]`. -/
def rd (a : List Int) (i : Int) : Option Int :=
  if 0 ≤ i then a[i.toNat]? else none

/-- Checked write `a[i] = v`. -/
def wr (a : List Int) (i : Int) (v : Int) : Option (List Int) :=
  if 0 ≤ i ∧ i.toNat < a.length then some (a.set i.toNat v) else none

/-- Allocation `new int [n]` with every cell holding `v`; a negative size
fails.  For an allocation that C++ leaves uninitialised the fill value is
`0`: the routines below write such a cell before they read it. -/
def alloc (n : Int) (v : Int) : Option (List Int) :=
  if 0 ≤ n then some (List.replicate n.toNat v) else none

/-- Loop `for (i = lo; ...; i++) body`, run for `n` iterations from `i`. -/
def forUp {σ : Type} (body : Int → σ → Option σ) : Nat → Int → σ → Option σ
  | 0, _, s => some s
  | n + 1, i, s => (body i s).bind (forUp body n (i + 1))

/-- Loop `for (i = hi; ...; i--) body`, run for `n` iterations from `i`. -/
def forDown {σ : Type} (body : Int → σ → Option σ) : Nat → Int → σ → Option σ
  | 0, _, s => some s
  | n + 1, i, s => (body i s).bind (forDown body n (i - 1))

/-! ## mesh_to_nodal -/

/-- Body of a counting loop `for (i = 0; ...; i++) nPtr[elemToNode[i]]++`
(the first loop of `mesh_to_nodal`, and the loop over `nodePart` in
`partitioning`). -/
def countStep (elemToNode : List Int) (i : Int) (nPtr : List Int) : Option (List Int) := do
  let v ← rd elemToNode i
  let c ← rd nPtr v
  wr nPtr v (c + 1)

/-- Body of `for (i = 1; i < nbNodes; i++) nPtr[i] += nPtr[i-1]`. -/
def prefixStep (i : Int) (nPtr : List Int) : Option (List Int) := do
  let a ← rd nPtr i
  let b ← rd nPtr (i - 1)
  wr nPtr i (a + b)

/-- Body of `for (i = nbNodes; i > 0; i--) nPtr[i] = nPtr[i-1]`. -/
def shiftStep (i : Int) (nPtr : List Int) : Option (List Int) := do
  let b ← rd nPtr (i - 1)
  wr nPtr i b

/-- The shift loop followed by `nPtr[0] = 0`. -/
def shiftRight (nbNodes : Int) (nPtr : List Int) : Option (List Int) := do
  let nPtr ← forDown shiftStep nbNodes.toNat nbNodes nPtr
  wr nPtr 0 0

/-- Statement `nInd[nPtr[elemToNode[i*dimElem+j]]++] = i`. -/
def fillStep (elemToNode : List Int) (dimElem i j : Int) (st : List Int × List Int) :
    Option (List Int × List Int) := do
  let v ← rd elemToNode (i * dimElem + j)
  let p ← rd st.1 v
  let nPtr ← wr st.1 v (p + 1)
  let nInd ← wr st.2 p i
  pure (nPtr, nInd)

/-- Innermost body of the neighbour collection: `kk = elemToNode[jj]`, and
when `marker[kk] != i` mark `kk` and store it at `graphValue[nEdges++]`.
The state is `(marker, graphValue, nEdges)`. -/
def visit (elemToNode : List Int) (i jj : Int) (st : List Int × List Int × Int) :
    Option (List Int × List Int × Int) := do
  let kk ← rd elemToNode jj
  let m ← rd st.1 kk
  if m ≠ i then
    let marker ← wr st.1 kk i
    let graphValue ← wr st.2.1 st.2.2 kk
    pure (marker, graphValue, st.2.2 + 1)
  else
    pure st

/-- Body of `for (j = nPtr[i]; j < nPtr[i+1]; j++)`: the `dimElem` nodes of
element `nInd[j]` are visited, `jj` running from `dimElem * nInd[j]`. -/
def visitElem (elemToNode nInd : List Int) (dimElem i j : Int)
    (st : List Int × List Int × Int) : Option (List Int × List Int × Int) := do
  let e ← rd nInd j
  forUp (fun k st => visit elemToNode i (dimElem * e + k) st) dimElem.toNat 0 st

/-- Body of `for (i = 0; i < nbNodes; i++)` in the neighbour collection.
The state is `(marker, graphIndex, graphValue, nEdges)`. -/
def nodeStep (elemToNode nPtr nInd : List Int) (dimElem i : Int)
    (st : List Int × List Int × List Int × Int) :
    Option (List Int × List Int × List Int × Int) := do
  let marker ← wr st.1 i i
  let lo ← rd nPtr i
  let hi ← rd nPtr (i + 1)
  let r ← forUp (visitElem elemToNode nInd dimElem i) (hi - lo).toNat lo
            (marker, st.2.2.1, st.2.2.2)
  let graphIndex ← wr st.2.1 (i + 1) r.2.2
  pure (r.1, graphIndex, r.2.1, r.2.2)

/-- Function `mesh_to_nodal`: nodal graph (CSR) of a mesh.  `graphIndex`
and `graphValue` are the caller's buffers; the result is their final
content. -/
def mesh_to_nodal (graphIndex graphValue elemToNode : List Int)
    (nbElem dimElem nbNodes : Int) : Option (List Int × List Int) := do
  let nPtr ← alloc (nbNodes + 1) 0
  let nPtr ← forUp (countStep elemToNode) (dimElem * nbElem).toNat 0 nPtr
  let nPtr ← forUp prefixStep (nbNodes - 1).toNat 1 nPtr
  let nPtr ← shiftRight nbNodes nPtr
  let n ← rd nPtr nbNodes
  let nInd ← alloc n 0
  let st ← forUp (fun i st => forUp (fillStep elemToNode dimElem i) dimElem.toNat 0 st)
             nbElem.toNat 0 (nPtr, nInd)
  let nPtr ← shiftRight nbNodes st.1
  let marker ← alloc nbNodes (-1)
  let graphIndex ← wr graphIndex 0 0
  let r ← forUp (nodeStep elemToNode nPtr st.2 dimElem) nbNodes.toNat 0
            (marker, graphIndex, graphValue, 0)
  pure (r.2.1, r.2.2.1)

/-! ## create_sepToNode -/

/-- Search loop `for (newNode = 0; newNode < nbNodes; newNode++)` with its
`break`: the first argument is the number of iterations left when no match
stops the loop, the result is `(newNode, isNew)`. -/
def findNode (tmp : List Int) (oldNode : Int) : Nat → Int → Option (Int × Bool)
  | 0, newNode => some (newNode, true)
  | n + 1, newNode => do
    let t ← rd tmp newNode
    if oldNode = t then pure (newNode, false) else findNode tmp oldNode n (newNode + 1)

/-- Body of the renumbering loop over `i` (read position) and `j` (write
position).  The state is `(sepToNode, tmp, nbNodes, j)`. -/
def sepStep (elemToNode : List Int) (i : Int) (st : List Int × List Int × Int × Int) :
    Option (List Int × List Int × Int × Int) := do
  let oldNode ← rd elemToNode i
  let r ← findNode st.2.1 oldNode st.2.2.1.toNat 0
  let tmp ← if r.2 then wr st.2.1 st.2.2.1 oldNode else pure st.2.1
  let nbNodes := if r.2 then st.2.2.1 + 1 else st.2.2.1
  let sepToNode ← wr st.1 st.2.2.2 r.1
  pure (sepToNode, tmp, nbNodes, st.2.2.2 + 1)

/-- Function `create_sepToNode`: local renumbering of the nodes of the
elements `firstSepElem .. lastSepElem`.  `sepToNode` is the caller's buffer;
the result is `(sepToNode, elemToNode, nbNodes)`: the final content of the
buffer, the connectivity array on return, and the returned count. -/
def create_sepToNode (sepToNode elemToNode : List Int)
    (firstSepElem lastSepElem dimElem : Int) : Option (List Int × List Int × Int) := do
  let tmp ← alloc ((lastSepElem - firstSepElem + 1) * dimElem) 0
  let r ← forUp (sepStep elemToNode)
            ((lastSepElem + 1) * dimElem - firstSepElem * dimElem).toNat
            (firstSepElem * dimElem) (sepToNode, tmp, 0, 0)
  pure (r.1, elemToNode, r.2.2.1)

/-! ## Calls that leave the file -/

/-- Calls and lock operations a driver performs, in program order, with the
arguments passed.  The callees (`METIS_PartGraphRecursive`, `tree_creation`,
`init_dc_tree`, `fill_node_owner`, `DC_create_permutation`) are defined
outside the two source files; the tree reference, the null pointers and the
output-only arguments are left out, and `set_commLevel` stands for the
assignment of the global `commLevel` from `nbPart`.  The only call of
`init_dc_tree` passes `true` for both of its flags. -/
inductive Event where
  | lock
  | unlock
  | METIS_PartGraphRecursive (nvtxs ncon : Int) (xadj adjncy : List Int) (nparts : Int)
  | fill_node_owner (elemToNode : List Int)
      (firstElem lastElem dimElem firstNode lastNode curNode : Int) (isSep : Bool)
  | init_dc_tree (firstElem lastElem nbSepElem firstNode lastNode : Int) (isSep isLeaf : Bool)
  | tree_creation (elemToNode : List Int) (sepToNode : Option (List Int)) (nodePart : List Int)
      (nodePartSize : Option (List Int))
      (globalNbElem dimElem firstPart lastPart firstElem lastElem firstNode lastNode
        sepOffset curNode : Int) (isSep : Bool)
  | DC_create_permutation (part : List Int) (size nbPart : Int)
  | set_commLevel (nbPart : Int)
  deriving DecidableEq

/-- Modelled from the spec: the effect of the external collaborators on the
arrays of the drivers.  `nodePart call i` is the partition id the external
partitioner stores in `nodePart[i]` for the call `call`; `reordered call i`
is the value the tree builder leaves in `elemToNode[i]`. -/
structure Extern where
  nodePart : Event → Nat → Int
  reordered : Event → Nat → Int

/-- The event is a call of the external partitioner. -/
def Event.isPartitionerCall : Event → Bool
  | .METIS_PartGraphRecursive _ _ _ _ _ => true
  | _ => false

/-- The event is a call of the recursive tree builder. -/
def Event.isTreeBuilderCall : Event → Bool
  | .tree_creation _ _ _ _ _ _ _ _ _ _ _ _ _ _ _ => true
  | _ => false

/-- The event is the initialisation of a leaf by `init_dc_tree`. -/
def Event.isLeafInit : Event → Bool
  | .init_dc_tree _ _ _ _ _ _ _ => true
  | _ => false

/-- The event is a `lock` or an `unlock` of `metisMutex`. -/
def Event.isLockOp : Event → Bool
  | .lock => true
  | .unlock => true
  | _ => false

/-- Scan of a sequence of events with the state of `metisMutex` (`held`):
every call of the external partitioner is met while the lock is held. -/
def callsUnderLock : Bool → List Event → Bool
  | _, [] => true
  | held, ev :: rest =>
    match ev with
    | .lock => callsUnderLock true rest
    | .unlock => callsUnderLock false rest
    | .METIS_PartGraphRecursive _ _ _ _ _ => held && callsUnderLock held rest
    | _ => callsUnderLock held rest

/-- Modelled from the spec: the termination rule of the recursive tree
builder, whose code (`tree_creation`) is outside the source files.  A call
whose partition-id interval has collapsed to one id (`firstPart = lastPart`)
builds a single leaf; the result is the separator flag of that leaf, and
`none` for a call that splits and for any other event. -/
def Event.buildsLeaf : Event → Option Bool
  | .tree_creation _ _ _ _ _ _ firstPart lastPart _ _ _ _ _ _ isSep =>
    if firstPart = lastPart then some isSep else none
  | _ => none

/-- Content of the array `a` after a callee has rewritten every cell. -/
def overwrite (a : List Int) (f : Nat → Int) : List Int :=
  (List.range a.length).map f

/-- Value of `ceil (n / (double) m)` converted to `int`.  Both operands
convert to `double` exactly; for 32-bit operands the rounded quotient is an
integer only when the exact quotient is one, so the result is the exact
ceiling of the rational `n / m` (for `m ≠ 0`). -/
def ceilDiv (n m : Int) : Int :=
  -(Int.fdiv (-n) m)

/-! ## sep_partitioning -/

/-- Function `sep_partitioning`.  `MAX_ELEM_PER_PART` is the leaf threshold
(a macro defined outside the file) and `MULTITHREADED_COMM` tells whether
that macro is defined.  The result is the sequence of outside calls. -/
def sep_partitioning (MAX_ELEM_PER_PART : Int) (MULTITHREADED_COMM : Bool) (ext : Extern)
    (elemToNode : List Int)
    (globalNbElem dimElem firstSepElem lastSepElem firstNode lastNode curNode : Int) :
    Option (List Event) :=
  let nbSepElem := lastSepElem - firstSepElem + 1
  let nbSepPart := ceilDiv nbSepElem MAX_ELEM_PER_PART
  if nbSepPart < 2 ∨ nbSepElem ≤ MAX_ELEM_PER_PART then
    some ((if MULTITHREADED_COMM then
            [Event.fill_node_owner elemToNode firstSepElem lastSepElem dimElem firstNode
              lastNode curNode true]
          else []) ++
      [Event.init_dc_tree firstSepElem lastSepElem 0 firstNode lastNode true true])
  else do
    let sepToNode ← alloc (nbSepElem * dimElem) 0
    let s ← create_sepToNode sepToNode elemToNode firstSepElem lastSepElem dimElem
    let sepToNode := s.1
    let elemToNode := s.2.1
    let nbSepNodes := s.2.2
    let graphIndex ← alloc (nbSepNodes + 1) 0
    let graphValue ← alloc (nbSepNodes * 15) 0
    let nodePart ← alloc nbSepNodes 0
    let g ← mesh_to_nodal graphIndex graphValue sepToNode nbSepElem dimElem nbSepNodes
    let call := Event.METIS_PartGraphRecursive nbSepNodes 1 g.1 g.2 nbSepPart
    let nodePart := overwrite nodePart (ext.nodePart call)
    pure [Event.lock, call, Event.unlock,
      Event.tree_creation elemToNode (some sepToNode) nodePart none globalNbElem dimElem
        0 (nbSepPart - 1) firstSepElem lastSepElem firstNode lastNode 0 curNode true]

/-! ## partitioning -/

/-- Result of `partitioning`: the connectivity array on return, the global
`elemPerm` as initialised before the tree is built, and the outside calls. -/
structure Outcome where
  elemToNode : List Int
  elemPerm : List Int
  trace : List Event

/-- Function `partitioning`.  `elemPerm` is the global element permutation
buffer.  The parallel loops have independent iterations and are run in
index order. -/
def partitioning (MAX_ELEM_PER_PART : Int) (MULTITHREADED_COMM : Bool) (ext : Extern)
    (elemPerm elemToNode : List Int) (nbElem dimElem nbNodes : Int) : Option Outcome := do
  let elemToNode ← forUp (fun i a => do let v ← rd a i; wr a i (v - 1))
                     (nbElem * dimElem).toNat 0 elemToNode
  let nbPart := ceilDiv nbElem MAX_ELEM_PER_PART
  let graphIndex ← alloc (nbNodes + 1) 0
  let graphValue ← alloc (nbNodes * 15) 0
  let nodePart ← alloc nbNodes 0
  let g ← mesh_to_nodal graphIndex graphValue elemToNode nbElem dimElem nbNodes
  let call := Event.METIS_PartGraphRecursive nbNodes 1 g.1 g.2 nbPart
  let nodePart := overwrite nodePart (ext.nodePart call)
  let nodePartSize ← alloc nbPart 0
  let nodePartSize ← forUp (countStep nodePart) nbNodes.toNat 0 nodePartSize
  let elemPerm ← forUp (fun i a => wr a i i) nbElem.toNat 0 elemPerm
  let build := Event.tree_creation elemToNode none nodePart (some nodePartSize) nbElem dimElem
                 0 (nbPart - 1) 0 (nbElem - 1) 0 (nbNodes - 1) 0 0 false
  let elemToNode := overwrite elemToNode (ext.reordered build)
  let elemToNode ← forUp (fun i a => do let v ← rd a i; wr a i (v + 1))
                     (nbElem * dimElem).toNat 0 elemToNode
  pure { elemToNode := elemToNode, elemPerm := elemPerm,
         trace := (if MULTITHREADED_COMM then [Event.set_commLevel nbPart] else []) ++
           [call, Event.DC_create_permutation nodePart nbNodes nbPart, build] }

/-! ## Specification vocabulary -/

/-- Nodes of element `e`: the entries `elemToNode[e*dimElem .. (e+1)*dimElem)`. -/
def elemNodes (elemToNode : List Int) (dimElem e : Nat) : List Int :=
  (elemToNode.drop (e * dimElem)).take dimElem

/-- Some element of the mesh holds both `i` and `j`. -/
def shares (elemToNode : List Int) (nbElem dimElem : Nat) (i j : Int) : Bool :=
  (List.range nbElem).any fun e =>
    decide (i ∈ elemNodes elemToNode dimElem e) && decide (j ∈ elemNodes elemToNode dimElem e)

/-- The nodes other than `i` that share an element with `i`, in increasing order. -/
def neighbours (elemToNode : List Int) (nbElem dimElem nbNodes i : Nat) : List Nat :=
  (List.range nbNodes).filter fun j =>
    decide (j ≠ i) && shares elemToNode nbElem dimElem (i : Int) (j : Int)

/-- Number of adjacency entries of the nodes `0 .. i-1`. -/
def offset (elemToNode : List Int) (nbElem dimElem nbNodes i : Nat) : Nat :=
  ((List.range i).map fun u => (neighbours elemToNode nbElem dimElem nbNodes u).length).sum

/-- Number of adjacency entries of the whole nodal graph. -/
def nodalSize (elemToNode : List Int) (nbElem dimElem nbNodes : Nat) : Nat :=
  offset elemToNode nbElem dimElem nbNodes nbNodes

/-- The slice `graphValue[graphIndex[i] .. graphIndex[i+1])`. -/
def adjacency (graphIndex graphValue : List Int) (i : Nat) : List Int :=
  (graphValue.drop (graphIndex.getD i 0).toNat).take
    ((graphIndex.getD (i + 1) 0).toNat - (graphIndex.getD i 0).toNat)

/-! ## Auxiliary counts for the incidence index -/

/-- Offset of node `v` in the node-to-element index: the number of
connectivity entries smaller than `v`. -/
def start (elemToNode : List Int) (v : Nat) : Nat :=
  ((List.range v).map fun u => elemToNode.count (u : Int)).sum

/-- Invariant of the fill loops of `mesh_to_nodal` after `m` connectivity
entries: `st = (nPtr, nInd)`, `nPtr[v]` is the next free slot of node `v`
and the filled slots of `v` hold the elements of its occurrences. -/
def FillInv (l : List Int) (N d m : Nat) (st : List Int × List Int) : Prop :=
  st.1.length = N + 1 ∧ st.2.length = start l N ∧
  (∀ v, v < N → st.1[v]? = some ((start l v + (l.take m).count (v : Int) : Nat) : Int)) ∧
  (∀ v, v < N → ∀ k, start l v ≤ k → k < start l v + (l.take m).count (v : Int) →
    ∃ p, p < m ∧ l[p]? = some (v : Int) ∧ st.2[k]? = some ((p / d : Nat) : Int)) ∧
  (∀ p, p < m → ∀ v, v < N → l[p]? = some (v : Int) →
    ∃ k, start l v ≤ k ∧ k < start l v + (l.take m).count (v : Int) ∧
      st.2[k]? = some ((p / d : Nat) : Int))

/-! ## Invariants of the neighbour collection -/

/-- The `b` cells of `gv` from position `a`. -/
def slice (gv : List Int) (a b : Nat) : List Int :=
  (gv.drop a).take b

/-- The list `A` is the adjacency list of node `i`: no repetition, and its
members are the neighbours of `i`. -/
def AdjOK (l : List Int) (nbElem d N i : Nat) (A : List Int) : Prop :=
  A.Nodup ∧ ∀ x : Int, x ∈ A ↔ ∃ j : Nat, x = (j : Int) ∧ j ∈ neighbours l nbElem d N i

/-- Invariant of the two inner loops while node `i` is processed:
`st = (marker, graphValue, nEdges)`, `G0` is `graphValue` when the node was
entered, `A` is the part of the adjacency list of `i` written so far. -/
def VisitInv (l : List Int) (nbElem d N i : Nat) (G0 A : List Int)
    (st : List Int × List Int × Int) : Prop :=
  st.1.length = N ∧
  (∀ v, v < N → ∃ m, st.1[v]? = some m ∧ m ≤ (i : Int) ∧
    (m = (i : Int) ↔ (v = i ∨ (v : Int) ∈ A))) ∧
  st.2.1.length = G0.length ∧
  st.2.2 = ((offset l nbElem d N i + A.length : Nat) : Int) ∧
  st.2.1.take (offset l nbElem d N i) = G0.take (offset l nbElem d N i) ∧
  slice st.2.1 (offset l nbElem d N i) A.length = A ∧
  st.2.1.drop (offset l nbElem d N i + A.length) = G0.drop (offset l nbElem d N i + A.length) ∧
  A.Nodup ∧ (∀ x ∈ A, ∃ j : Nat, x = (j : Int) ∧ j ∈ neighbours l nbElem d N i)

/-- Invariant of the node loop before node `i`:
`st = (marker, graphIndex, graphValue, nEdges)`, `GI0` and `GV0` are the
caller's buffers on entry. -/
def NodeInv (l : List Int) (nbElem d N : Nat) (GI0 GV0 : List Int) (i : Nat)
    (st : List Int × List Int × List Int × Int) : Prop :=
  st.1.length = N ∧
  (∀ v, v < N → ∃ m, st.1[v]? = some m ∧ m < (i : Int)) ∧
  st.2.1.length = GI0.length ∧ st.2.2.1.length = GV0.length ∧
  st.2.2.2 = ((offset l nbElem d N i : Nat) : Int) ∧
  (∀ u, u ≤ i → st.2.1[u]? = some ((offset l nbElem d N u : Nat) : Int)) ∧
  st.2.1.drop (i + 1) = GI0.drop (i + 1) ∧
  st.2.2.1.drop (offset l nbElem d N i) = GV0.drop (offset l nbElem d N i) ∧
  (∀ u, u < i → AdjOK l nbElem d N u
    (slice st.2.2.1 (offset l nbElem d N u) (neighbours l nbElem d N u).length))

/-! ## Specification vocabulary of the renumbering -/

/-- The distinct values of `l` in the order of their first occurrence. -/
def firsts (l : List Int) : List Int :=
  l.foldl (fun D x => if x ∈ D then D else D ++ [x]) []

/-- The connectivity entries of the elements `first .. first + nb - 1`. -/
def sepSlice (elemToNode : List Int) (first nb d : Nat) : List Int :=
  (elemToNode.drop (first * d)).take (nb * d)

/-- The slice `S` with every value replaced by its rank among the first
occurrences. -/
def renumber (S : List Int) : List Int :=
  S.map fun x => (((firsts S).indexOf x : Nat) : Int)

/-- The connectivity entries of the separator elements
`firstSepElem .. lastSepElem`. -/
def sepNodes (elemToNode : List Int) (firstSepElem lastSepElem : Int) (dimElem : Nat) :
    List Int :=
  sepSlice elemToNode firstSepElem.toNat (lastSepElem - firstSepElem + 1).toNat dimElem

/-- Invariant of the renumbering loop after `k` entries of the slice `S`:
`st = (sepToNode, tmp, nbNodes, j)` and `buf` is the caller's buffer. -/
def SepInv (S buf : List Int) (T k : Nat) (st : List Int × List Int × Int × Int) : Prop :=
  st.2.2.2 = (k : Int) ∧
  st.2.2.1 = (((firsts (S.take k)).length : Nat) : Int) ∧
  st.2.1.length = T ∧
  st.2.1.take (firsts (S.take k)).length = firsts (S.take k) ∧
  st.1.length = buf.length ∧
  (∀ p, p < k → st.1[p]? = (S[p]?).map fun x => (((firsts (S.take k)).indexOf x : Nat) : Int)) ∧
  st.1.drop k = buf.drop k

/-! ## Memory and loop lemmas -/

theorem rd_natCast (a : List Int) (k : Nat) : rd a (k : Int) = a[k]? := by
  simp [rd]

theorem wr_natCast (a : List Int) (k : Nat) (v : Int) (h : k < a.length) :
    wr a (k : Int) v = some (a.set k v) := by
  simp [wr, h]

theorem alloc_natCast (n : Nat) (v : Int) : alloc (n : Int) v = some (List.replicate n v) := by
  simp [alloc]

/-- Invariant rule for `forUp`: the loop terminates normally and the
invariant holds after the last iteration. -/
theorem forUp_inv {σ : Type} (body : Int → σ → Option σ) (P : Nat → σ → Prop) :
    ∀ (n : Nat) (lo : Int) (s : σ), P 0 s →
      (∀ k s, k < n → P k s → ∃ s', body (lo + k) s = some s' ∧ P (k + 1) s') →
      ∃ s', forUp body n lo s = some s' ∧ P n s' := by
  intro n
  induction n generalizing P with
  | zero => intro lo s h0 _; exact ⟨s, rfl, h0⟩
  | succ n ih =>
    intro lo s h0 hstep
    obtain ⟨s1, hb, h1⟩ := hstep 0 s (Nat.succ_pos n) h0
    simp only [Nat.cast_zero, add_zero] at hb
    obtain ⟨s2, hf, h2⟩ := ih (fun k s => P (k + 1) s) (lo + 1) s1 h1 (by
      intro k s hk hP
      obtain ⟨s', hs', hP'⟩ := hstep (k + 1) s (Nat.succ_lt_succ hk) hP
      refine ⟨s', ?_, hP'⟩
      rw [← hs']; congr 1; push_cast; ring)
    exact ⟨s2, by simp [forUp, hb, hf], h2⟩

/-- Invariant rule for `forDown`. -/
theorem forDown_inv {σ : Type} (body : Int → σ → Option σ) (P : Nat → σ → Prop) :
    ∀ (n : Nat) (hi : Int) (s : σ), P 0 s →
      (∀ k s, k < n → P k s → ∃ s', body (hi - k) s = some s' ∧ P (k + 1) s') →
      ∃ s', forDown body n hi s = some s' ∧ P n s' := by
  intro n
  induction n generalizing P with
  | zero => intro hi s h0 _; exact ⟨s, rfl, h0⟩
  | succ n ih =>
    intro hi s h0 hstep
    obtain ⟨s1, hb, h1⟩ := hstep 0 s (Nat.succ_pos n) h0
    simp only [Nat.cast_zero, sub_zero] at hb
    obtain ⟨s2, hf, h2⟩ := ih (fun k s => P (k + 1) s) (hi - 1) s1 h1 (by
      intro k s hk hP
      obtain ⟨s', hs', hP'⟩ := hstep (k + 1) s (Nat.succ_lt_succ hk) hP
      refine ⟨s', ?_, hP'⟩
      rw [← hs']; congr 1; push_cast; ring)
    exact ⟨s2, by simp [forDown, hb, hf], h2⟩


theorem start_succ (l : List Int) (v : Nat) :
    start l (v + 1) = start l v + l.count (v : Int) := by
  simp [start, List.range_succ]

theorem start_mono (l : List Int) {u v : Nat} (h : u ≤ v) : start l u ≤ start l v := by
  induction h with
  | refl => exact le_refl _
  | step _ ih => rw [start_succ]; omega

theorem count_take_succ (l : List Int) (k : Nat) (x y : Int) (h : l[k]? = some x) :
    (l.take (k + 1)).count y = (l.take k).count y + if x = y then 1 else 0 := by
  rw [List.take_succ, h, List.count_append]
  simp [List.count_singleton]

theorem count_take_le (l : List Int) (k : Nat) (y : Int) : (l.take k).count y ≤ l.count y :=
  (List.take_sublist k l).count_le y

/-- A legal entry is the cast of a node id below `N`. -/
theorem entry_nat {l : List Int} {N : Nat} (hr : ∀ x ∈ l, 0 ≤ x ∧ x < (N : Int))
    {k : Nat} (hk : k < l.length) : ∃ v : Nat, v < N ∧ l[k]? = some (v : Int) := by
  have hm : l[k] ∈ l := List.getElem_mem hk
  obtain ⟨h0, h1⟩ := hr _ hm
  refine ⟨(l[k]).toNat, by omega, ?_⟩
  rw [List.getElem?_eq_getElem hk, Int.toNat_of_nonneg h0]

/-- A counting loop over `l` into a zeroed array of `M` cells, all entries
of `l` below `M`: cell `v` ends with the number of occurrences of `v`. -/
theorem count_loop (l : List Int) (M : Nat) (hr : ∀ x ∈ l, 0 ≤ x ∧ x < (M : Int)) :
    ∃ a, forUp (countStep l) l.length 0 (List.replicate M 0) = some a ∧
      a.length = M ∧ ∀ v, v < M → a[v]? = some ((l.count (v : Int) : Nat) : Int) := by
  obtain ⟨s, hs, hlen, hv⟩ := forUp_inv (countStep l)
    (fun k a => a.length = M ∧
      ∀ v, v < M → a[v]? = some (((l.take k).count (v : Int) : Nat) : Int))
    l.length 0 (List.replicate M 0)
    ⟨by simp, by
      intro v hv
      simp [List.getElem?_replicate, hv]⟩
    (by
      intro k a hk ⟨hlen, hv⟩
      obtain ⟨x, hx, hlk⟩ := entry_nat hr hk
      have hc := hv x hx
      refine ⟨a.set x (((l.take k).count (x : Int) : Nat) + 1), ?_, by simpa using hlen, ?_⟩
      · simp only [countStep, zero_add, rd_natCast, hlk, hc, Option.bind_eq_bind,
          Option.some_bind]
        exact wr_natCast _ _ _ (by omega)
      · intro v hvN
        rw [List.getElem?_set, count_take_succ l k _ _ hlk]
        by_cases hxv : x = v
        · subst hxv; simp [hlen]; omega
        · have : ¬ ((x : Int) = (v : Int)) := by exact_mod_cast hxv
          simp [hxv, this, hv v hvN])
  refine ⟨s, hs, hlen, ?_⟩
  intro v hvN
  simpa using hv v hvN

/-- First loop of `mesh_to_nodal`: occurrence counts. -/
theorem count_phase (l : List Int) (N : Nat) (hr : ∀ x ∈ l, 0 ≤ x ∧ x < (N : Int)) :
    ∃ nPtr, forUp (countStep l) l.length 0 (List.replicate (N + 1) 0) = some nPtr ∧
      nPtr.length = N + 1 ∧ ∀ v, v ≤ N → nPtr[v]? = some ((l.count (v : Int) : Nat) : Int) := by
  obtain ⟨a, h1, h2, h3⟩ := count_loop l (N + 1) (fun x hx => by
    have := hr x hx
    push_cast
    omega)
  exact ⟨a, h1, h2, fun v hv => h3 v (by omega)⟩

/-- Second loop of `mesh_to_nodal`: inclusive prefix sums. -/
theorem prefix_phase (l : List Int) (N : Nat) (nPtr : List Int) (hlen : nPtr.length = N + 1)
    (hc : ∀ v, v ≤ N → nPtr[v]? = some ((l.count (v : Int) : Nat) : Int)) :
    ∃ nPtr', forUp prefixStep (N - 1) 1 nPtr = some nPtr' ∧ nPtr'.length = N + 1 ∧
      ∀ v, v < N → nPtr'[v]? = some ((start l (v + 1) : Nat) : Int) := by
  obtain ⟨s, hs, hl, h1, _⟩ := forUp_inv prefixStep
    (fun k a => a.length = N + 1 ∧
      (∀ v, v ≤ k → v < N → a[v]? = some ((start l (v + 1) : Nat) : Int)) ∧
      (∀ v, k < v → v ≤ N → a[v]? = some ((l.count (v : Int) : Nat) : Int)))
    (N - 1) 1 nPtr
    ⟨hlen, by
      intro v hv hvN
      have : v = 0 := by omega
      subst this
      rw [hc 0 (by omega), start_succ]
      simp [start], fun v _ hvN => hc v hvN⟩
    (by
      intro k a hk ⟨hl, h1, h2⟩
      have e1 : (1 : Int) + (k : Int) = ((k + 1 : Nat) : Int) := by push_cast; ring
      have e2 : ((k + 1 : Nat) : Int) - 1 = (k : Int) := by push_cast; ring
      have r1 := h2 (k + 1) (by omega) (by omega)
      have r2 := h1 k (le_refl _) (by omega)
      refine ⟨a.set (k + 1) (((l.count ((k + 1 : Nat) : Int) : Nat) : Int) +
        ((start l (k + 1) : Nat) : Int)), ?_, by simpa using hl, ?_, ?_⟩
      · simp only [prefixStep, e1, e2, rd_natCast, r1, r2, Option.bind_eq_bind,
          Option.some_bind]
        exact wr_natCast _ _ _ (by omega)
      · intro v hv hvN
        rw [List.getElem?_set]
        by_cases hkv : k + 1 = v
        · subst hkv
          have : k + 1 < a.length := by omega
          simp only [this, if_true]
          rw [start_succ l (k + 1)]
          push_cast; congr 1; ring
        · simp only [hkv, if_false]
          exact h1 v (by omega) hvN
      · intro v hv hvN
        rw [List.getElem?_set]
        have : k + 1 ≠ v := by omega
        simp only [this, if_false]
        exact h2 v (by omega) hvN)
  exact ⟨s, hs, hl, fun v hv => h1 v (by omega) hv⟩

/-- The shift loop with the final `nPtr[0] = 0`. -/
theorem shift_phase (N : Nat) (nPtr : List Int) (f : Nat → Int) (hlen : nPtr.length = N + 1)
    (hf : ∀ v, v < N → nPtr[v]? = some (f v)) :
    ∃ nPtr', shiftRight (N : Int) nPtr = some nPtr' ∧ nPtr'.length = N + 1 ∧
      nPtr'[0]? = some 0 ∧ ∀ v, v < N → nPtr'[v + 1]? = some (f v) := by
  obtain ⟨s, hs, hl, h1, _⟩ := forDown_inv shiftStep
    (fun k a => a.length = N + 1 ∧
      (∀ v, v < N → N ≤ v + k → a[v + 1]? = some (f v)) ∧
      (∀ v, v < N → v + k < N → a[v]? = some (f v)))
    N (N : Int) nPtr
    ⟨hlen, fun v h1 h2 => by omega, fun v h1 _ => hf v h1⟩
    (by
      intro k a hk ⟨hl, h1, h2⟩
      have e1 : (N : Int) - (k : Int) = ((N - k - 1 + 1 : Nat) : Int) := by
        have : N - k - 1 + 1 = N - k := by omega
        rw [this, Nat.cast_sub (Nat.le_of_lt hk)]
      have e2 : ((N - k - 1 + 1 : Nat) : Int) - 1 = ((N - k - 1 : Nat) : Int) := by
        push_cast; ring
      have r := h2 (N - k - 1) (by omega) (by omega)
      refine ⟨a.set (N - k - 1 + 1) (f (N - k - 1)), ?_, by simpa using hl, ?_, ?_⟩
      · simp only [shiftStep, e1, e2, rd_natCast, r, Option.bind_eq_bind, Option.some_bind]
        exact wr_natCast _ _ _ (by omega)
      · intro v hvN hv
        rw [List.getElem?_set]
        by_cases hkv : N - k - 1 + 1 = v + 1
        · have : v = N - k - 1 := by omega
          subst this
          have : N - k - 1 + 1 < a.length := by omega
          simp [this]
        · simp only [hkv, if_false]
          exact h1 v hvN (by omega)
      · intro v hvN hv
        rw [List.getElem?_set]
        have : N - k - 1 + 1 ≠ v := by omega
        simp only [this, if_false]
        exact h2 v hvN (by omega))
  refine ⟨s.set 0 0, ?_, by simpa using hl, ?_, ?_⟩
  · simp only [shiftRight, Int.toNat_ofNat, hs, Option.bind_eq_bind, Option.some_bind]
    have h0 : 0 < s.length := by omega
    simpa using wr_natCast s 0 0 h0
  · have h0 : 0 < s.length := by omega
    rw [List.getElem?_set]; simp only [if_true, h0]
  · intro v hv
    rw [List.getElem?_set]
    simp only [show (0 : Nat) ≠ v + 1 by omega, if_false]
    exact h1 v hv (by omega)

theorem slot_lt (l : List Int) (m v : Nat) (h : l[m]? = some (v : Int)) :
    start l v + (l.take m).count (v : Int) < start l (v + 1) := by
  have h1 := count_take_succ l m _ (v : Int) h
  have h2 := count_take_le l (m + 1) (v : Int)
  rw [start_succ]
  simp only [if_true] at h1
  omega

theorem slot_ne (l : List Int) (m u v k : Nat) (h : l[m]? = some (v : Int)) (huv : u ≠ v)
    (h1 : start l u ≤ k) (h2 : k < start l u + (l.take m).count (u : Int)) :
    k ≠ start l v + (l.take m).count (v : Int) := by
  have hv := slot_lt l m v h
  have hu := count_take_le l m (u : Int)
  have hu1 := start_succ l u
  rcases Nat.lt_or_gt_of_ne huv with hlt | hgt
  · have := start_mono l (show u + 1 ≤ v by omega)
    omega
  · have := start_mono l (show v + 1 ≤ u by omega)
    omega

theorem fill_step_ok (l : List Int) (N d : Nat) (hr : ∀ x ∈ l, 0 ≤ x ∧ x < (N : Int))
    (m i j : Nat) (hm : m < l.length) (hij : i * d + j = m) (hj : j < d)
    (st : List Int × List Int) (hQ : FillInv l N d m st) :
    ∃ st', fillStep l (d : Int) (i : Int) (j : Int) st = some st' ∧ FillInv l N d (m + 1) st' := by
  obtain ⟨hl1, hl2, h3, h4, h5⟩ := hQ
  obtain ⟨v, hv, hlm⟩ := entry_nat hr hm
  have hslot := slot_lt l m v hlm
  have hN := start_mono l (show v + 1 ≤ N by omega)
  have hdiv : m / d = i := by
    rw [← hij, Nat.add_comm, Nat.add_mul_div_right _ _ (by omega), Nat.div_eq_of_lt hj]
    simp
  have eidx : (i : Int) * (d : Int) + (j : Int) = ((m : Nat) : Int) := by
    rw [← hij]; push_cast; ring
  have hcast : ∀ u : Nat, ((v : Int) = (u : Int)) ↔ v = u := fun u => by
    constructor
    · intro h; exact_mod_cast h
    · intro h; rw [h]
  refine ⟨(st.1.set v ((start l v + (l.take m).count (v : Int) : Nat) + 1),
    st.2.set (start l v + (l.take m).count (v : Int)) (i : Int)), ?_, ?_⟩
  · simp only [fillStep, eidx, rd_natCast, hlm, h3 v hv, Option.bind_eq_bind, Option.some_bind]
    rw [wr_natCast _ _ _ (by omega), wr_natCast _ _ _ (by omega)]
    rfl
  · refine ⟨by simpa using hl1, by simpa using hl2, ?_, ?_, ?_⟩
    · intro u hu
      simp only [List.getElem?_set, count_take_succ l m _ _ hlm, hcast]
      by_cases hvu : v = u
      · subst hvu
        have : v < st.1.length := by omega
        simp [this]; ring
      · simp only [hvu, if_false, add_zero]
        exact h3 u hu
    · intro u hu k hk1 hk2
      simp only [count_take_succ l m _ _ hlm, hcast] at hk2
      by_cases hkp : k = start l v + (l.take m).count (v : Int)
      · by_cases hvu : v = u
        · subst hvu
          refine ⟨m, by omega, hlm, ?_⟩
          simp only [List.getElem?_set, hkp, hdiv]
          have : start l v + (l.take m).count (v : Int) < st.2.length := by omega
          simp [this]
        · simp only [hvu, if_false, add_zero] at hk2
          exact absurd hkp (slot_ne l m u v k hlm (Ne.symm hvu) hk1 hk2)
      · have hk3 : k < start l u + (l.take m).count (u : Int) := by
          by_cases hvu : v = u
          · subst hvu; simp only [if_true] at hk2; omega
          · simpa [hvu] using hk2
        obtain ⟨p, hp, hlp, hnp⟩ := h4 u hu k hk1 hk3
        refine ⟨p, by omega, hlp, ?_⟩
        simp only [List.getElem?_set, Ne.symm hkp, if_false]
        exact hnp
    · intro p hp u hu hlp
      simp only [count_take_succ l m _ _ hlm, hcast]
      by_cases hpm : p = m
      · subst hpm
        have huv : v = u := by
          rw [hlm] at hlp
          exact_mod_cast Option.some.inj hlp
        subst huv
        refine ⟨start l v + (l.take p).count (v : Int), by omega, by simp, ?_⟩
        have : start l v + (l.take p).count (v : Int) < st.2.length := by omega
        simp [List.getElem?_set, this, hdiv]
      · obtain ⟨k, hk1, hk2, hnk⟩ := h5 p (by omega) u hu hlp
        have hkp : k ≠ start l v + (l.take m).count (v : Int) := by
          by_cases hvu : v = u
          · subst hvu; omega
          · exact slot_ne l m u v k hlm (Ne.symm hvu) hk1 hk2
        refine ⟨k, hk1, by omega, ?_⟩
        simp only [List.getElem?_set, Ne.symm hkp, if_false]
        exact hnk


/-- The fill loops of `mesh_to_nodal`. -/
theorem fill_phase (l : List Int) (N nbElem d : Nat) (hlen : l.length = nbElem * d)
    (hr : ∀ x ∈ l, 0 ≤ x ∧ x < (N : Int)) (st : List Int × List Int)
    (h0 : FillInv l N d 0 st) :
    ∃ st', forUp (fun i st => forUp (fillStep l (d : Int) i) ((d : Int).toNat) 0 st) nbElem 0 st
        = some st' ∧ FillInv l N d l.length st' := by
  obtain ⟨s, hs, hP⟩ := forUp_inv
    (fun i st => forUp (fillStep l (d : Int) i) ((d : Int).toNat) 0 st)
    (fun i st => FillInv l N d (i * d) st) nbElem 0 st (by simpa using h0)
    (by
      intro i st hi hQ
      obtain ⟨s, hs, hP⟩ := forUp_inv (fillStep l (d : Int) (0 + (i : Int)))
        (fun j st => FillInv l N d (i * d + j) st) d 0 st (by simpa using hQ)
        (by
          intro j st hj hQ
          have hm : i * d + j < l.length := by
            rw [hlen]
            calc i * d + j < i * d + d := by omega
              _ = (i + 1) * d := by ring
              _ ≤ nbElem * d := Nat.mul_le_mul_right d hi
          simpa using fill_step_ok l N d hr (i * d + j) i j hm rfl hj st hQ)
      refine ⟨s, by simpa using hs, ?_⟩
      have : (i + 1) * d = i * d + d := by ring
      show FillInv l N d ((i + 1) * d) s
      rw [this]; exact hP)
  exact ⟨s, hs, by rw [hlen]; exact hP⟩

theorem mem_elemNodes_iff (l : List Int) (d e : Nat) (x : Int) :
    x ∈ elemNodes l d e ↔ ∃ j, j < d ∧ l[e * d + j]? = some x := by
  simp only [elemNodes, List.mem_iff_getElem?, List.getElem?_take, List.getElem?_drop]
  constructor
  · rintro ⟨j, hj⟩
    by_cases h : j < d
    · exact ⟨j, h, by simpa [h] using hj⟩
    · simp [h] at hj
  · rintro ⟨j, h, hj⟩
    exact ⟨j, by simpa [h] using hj⟩

/-- The first five loops of `mesh_to_nodal` run without a fault and leave
the node-to-element index: `nPtr[v]` is the offset of node `v` and the slots
of `v` in `nInd` hold exactly the elements containing `v`. -/
theorem incidence (l : List Int) (N nbElem d : Nat) (hlen : l.length = nbElem * d)
    (hr : ∀ x ∈ l, 0 ≤ x ∧ x < (N : Int)) :
    ∃ p1 p2 p3 st nPtr,
      forUp (countStep l) ((d : Int) * (nbElem : Int)).toNat 0 (List.replicate (N + 1) 0)
        = some p1 ∧
      forUp prefixStep ((N : Int) - 1).toNat 1 p1 = some p2 ∧
      shiftRight (N : Int) p2 = some p3 ∧
      rd p3 (N : Int) = some ((start l N : Nat) : Int) ∧
      forUp (fun i st => forUp (fillStep l (d : Int) i) ((d : Int).toNat) 0 st)
        ((nbElem : Int).toNat) 0 (p3, List.replicate (start l N) 0) = some st ∧
      shiftRight (N : Int) st.1 = some nPtr ∧
      (∀ v, v ≤ N → nPtr[v]? = some ((start l v : Nat) : Int)) ∧
      (∀ v, v < N → ∀ k, start l v ≤ k → k < start l (v + 1) →
        ∃ e, e < nbElem ∧ st.2[k]? = some (e : Int) ∧ (v : Int) ∈ elemNodes l d e) ∧
      (∀ v, v < N → ∀ e, e < nbElem → (v : Int) ∈ elemNodes l d e →
        ∃ k, start l v ≤ k ∧ k < start l (v + 1) ∧ st.2[k]? = some (e : Int)) := by
  obtain ⟨p1, hp1, hl1, hc1⟩ := count_phase l N hr
  obtain ⟨p2, hp2, hl2, hc2⟩ := prefix_phase l N p1 hl1 hc1
  obtain ⟨p3, hp3, hl3, hz3, hc3⟩ := shift_phase N p2 _ hl2 hc2
  have hs3 : ∀ v, v ≤ N → p3[v]? = some ((start l v : Nat) : Int) := by
    intro v hv
    cases v with
    | zero => simpa [start] using hz3
    | succ u => exact hc3 u (by omega)
  have h0 : FillInv l N d 0 (p3, List.replicate (start l N) 0) := by
    refine ⟨hl3, by simp, ?_, ?_, ?_⟩
    · intro v hv; simpa using hs3 v (by omega)
    · intro v _ k h1 h2; simp at h2; omega
    · intro p hp; omega
  obtain ⟨st, hst, hl4, -, h3, h4, h5⟩ := fill_phase l N nbElem d hlen hr _ h0
  have hst' := hst
  simp only [Int.toNat_ofNat] at hst
  have hfull : ∀ v : Nat, (l.take l.length).count (v : Int) = l.count (v : Int) := by
    intro v; rw [List.take_length]
  obtain ⟨p5, hp5, hl5, hz5, hc5⟩ := shift_phase N st.1 (fun v => ((start l (v + 1) : Nat) : Int))
    hl4
    (by
      intro v hv
      show _ = some ((start l (v + 1) : Nat) : Int)
      rw [h3 v hv, hfull, start_succ])
  have hdiv : ∀ p, p < l.length → p / d < nbElem := by
    intro p hp
    rw [hlen] at hp
    have hd : 0 < d := by
      rcases Nat.eq_zero_or_pos d with h | h
      · subst h; simp at hp
      · exact h
    exact Nat.div_lt_of_lt_mul (by rw [Nat.mul_comm]; exact hp)
  have e1 : ((d : Int) * (nbElem : Int)).toNat = l.length := by
    rw [hlen, ← Nat.cast_mul, Int.toNat_ofNat, Nat.mul_comm]
  have e2 : ((N : Int) - 1).toNat = N - 1 := by omega
  refine ⟨p1, p2, p3, st, p5, by rw [e1]; exact hp1, by rw [e2]; exact hp2, hp3,
    by rw [rd_natCast]; exact hs3 N (le_refl _), by simpa using hst, hp5, ?_, ?_, ?_⟩
  · intro v hv
    cases v with
    | zero => simpa [start] using hz5
    | succ u => exact hc5 u (by omega)
  · intro v hv k hk1 hk2
    obtain ⟨p, hp, hlp, hnp⟩ := h4 v hv k hk1 (by rw [hfull, ← start_succ]; exact hk2)
    refine ⟨p / d, hdiv p hp, hnp, ?_⟩
    rw [mem_elemNodes_iff]
    refine ⟨p % d, Nat.mod_lt _ ?_, ?_⟩
    · rcases Nat.eq_zero_or_pos d with h | h
      · subst h; rw [hlen] at hp; simp at hp
      · exact h
    · rw [Nat.mul_comm, Nat.div_add_mod]; exact hlp
  · intro v hv e he hmem
    rw [mem_elemNodes_iff] at hmem
    obtain ⟨j, hj, hlj⟩ := hmem
    have hp : e * d + j < l.length := by
      rw [hlen]
      calc e * d + j < e * d + d := by omega
        _ = (e + 1) * d := by ring
        _ ≤ nbElem * d := Nat.mul_le_mul_right d he
    obtain ⟨k, hk1, hk2, hnk⟩ := h5 (e * d + j) hp v hv hlj
    refine ⟨k, hk1, by rw [start_succ, ← hfull]; exact hk2, ?_⟩
    have : (e * d + j) / d = e := by
      rw [Nat.add_comm, Nat.add_mul_div_right _ _ (by omega), Nat.div_eq_of_lt hj]; simp
    rw [this] at hnk; exact hnk

/-! ## Lemmas on the specification vocabulary -/

theorem mem_neighbours (l : List Int) (nbElem d N i j : Nat) :
    j ∈ neighbours l nbElem d N i ↔
      j < N ∧ j ≠ i ∧ ∃ e, e < nbElem ∧ (i : Int) ∈ elemNodes l d e ∧ (j : Int) ∈ elemNodes l d e := by
  simp [neighbours, shares, and_assoc]

theorem nodup_neighbours (l : List Int) (nbElem d N i : Nat) :
    (neighbours l nbElem d N i).Nodup :=
  (List.nodup_range N).filter _

theorem offset_succ (l : List Int) (nbElem d N i : Nat) :
    offset l nbElem d N (i + 1) = offset l nbElem d N i + (neighbours l nbElem d N i).length := by
  simp [offset, List.range_succ]

theorem offset_mono (l : List Int) (nbElem d N : Nat) {u v : Nat} (h : u ≤ v) :
    offset l nbElem d N u ≤ offset l nbElem d N v := by
  induction h with
  | refl => exact le_refl _
  | step _ ih => rw [offset_succ]; omega

/-- A duplicate-free list of neighbours is no longer than the neighbour list. -/
theorem length_le_neighbours (l : List Int) (nbElem d N i : Nat) (A : List Int) (hnd : A.Nodup)
    (hsub : ∀ x ∈ A, ∃ j : Nat, x = (j : Int) ∧ j ∈ neighbours l nbElem d N i) :
    A.length ≤ (neighbours l nbElem d N i).length := by
  have h : A ⊆ (neighbours l nbElem d N i).map (fun j : Nat => (j : Int)) := by
    intro x hx
    obtain ⟨j, rfl, hj⟩ := hsub x hx
    exact List.mem_map.2 ⟨j, hj, rfl⟩
  simpa using (List.subperm_of_subset hnd h).length_le

theorem AdjOK.perm {l : List Int} {nbElem d N i : Nat} {A : List Int}
    (h : AdjOK l nbElem d N i A) :
    A.Perm ((neighbours l nbElem d N i).map (fun j : Nat => (j : Int))) := by
  have hnd : ((neighbours l nbElem d N i).map (fun j : Nat => (j : Int))).Nodup :=
    (nodup_neighbours l nbElem d N i).map (fun a b hab => by exact_mod_cast hab)
  rw [List.perm_ext_iff_of_nodup h.1 hnd]
  intro x
  rw [h.2 x, List.mem_map]
  constructor
  · rintro ⟨j, rfl, hj⟩; exact ⟨j, hj, rfl⟩
  · rintro ⟨j, hj, rfl⟩; exact ⟨j, rfl, hj⟩

theorem AdjOK.length_eq {l : List Int} {nbElem d N i : Nat} {A : List Int}
    (h : AdjOK l nbElem d N i A) : A.length = (neighbours l nbElem d N i).length := by
  have hnd : ((neighbours l nbElem d N i).map (fun j : Nat => (j : Int))).Nodup :=
    (nodup_neighbours l nbElem d N i).map (fun a b hab => by exact_mod_cast hab)
  have hp : A.Perm ((neighbours l nbElem d N i).map (fun j : Nat => (j : Int))) := by
    rw [List.perm_ext_iff_of_nodup h.1 hnd]
    intro x
    rw [h.2 x, List.mem_map]
    constructor
    · rintro ⟨j, rfl, hj⟩; exact ⟨j, hj, rfl⟩
    · rintro ⟨j, hj, rfl⟩; exact ⟨j, rfl, hj⟩
  simpa using hp.length_eq

/-! ## List lemmas for buffer writes -/

theorem take_set_le (l : List Int) (m n : Nat) (x : Int) (h : m ≤ n) :
    (l.set n x).take m = l.take m := by
  apply List.ext_getElem?
  intro k
  simp only [List.getElem?_take, List.getElem?_set]
  by_cases hk : k < m
  · have : n ≠ k := by omega
    simp [hk, this]
  · simp [hk]

theorem slice_set_end (gv : List Int) (a b : Nat) (x : Int) (h : a + b < gv.length) :
    slice (gv.set (a + b) x) a (b + 1) = slice gv a b ++ [x] := by
  unfold slice
  rw [List.take_succ, List.getElem?_drop, List.getElem?_set]
  simp only [h, if_true, Option.toList]
  congr 1
  rw [List.drop_set]
  have : ¬ (a + b < a) := by omega
  simp only [this, if_false]
  rw [take_set_le _ _ _ _ (by omega)]

theorem slice_take (gv : List Int) (a b n : Nat) (h : a + b ≤ n) :
    slice (gv.take n) a b = slice gv a b := by
  unfold slice
  rw [List.drop_take, List.take_take]
  congr 1
  omega

theorem slice_congr (g g' : List Int) (a b n : Nat) (h : a + b ≤ n)
    (hg : g'.take n = g.take n) : slice g' a b = slice g a b := by
  rw [← slice_take g' a b n h, ← slice_take g a b n h, hg]

/-- One visit of the neighbour collection keeps the invariant. -/
theorem visit_ok (l : List Int) (nbElem d N i : Nat) (G0 A : List Int)
    (st : List Int × List Int × Int) (hV : VisitInv l nbElem d N i G0 A st)
    (hcap : offset l nbElem d N (i + 1) ≤ G0.length) (jj kk : Nat)
    (hl : l[jj]? = some (kk : Int)) (hkN : kk < N)
    (hco : kk = i ∨ kk ∈ neighbours l nbElem d N i) :
    ∃ st' A', visit l (i : Int) (jj : Int) st = some st' ∧ VisitInv l nbElem d N i G0 A' st' ∧
      (∀ x ∈ A, x ∈ A') ∧ ((kk : Int) = (i : Int) ∨ (kk : Int) ∈ A') := by
  obtain ⟨hm1, hm2, hgl, hne, htk, hsl, hdr, hnd, hsub⟩ := hV
  obtain ⟨m, hmk, hmle, hmiff⟩ := hm2 kk hkN
  by_cases hmi : m = (i : Int)
  · refine ⟨st, A, ?_, ⟨hm1, hm2, hgl, hne, htk, hsl, hdr, hnd, hsub⟩, fun x hx => hx, ?_⟩
    · simp [visit, rd_natCast, hl, hmk, hmi]
    · rcases hmiff.1 hmi with h | h
      · left; rw [h]
      · right; exact h
  · have hnot : ¬ (kk = i ∨ (kk : Int) ∈ A) := fun h => hmi (hmiff.2 h)
    have hki : kk ≠ i := fun h => hnot (Or.inl h)
    have hkA : (kk : Int) ∉ A := fun h => hnot (Or.inr h)
    have hkn : kk ∈ neighbours l nbElem d N i := by
      rcases hco with h | h
      · exact absurd h hki
      · exact h
    have hnd' : (A ++ [(kk : Int)]).Nodup := by
      rw [List.nodup_append]
      refine ⟨hnd, List.nodup_singleton _, ?_⟩
      intro x hx hx'
      rw [List.mem_singleton] at hx'
      subst hx'
      exact hkA hx
    have hsub' : ∀ x ∈ A ++ [(kk : Int)], ∃ j : Nat, x = (j : Int) ∧ j ∈ neighbours l nbElem d N i := by
      intro x hx
      rcases List.mem_append.1 hx with h | h
      · exact hsub x h
      · rw [List.mem_singleton] at h
        exact ⟨kk, h, hkn⟩
    have hlen := length_le_neighbours l nbElem d N i _ hnd' hsub'
    rw [List.length_append, List.length_singleton] at hlen
    have hoff := offset_succ l nbElem d N i
    have hlt : offset l nbElem d N i + A.length < st.2.1.length := by omega
    refine ⟨(st.1.set kk (i : Int), st.2.1.set (offset l nbElem d N i + A.length) (kk : Int),
      st.2.2 + 1), A ++ [(kk : Int)], ?_, ?_, fun x hx => List.mem_append_left _ hx,
      Or.inr (List.mem_append_right _ (List.mem_singleton_self _))⟩
    · simp only [visit, rd_natCast, hl, hmk, Option.bind_eq_bind, Option.some_bind, ne_eq, hmi,
        not_false_eq_true, if_true]
      rw [wr_natCast _ _ _ (by omega), hne, wr_natCast _ _ _ hlt]
      rfl
    · refine ⟨by simpa using hm1, ?_, by simpa using hgl, ?_, ?_, ?_, ?_, hnd', hsub'⟩
      · intro v hv
        by_cases hkv : kk = v
        · subst hkv
          refine ⟨(i : Int), ?_, le_refl _, ?_⟩
          · rw [List.getElem?_set]; simp [hm1, hv]
          · simp
        · obtain ⟨m', h1, h2, h3⟩ := hm2 v hv
          refine ⟨m', ?_, h2, ?_⟩
          · rw [List.getElem?_set]; simp only [hkv, if_false]; exact h1
          · rw [h3, List.mem_append, List.mem_singleton]
            have : ¬ ((v : Int) = (kk : Int)) := fun h => hkv (by exact_mod_cast h.symm)
            simp [this]
      · show st.2.2 + 1 = _
        rw [hne, List.length_append, List.length_singleton]
        push_cast; ring
      · show (st.2.1.set _ _).take _ = _
        rw [take_set_le _ _ _ _ (by omega)]; exact htk
      · show slice (st.2.1.set _ _) _ _ = _
        rw [List.length_append, List.length_singleton, slice_set_end _ _ _ _ hlt, hsl]
      · show (st.2.1.set _ _).drop _ = _
        rw [List.length_append, List.length_singleton, ← Nat.add_assoc,
          List.drop_set_of_lt _ _ (by omega)]
        have := congrArg (List.drop 1) hdr
        simpa [List.drop_drop, Nat.add_comm 1] using this


/-- The visit of the `d` nodes of one element holding node `i`. -/
theorem visitElem_ok (l : List Int) (nbElem d N i : Nat) (hlen : l.length = nbElem * d)
    (hr : ∀ x ∈ l, 0 ≤ x ∧ x < (N : Int)) (G0 A : List Int)
    (st : List Int × List Int × Int) (hV : VisitInv l nbElem d N i G0 A st)
    (hcap : offset l nbElem d N (i + 1) ≤ G0.length) (nInd : List Int) (j e : Nat)
    (hnj : nInd[j]? = some (e : Int)) (he : e < nbElem) (hie : (i : Int) ∈ elemNodes l d e) :
    ∃ st' A', visitElem l nInd (d : Int) (i : Int) (j : Int) st = some st' ∧
      VisitInv l nbElem d N i G0 A' st' ∧ (∀ x ∈ A, x ∈ A') ∧
      (∀ x ∈ elemNodes l d e, x = (i : Int) ∨ x ∈ A') := by
  obtain ⟨s, hs, A', hV', hsub, hcov⟩ := forUp_inv
    (fun k st => visit l (i : Int) ((d : Int) * (e : Int) + k) st)
    (fun t st => ∃ A', VisitInv l nbElem d N i G0 A' st ∧ (∀ x ∈ A, x ∈ A') ∧
      ∀ t', t' < t → ∀ x, l[e * d + t']? = some x → x = (i : Int) ∨ x ∈ A')
    d 0 st ⟨A, hV, fun x hx => hx, fun t' ht' => by omega⟩
    (by
      intro t st ht ⟨A1, hV1, hsub1, hcov1⟩
      have hp : e * d + t < l.length := by
        rw [hlen]
        calc e * d + t < e * d + d := by omega
          _ = (e + 1) * d := by ring
          _ ≤ nbElem * d := Nat.mul_le_mul_right d he
      obtain ⟨kk, hkN, hlk⟩ := entry_nat hr hp
      have hkmem : (kk : Int) ∈ elemNodes l d e := (mem_elemNodes_iff l d e _).2 ⟨t, ht, hlk⟩
      have hco : kk = i ∨ kk ∈ neighbours l nbElem d N i := by
        by_cases h : kk = i
        · exact Or.inl h
        · exact Or.inr ((mem_neighbours l nbElem d N i kk).2 ⟨hkN, h, e, he, hie, hkmem⟩)
      have eidx : (d : Int) * (e : Int) + (0 + (t : Int)) = ((e * d + t : Nat) : Int) := by
        push_cast; ring
      obtain ⟨st', A2, hvis, hV2, hsub2, hk2⟩ :=
        visit_ok l nbElem d N i G0 A1 st hV1 hcap (e * d + t) kk hlk hkN hco
      refine ⟨st', ?_, A2, hV2, fun x hx => hsub2 x (hsub1 x hx), ?_⟩
      · simp only [eidx]; exact hvis
      · intro t' ht' x hx
        by_cases h : t' = t
        · subst h
          rw [hlk] at hx
          have : x = (kk : Int) := (Option.some.inj hx).symm
          subst this; exact hk2
        · rcases hcov1 t' (by omega) x hx with h1 | h1
          · exact Or.inl h1
          · exact Or.inr (hsub2 x h1))
  refine ⟨s, A', ?_, hV', hsub, ?_⟩
  · simp only [visitElem, rd_natCast, hnj, Option.bind_eq_bind, Option.some_bind,
      Int.toNat_ofNat]
    exact hs
  · intro x hx
    obtain ⟨t, ht, hlt⟩ := (mem_elemNodes_iff l d e x).1 hx
    exact hcov t ht x hlt


/-- One iteration of the node loop. -/
theorem nodeStep_ok (l : List Int) (nbElem d N : Nat) (hlen : l.length = nbElem * d)
    (hr : ∀ x ∈ l, 0 ≤ x ∧ x < (N : Int)) (GI0 GV0 : List Int)
    (hGI : N + 1 ≤ GI0.length) (hcap : offset l nbElem d N N ≤ GV0.length)
    (nPtr nInd : List Int)
    (hP : ∀ v, v ≤ N → nPtr[v]? = some ((start l v : Nat) : Int))
    (hI1 : ∀ v, v < N → ∀ k, start l v ≤ k → k < start l (v + 1) →
      ∃ e, e < nbElem ∧ nInd[k]? = some (e : Int) ∧ (v : Int) ∈ elemNodes l d e)
    (hI2 : ∀ v, v < N → ∀ e, e < nbElem → (v : Int) ∈ elemNodes l d e →
      ∃ k, start l v ≤ k ∧ k < start l (v + 1) ∧ nInd[k]? = some (e : Int))
    (i : Nat) (hi : i < N) (st : List Int × List Int × List Int × Int)
    (hNI : NodeInv l nbElem d N GI0 GV0 i st) :
    ∃ st', nodeStep l nPtr nInd (d : Int) (i : Int) st = some st' ∧
      NodeInv l nbElem d N GI0 GV0 (i + 1) st' := by
  obtain ⟨hm1, hm2, hgil, hgvl, hne, hgi, hgid, hgvd, hadj⟩ := hNI
  have hmono := start_mono l (show i ≤ i + 1 by omega)
  have hcap' : offset l nbElem d N (i + 1) ≤ st.2.2.1.length := by
    have := offset_mono l nbElem d N (show i + 1 ≤ N by omega)
    omega
  have hV0 : VisitInv l nbElem d N i st.2.2.1 [] (st.1.set i (i : Int), st.2.2.1, st.2.2.2) := by
    refine ⟨by simpa using hm1, ?_, rfl, by simpa using hne, rfl, by simp [slice], rfl,
      List.nodup_nil, by simp⟩
    intro v hv
    by_cases hiv : i = v
    · subst hiv
      refine ⟨(i : Int), ?_, le_refl _, by simp⟩
      rw [List.getElem?_set]; simp [hm1, hv]
    · obtain ⟨m, h1, h2⟩ := hm2 v hv
      refine ⟨m, ?_, le_of_lt h2, ?_⟩
      · rw [List.getElem?_set]; simp only [hiv, if_false]; exact h1
      · constructor
        · intro h; omega
        · intro h
          rcases h with h | h
          · exact absurd h.symm hiv
          · simp at h
  obtain ⟨r, hr1, A, hV, hcov⟩ := forUp_inv (visitElem l nInd (d : Int) (i : Int))
    (fun k st' => ∃ A, VisitInv l nbElem d N i st.2.2.1 A st' ∧
      ∀ k', k' < k → ∀ e : Nat, nInd[start l i + k']? = some (e : Int) →
        ∀ x ∈ elemNodes l d e, x = (i : Int) ∨ x ∈ A)
    (start l (i + 1) - start l i) ((start l i : Nat) : Int)
    (st.1.set i (i : Int), st.2.2.1, st.2.2.2) ⟨[], hV0, fun k' hk' => by omega⟩
    (by
      intro k s hk ⟨A1, hV1, hcov1⟩
      obtain ⟨e, he, hne1, hie⟩ := hI1 i hi (start l i + k) (by omega) (by omega)
      have eidx : ((start l i : Nat) : Int) + (k : Int) = ((start l i + k : Nat) : Int) := by
        push_cast; rfl
      obtain ⟨s', A2, hve, hV2, hsub2, hcov2⟩ :=
        visitElem_ok l nbElem d N i hlen hr st.2.2.1 A1 s hV1 hcap' nInd (start l i + k) e
          hne1 he hie
      refine ⟨s', by rw [eidx]; exact hve, A2, hV2, ?_⟩
      intro k' hk' e' hne' x hx
      by_cases h : k' = k
      · subst h
        rw [hne1] at hne'
        have : e = e' := by exact_mod_cast Option.some.inj hne'
        subst this
        exact hcov2 x hx
      · rcases hcov1 k' (by omega) e' hne' x hx with h1 | h1
        · exact Or.inl h1
        · exact Or.inr (hsub2 x h1))
  obtain ⟨hv1, hv2, hvl, hvn, hvt, hvs, hvd, hvnd, hvsub⟩ := hV
  have hAdj : AdjOK l nbElem d N i A := by
    refine ⟨hvnd, fun x => ⟨hvsub x, ?_⟩⟩
    rintro ⟨j, rfl, hj⟩
    obtain ⟨hjN, hji, e, he, hie, hje⟩ := (mem_neighbours l nbElem d N i j).1 hj
    obtain ⟨k, hk1, hk2, hnk⟩ := hI2 i hi e he hie
    have hk : start l i + (k - start l i) = k := by omega
    rcases hcov (k - start l i) (by omega) e (by rw [hk]; exact hnk) _ hje with h | h
    · exact absurd (by exact_mod_cast h) hji
    · exact h
  have hAlen := hAdj.length_eq
  have hoff := offset_succ l nbElem d N i
  refine ⟨(r.1, st.2.1.set (i + 1) r.2.2, r.2.1, r.2.2), ?_, ?_⟩
  · have e1 : (i : Int) + 1 = ((i + 1 : Nat) : Int) := by push_cast; rfl
    have e2 : (((start l (i + 1) : Nat) : Int) - ((start l i : Nat) : Int)).toNat
        = start l (i + 1) - start l i := by omega
    have w1 : wr st.1 (i : Int) (i : Int) = some (st.1.set i (i : Int)) :=
      wr_natCast _ _ _ (by omega)
    have w2 : wr st.2.1 ((i + 1 : Nat) : Int) r.2.2 = some (st.2.1.set (i + 1) r.2.2) :=
      wr_natCast _ _ _ (by omega)
    simp only [nodeStep, w1, e1, rd_natCast, hP i (by omega), hP (i + 1) (by omega), e2, hr1,
      w2, Option.bind_eq_bind, Option.some_bind, Option.pure_def]
  · refine ⟨hv1, ?_, by simpa using hgil, by rw [← hgvl]; exact hvl, ?_, ?_, ?_, ?_, ?_⟩
    · intro v hv
      obtain ⟨m, h1, h2, _⟩ := hv2 v hv
      exact ⟨m, h1, by push_cast; omega⟩
    · show r.2.2 = _
      rw [hvn, hoff, hAlen]
    · intro u hu
      show (st.2.1.set (i + 1) r.2.2)[u]? = _
      rw [List.getElem?_set]
      by_cases h : i + 1 = u
      · subst h
        have : i + 1 < st.2.1.length := by omega
        simp only [this, if_true]
        rw [hvn, hoff, hAlen]
      · simp only [h, if_false]
        exact hgi u (by omega)
    · show (st.2.1.set (i + 1) r.2.2).drop (i + 1 + 1) = _
      rw [List.drop_set_of_lt _ _ (by omega)]
      have := congrArg (List.drop 1) hgid
      simpa [List.drop_drop, Nat.add_comm 1] using this
    · show r.2.1.drop _ = _
      rw [hoff, ← hAlen, hvd]
      have := congrArg (List.drop A.length) hgvd
      simpa [List.drop_drop, Nat.add_comm A.length] using this
    · intro u hu
      show AdjOK l nbElem d N u (slice r.2.1 _ _)
      by_cases h : u = i
      · subst h
        rw [← hAlen, hvs]; exact hAdj
      · have hu' : u < i := by omega
        have h1 := offset_succ l nbElem d N u
        have h2 := offset_mono l nbElem d N (show u + 1 ≤ i by omega)
        rw [slice_congr st.2.2.1 r.2.1 _ _ (offset l nbElem d N i) (by omega) hvt]
        exact hadj u hu'


/-- Main lemma on `mesh_to_nodal`: on a legal mesh, with a `graphIndex`
buffer of at least `N + 1` cells and a `graphValue` buffer that holds the
adjacency entries, the routine returns; `graphIndex[u]` is the number of
adjacency entries of the nodes before `u`, the slice of node `u` is its
adjacency list, and the cells past the last entry are left as they were. -/
theorem mesh_to_nodal_spec (GI GV l : List Int) (nbElem d N : Nat)
    (hlen : l.length = nbElem * d) (hr : ∀ x ∈ l, 0 ≤ x ∧ x < (N : Int))
    (hGI : N + 1 ≤ GI.length) (hcap : nodalSize l nbElem d N ≤ GV.length) :
    ∃ gi gv, mesh_to_nodal GI GV l (nbElem : Int) (d : Int) (N : Int) = some (gi, gv) ∧
      gi.length = GI.length ∧ gv.length = GV.length ∧
      (∀ u, u ≤ N → gi[u]? = some ((offset l nbElem d N u : Nat) : Int)) ∧
      gi.drop (N + 1) = GI.drop (N + 1) ∧
      gv.drop (offset l nbElem d N N) = GV.drop (offset l nbElem d N N) ∧
      (∀ u, u < N → AdjOK l nbElem d N u
        (slice gv (offset l nbElem d N u) (neighbours l nbElem d N u).length)) := by
  obtain ⟨p1, p2, p3, st, nPtr, h1, h2, h3, h4, h5, h6, hP, hI1, hI2⟩ :=
    incidence l N nbElem d hlen hr
  have hoff0 : offset l nbElem d N 0 = 0 := by simp [offset]
  have hN0 : NodeInv l nbElem d N GI GV 0 (List.replicate N (-1), GI.set 0 0, GV, 0) := by
    refine ⟨by simp, ?_, by simp, rfl, by simp [hoff0], ?_, ?_, rfl, fun u hu => by omega⟩
    · intro v hv
      exact ⟨-1, by simp [List.getElem?_replicate, hv], by simp⟩
    · intro u hu
      have : u = 0 := by omega
      subst this
      have h0 : 0 < GI.length := by omega
      show (GI.set 0 0)[0]? = _
      rw [List.getElem?_set, hoff0]; simp only [if_true, h0]; rfl
    · show (GI.set 0 0).drop (0 + 1) = _
      rw [List.drop_set_of_lt _ _ (by omega)]
  obtain ⟨r, hr1, hNI⟩ := forUp_inv (nodeStep l nPtr st.2 (d : Int))
    (fun i s => NodeInv l nbElem d N GI GV i s) N 0 _ hN0
    (by
      intro i s hi hs
      simpa using nodeStep_ok l nbElem d N hlen hr GI GV hGI hcap nPtr st.2 hP hI1 hI2 i hi s hs)
  obtain ⟨-, -, hgil, hgvl, -, hgi, hgid, hgvd, hadj⟩ := hNI
  refine ⟨r.2.1, r.2.2.1, ?_, hgil, hgvl, hgi, hgid, hgvd, hadj⟩
  have e3 : (N : Int) + 1 = ((N + 1 : Nat) : Int) := by push_cast; rfl
  have w0 : wr GI 0 0 = some (GI.set 0 0) := by
    have h0 : 0 < GI.length := by omega
    simpa using wr_natCast GI 0 0 h0
  simp only [Int.toNat_ofNat] at h5
  simp only [mesh_to_nodal, e3, alloc_natCast, h1, h2, h3, h4, h5, h6, w0, Int.toNat_ofNat, hr1,
    Option.bind_eq_bind, Option.some_bind, Option.pure_def]

/-! ## First-occurrence lists -/

theorem firsts_concat (l : List Int) (x : Int) :
    firsts (l ++ [x]) = if x ∈ firsts l then firsts l else firsts l ++ [x] := by
  simp [firsts, List.foldl_append]

theorem mem_firsts (l : List Int) (x : Int) : x ∈ firsts l ↔ x ∈ l := by
  induction l using List.reverseRecOn with
  | nil => simp [firsts]
  | append_singleton l y ih =>
    rw [firsts_concat]
    by_cases h : y ∈ firsts l
    · simp only [h, if_true, List.mem_append, List.mem_singleton]
      constructor
      · intro hx; exact Or.inl (ih.1 hx)
      · rintro (hx | hx)
        · exact ih.2 hx
        · rw [hx]; exact h
    · simp only [h, if_false, List.mem_append, List.mem_singleton, ih]

theorem nodup_firsts (l : List Int) : (firsts l).Nodup := by
  induction l using List.reverseRecOn with
  | nil => simp [firsts]
  | append_singleton l y ih =>
    rw [firsts_concat]
    by_cases h : y ∈ firsts l
    · simpa [h] using ih
    · simp only [h, if_false]
      rw [List.nodup_append]
      refine ⟨ih, List.nodup_singleton _, ?_⟩
      intro x hx hx'
      rw [List.mem_singleton] at hx'
      subst hx'
      exact h hx

theorem length_firsts_le (l : List Int) : (firsts l).length ≤ l.length := by
  induction l using List.reverseRecOn with
  | nil => simp [firsts]
  | append_singleton l y ih =>
    rw [firsts_concat]
    by_cases h : y ∈ firsts l
    · simp only [h, if_true, List.length_append, List.length_singleton]; omega
    · simp only [h, if_false, List.length_append, List.length_singleton]; omega

theorem firsts_prefix (l l' : List Int) : firsts l <+: firsts (l ++ l') := by
  induction l' using List.reverseRecOn with
  | nil => simp
  | append_singleton l' y ih =>
    rw [← List.append_assoc, firsts_concat]
    by_cases h : y ∈ firsts (l ++ l')
    · simpa [h] using ih
    · simp only [h, if_false]
      exact ih.trans (List.prefix_append _ _)

theorem card_firsts (l : List Int) : (firsts l).length = l.toFinset.card := by
  rw [← List.toFinset_card_of_nodup (nodup_firsts l)]
  congr 1
  ext x
  simp [mem_firsts]

theorem not_mem_take_indexOf (l : List Int) (x : Int) : x ∉ l.take (l.indexOf x) := by
  induction l with
  | nil => simp
  | cons a l ih =>
    by_cases h : a = x
    · subst h; simp
    · rw [List.indexOf_cons_ne _ h]
      simp only [Nat.succ_eq_add_one, List.take_succ_cons, List.mem_cons, not_or]
      exact ⟨fun hx => h hx.symm, ih⟩

/-- The local id of a value is the number of distinct values seen before
its first occurrence. -/
theorem indexOf_firsts (l : List Int) (x : Int) (hx : x ∈ l) :
    (firsts l).indexOf x = (firsts (l.take (l.indexOf x))).length := by
  have hk : l.indexOf x < l.length := List.indexOf_lt_length.2 hx
  have hget : l[l.indexOf x]? = some x := by
    rw [List.getElem?_eq_getElem hk, List.getElem_indexOf hk]
  have hnot : x ∉ firsts (l.take (l.indexOf x)) := by
    rw [mem_firsts]; exact not_mem_take_indexOf l x
  have hsucc : firsts (l.take (l.indexOf x + 1)) = firsts (l.take (l.indexOf x)) ++ [x] := by
    rw [List.take_succ, hget]
    simp only [Option.toList]
    rw [firsts_concat]
    simp [hnot]
  obtain ⟨rest, hrest⟩ : firsts (l.take (l.indexOf x + 1)) <+: firsts l := by
    have := firsts_prefix (l.take (l.indexOf x + 1)) (l.drop (l.indexOf x + 1))
    rwa [List.take_append_drop] at this
  rw [← hrest, hsucc, List.indexOf_append_of_mem (by simp),
    List.indexOf_append_of_not_mem hnot]
  simp


/-! ## The renumbering loop -/

/-- The search loop over the `D.length` cells of `tmp` from `s`, which hold
`D`, stops at the position of `x`, or runs to the end when `x` is absent. -/
theorem findNode_spec (x : Int) : ∀ (D tmp : List Int) (s : Nat),
    (tmp.drop s).take D.length = D →
    findNode tmp x D.length (s : Int) = some (((s + D.indexOf x : Nat) : Int), decide (x ∉ D)) := by
  intro D
  induction D with
  | nil => intro tmp s _; simp [findNode]
  | cons a D ih =>
    intro tmp s h
    have hs : tmp[s]? = some a := by
      have := congrArg (fun L => L[0]?) h
      simpa [List.getElem?_take, List.getElem?_drop] using this
    obtain ⟨hlt, hget⟩ := List.getElem?_eq_some_iff.1 hs
    have htl : (tmp.drop (s + 1)).take D.length = D := by
      rw [List.drop_eq_getElem_cons hlt, List.length_cons, List.take_succ_cons] at h
      exact (List.cons.inj h).2
    have e1 : (s : Int) + 1 = ((s + 1 : Nat) : Int) := by push_cast; rfl
    simp only [List.length_cons, findNode, rd_natCast, hs, Option.bind_eq_bind,
      Option.some_bind]
    by_cases hxa : x = a
    · subst hxa; simp
    · have hax : a ≠ x := fun h => hxa h.symm
      simp only [hxa, if_false, e1, ih tmp (s + 1) htl, List.indexOf_cons_ne _ hax,
        List.mem_cons, false_or]
      congr 3
      omega

theorem sepStep_ok (S buf l : List Int) (T k : Nat) (i : Int)
    (st : List Int × List Int × Int × Int) (hInv : SepInv S buf T k st) (x : Int)
    (hx : S[k]? = some x) (hli : rd l i = some x) (hT : S.length ≤ T)
    (hb : S.length ≤ buf.length) :
    ∃ st', sepStep l i st = some st' ∧ SepInv S buf T (k + 1) st' := by
  obtain ⟨hj, hn, htl, htk, hsl, hs, hsd⟩ := hInv
  have hk : k < S.length := (List.getElem?_eq_some_iff.1 hx).1
  have hlen := length_firsts_le (S.take k)
  have hlk : (S.take k).length = k := by simp; omega
  have hD' : firsts (S.take (k + 1)) =
      if x ∈ firsts (S.take k) then firsts (S.take k) else firsts (S.take k) ++ [x] := by
    rw [List.take_succ, hx]; simp only [Option.toList]; rw [firsts_concat]
  have hfind := findNode_spec x (firsts (S.take k)) st.2.1 0 (by simpa using htk)
  have e1 : ((0 : Nat) : Int) = 0 := rfl
  have e2 : st.2.2.1.toNat = (firsts (S.take k)).length := by rw [hn]; simp
  have e3 : st.2.2.2 + 1 = ((k + 1 : Nat) : Int) := by rw [hj]; push_cast; rfl
  rw [e1, Nat.zero_add] at hfind
  have hold : ∀ p, p < k → ∀ y, S[p]? = some y → y ∈ firsts (S.take k) := by
    intro p hp y hy
    rw [mem_firsts]
    exact List.mem_iff_getElem?.2 ⟨p, by rw [List.getElem?_take]; simp [hp, hy]⟩
  by_cases hmem : x ∈ firsts (S.take k)
  · simp only [hmem, if_true] at hD'
    refine ⟨(st.1.set k (((firsts (S.take k)).indexOf x : Nat) : Int), st.2.1, st.2.2.1,
      st.2.2.2 + 1), ?_, e3, by rw [hD']; exact hn, htl, by rw [hD']; exact htk,
      by simpa using hsl, ?_, ?_⟩
    · simp only [sepStep, hli, e2, hfind, hmem, Option.bind_eq_bind, Option.some_bind,
        not_true_eq_false, decide_False, Bool.false_eq_true, if_false, Option.pure_def]
      rw [hj, wr_natCast _ _ _ (by omega)]
      rfl
    · intro p hp
      show (st.1.set k _)[p]? = _
      rw [List.getElem?_set, hD']
      by_cases hkp : k = p
      · subst hkp
        have : k < st.1.length := by omega
        simp [this, hx]
      · simp only [hkp, if_false]
        exact hs p (by omega)
    · show (st.1.set k _).drop (k + 1) = _
      rw [List.drop_set_of_lt _ _ (by omega)]
      have := congrArg (List.drop 1) hsd
      simpa [List.drop_drop, Nat.add_comm 1] using this
  · simp only [hmem, if_false] at hD'
    have hidx : (firsts (S.take k)).indexOf x = (firsts (S.take k)).length :=
      List.indexOf_of_not_mem hmem
    refine ⟨(st.1.set k (((firsts (S.take k)).indexOf x : Nat) : Int),
      st.2.1.set (firsts (S.take k)).length x, st.2.2.1 + 1, st.2.2.2 + 1), ?_, e3, ?_,
      by simpa using htl, ?_, by simpa using hsl, ?_, ?_⟩
    · simp only [sepStep, hli, e2, hfind, hmem, Option.bind_eq_bind, Option.some_bind,
        not_false_eq_true, decide_True, if_true, Option.pure_def]
      rw [hn, wr_natCast _ _ _ (by omega), hj]
      simp only [Option.some_bind]
      rw [wr_natCast _ _ _ (by omega)]
      rfl
    · show st.2.2.1 + 1 = _
      rw [hn, hD', List.length_append, List.length_singleton]; push_cast; rfl
    · show (st.2.1.set _ _).take _ = _
      rw [hD', List.length_append, List.length_singleton, List.take_succ, List.getElem?_set]
      have : (firsts (S.take k)).length < st.2.1.length := by omega
      simp only [this, if_true, Option.toList]
      rw [take_set_le _ _ _ _ (le_refl _), htk]
    · intro p hp
      show (st.1.set k _)[p]? = _
      rw [List.getElem?_set, hD']
      by_cases hkp : k = p
      · subst hkp
        have : k < st.1.length := by omega
        simp only [this, if_true, hx, Option.map_some']
        rw [List.indexOf_append_of_not_mem hmem, hidx]
        simp
      · simp only [hkp, if_false]
        rw [hs p (by omega)]
        have hpS : p < S.length := by omega
        obtain ⟨y, hy⟩ : ∃ y, S[p]? = some y := ⟨S[p], List.getElem?_eq_getElem hpS⟩
        rw [hy]
        simp only [Option.map_some']
        rw [List.indexOf_append_of_mem (hold p (by omega) y hy)]
    · show (st.1.set k _).drop (k + 1) = _
      rw [List.drop_set_of_lt _ _ (by omega)]
      have := congrArg (List.drop 1) hsd
      simpa [List.drop_drop, Nat.add_comm 1] using this


theorem length_sepSlice (l : List Int) (f nb d : Nat) (hl : (f + nb) * d ≤ l.length) :
    (sepSlice l f nb d).length = nb * d := by
  have : (f + nb) * d = f * d + nb * d := by ring
  simp [sepSlice]; omega

theorem getElem?_sepSlice (l : List Int) (f nb d k : Nat) (hk : k < nb * d) :
    (sepSlice l f nb d)[k]? = l[f * d + k]? := by
  simp [sepSlice, List.getElem?_take, List.getElem?_drop, hk]

/-- Main lemma on `create_sepToNode`: for the elements `f .. f + nb - 1`
inside the connectivity array and a buffer of at least `nb * d` cells, the
routine returns the number of distinct values of the slice, the cell `p` of
the buffer holds the rank of the value at `p` among the first occurrences,
the cells past the slice are untouched and the connectivity is unchanged. -/
theorem create_sepToNode_spec (buf l : List Int) (f nb d : Nat)
    (hl : (f + nb) * d ≤ l.length) (hb : nb * d ≤ buf.length) :
    ∃ s, create_sepToNode buf l (f : Int) ((f : Int) + (nb : Int) - 1) (d : Int)
        = some (s, l, (((firsts (sepSlice l f nb d)).length : Nat) : Int)) ∧
      s.length = buf.length ∧
      (∀ p, p < nb * d → s[p]? = ((sepSlice l f nb d)[p]?).map fun x =>
        (((firsts (sepSlice l f nb d)).indexOf x : Nat) : Int)) ∧
      s.drop (nb * d) = buf.drop (nb * d) := by
  have hSl := length_sepSlice l f nb d hl
  obtain ⟨r, hr, hInv⟩ := forUp_inv (sepStep l)
    (fun k st => SepInv (sepSlice l f nb d) buf (nb * d) k st) (nb * d)
    ((f : Int) * (d : Int)) (buf, List.replicate (nb * d) 0, 0, 0)
    ⟨rfl, by simp [firsts], by simp, by simp [firsts], rfl, fun p hp => by omega, rfl⟩
    (by
      intro k st hk hI
      have hlt : f * d + k < l.length := by
        have : (f + nb) * d = f * d + nb * d := by ring
        omega
      have hx : (sepSlice l f nb d)[k]? = some l[f * d + k] := by
        rw [getElem?_sepSlice l f nb d k hk, List.getElem?_eq_getElem hlt]
      have eidx : (f : Int) * (d : Int) + (k : Int) = ((f * d + k : Nat) : Int) := by
        push_cast; rfl
      exact sepStep_ok _ buf l (nb * d) k _ st hI _ hx
        (by rw [eidx, rd_natCast, List.getElem?_eq_getElem hlt])
        (by omega) (by omega))
  obtain ⟨-, hn, -, -, hsl, hs, hsd⟩ := hInv
  have hfull : (sepSlice l f nb d).take (nb * d) = sepSlice l f nb d := by
    rw [← hSl, List.take_length]
  rw [hfull] at hn hs
  refine ⟨r.1, ?_, hsl, hs, hsd⟩
  have e1 : ((f : Int) + (nb : Int) - 1 - (f : Int) + 1) * (d : Int) = ((nb * d : Nat) : Int) := by
    push_cast; ring
  have e2 : (((f : Int) + (nb : Int) - 1 + 1) * (d : Int) - (f : Int) * (d : Int)).toNat
      = nb * d := by
    have : ((f : Int) + (nb : Int) - 1 + 1) * (d : Int) - (f : Int) * (d : Int)
        = ((nb * d : Nat) : Int) := by push_cast; ring
    rw [this, Int.toNat_ofNat]
  simp only [create_sepToNode, e1, e2, alloc_natCast, hr, hn, Option.bind_eq_bind,
    Option.some_bind, Option.pure_def]

/-! ## Ceiling division -/

theorem ceilDiv_le_iff (n m k : Int) (hm : 0 < m) : ceilDiv n m ≤ k ↔ n ≤ k * m := by
  unfold ceilDiv
  rw [Int.fdiv_eq_ediv _ (le_of_lt hm)]
  constructor
  · intro h
    have h1 : -k ≤ (-n) / m := by omega
    have h2 := (Int.le_ediv_iff_mul_le hm).1 h1
    have h3 : -k * m = -(k * m) := by ring
    omega
  · intro h
    have h3 : -k * m = -(k * m) := by ring
    have h1 : -k ≤ (-n) / m := (Int.le_ediv_iff_mul_le hm).2 (by omega)
    omega

/-- The value of `ceilDiv n m` is the least `k` with `n ≤ k * m`. -/
theorem ceilDiv_least (n m : Int) (hm : 0 < m) :
    n ≤ ceilDiv n m * m ∧ ∀ k : Int, n ≤ k * m → ceilDiv n m ≤ k :=
  ⟨(ceilDiv_le_iff n m _ hm).1 (le_refl _), fun k hk => (ceilDiv_le_iff n m k hm).2 hk⟩

theorem ceilDiv_lt_two_iff (n m : Int) (hm : 0 < m) : ceilDiv n m < 2 ↔ n ≤ m := by
  have := ceilDiv_le_iff n m 1 hm
  rw [one_mul] at this
  rw [← this]
  omega

/-! ## Simple loops of the drivers -/

/-- A loop `for (i = 0; i < n; i++) a[i] = f (a[i])` over the whole array. -/
theorem forUp_map (f : Int → Int) (a : List Int) :
    forUp (fun i b => (rd b i).bind fun v => wr b i (f v)) a.length 0 a = some (a.map f) := by
  obtain ⟨b, hb, hl, hp⟩ := forUp_inv (fun i b => (rd b i).bind fun v => wr b i (f v))
    (fun k b => b.length = a.length ∧
      ∀ p, b[p]? = if p < k then (a[p]?).map f else a[p]?)
    a.length 0 a ⟨rfl, fun p => by simp⟩
    (by
      intro k b hk ⟨hl, hp⟩
      have hbk : b[k]? = some a[k] := by
        rw [hp k]; simp [List.getElem?_eq_getElem hk]
      refine ⟨b.set k (f a[k]), ?_, by simpa using hl, ?_⟩
      · simp only [zero_add, rd_natCast, hbk, Option.some_bind]
        exact wr_natCast _ _ _ (by omega)
      · intro p
        rw [List.getElem?_set]
        by_cases hkp : k = p
        · subst hkp
          have : k < b.length := by omega
          simp [this, List.getElem?_eq_getElem hk]
        · simp only [hkp, if_false, hp p]
          by_cases h1 : p < k
          · have : p < k + 1 := by omega
            simp [h1, this]
          · have : ¬ p < k + 1 := by omega
            simp [h1, this])
  rw [hb]
  congr 1
  apply List.ext_getElem?
  intro p
  rw [hp p, List.getElem?_map]
  by_cases h : p < a.length
  · simp [h]
  · simp [h, List.getElem?_eq_none (Nat.le_of_not_lt h)]

/-- The loop `for (i = 0; i < n; i++) elemPerm[i] = i`. -/
theorem identity_loop (buf : List Int) (n : Nat) (h : n ≤ buf.length) :
    ∃ b, forUp (fun i a => wr a i i) n 0 buf = some b ∧ b.length = buf.length ∧
      (∀ p, p < n → b[p]? = some (p : Int)) ∧ b.drop n = buf.drop n := by
  obtain ⟨b, hb, hl, hp, hd⟩ := forUp_inv (fun i a => wr a i i)
    (fun k b => b.length = buf.length ∧ (∀ p, p < k → b[p]? = some (p : Int)) ∧
      b.drop k = buf.drop k)
    n 0 buf ⟨rfl, fun p hp => by omega, rfl⟩
    (by
      intro k b hk ⟨hl, hp, hd⟩
      refine ⟨b.set k (k : Int), ?_, by simpa using hl, ?_, ?_⟩
      · simp only [zero_add]
        exact wr_natCast _ _ _ (by omega)
      · intro p hpk
        rw [List.getElem?_set]
        by_cases hkp : k = p
        · subst hkp
          have : k < b.length := by omega
          simp [this]
        · simp only [hkp, if_false]
          exact hp p (by omega)
      · rw [List.drop_set_of_lt _ _ (by omega)]
        have := congrArg (List.drop 1) hd
        simpa [List.drop_drop, Nat.add_comm 1] using this)
  exact ⟨b, hb, hl, hp, hd⟩

theorem length_overwrite (a : List Int) (f : Nat → Int) : (overwrite a f).length = a.length := by
  simp [overwrite]

theorem getElem?_overwrite (a : List Int) (f : Nat → Int) (i : Nat) (h : i < a.length) :
    (overwrite a f)[i]? = some (f i) := by
  simp [overwrite, List.getElem?_map, List.getElem?_range h]

/-! ## The renumbered separator -/

theorem length_renumber (S : List Int) : (renumber S).length = S.length := by
  simp [renumber]

theorem renumber_range (S : List Int) :
    ∀ x ∈ renumber S, 0 ≤ x ∧ x < (((firsts S).length : Nat) : Int) := by
  intro x hx
  obtain ⟨y, hy, rfl⟩ := List.mem_map.1 hx
  refine ⟨by omega, ?_⟩
  exact_mod_cast List.indexOf_lt_length.2 ((mem_firsts S y).2 hy)

/-- Run of `create_sepToNode` on a fresh buffer of the size of the slice:
the buffer ends as the renumbered slice. -/
theorem create_sepToNode_fresh (l : List Int) (f nb d : Nat) (hl : (f + nb) * d ≤ l.length) :
    create_sepToNode (List.replicate (nb * d) 0) l (f : Int) ((f : Int) + (nb : Int) - 1) (d : Int)
      = some (renumber (sepSlice l f nb d), l,
          (((firsts (sepSlice l f nb d)).length : Nat) : Int)) := by
  obtain ⟨s, hs, hsl, hp, -⟩ :=
    create_sepToNode_spec (List.replicate (nb * d) 0) l f nb d hl (by simp)
  have hSl := length_sepSlice l f nb d hl
  have : s = renumber (sepSlice l f nb d) := by
    apply List.ext_getElem?
    intro p
    by_cases h : p < nb * d
    · rw [hp p h]; simp [renumber, List.getElem?_map]
    · rw [List.getElem?_eq_none (by simp at hsl; omega),
        List.getElem?_eq_none (by rw [length_renumber]; omega)]
  rw [hs, this]


/-- Run of `sep_partitioning` on an oversized separator made of the elements
`f .. f + nb - 1`, when the nodal graph of the renumbered separator fits the
`graphValue` buffer of `15 * nbSepNodes` cells. -/
theorem sep_partitioning_run (MAX : Int) (mt : Bool) (ext : Extern) (l : List Int)
    (globalNbElem : Int) (f nb d : Nat) (firstNode lastNode curNode : Int)
    (hMAX : 0 < MAX) (hbig : MAX < (nb : Int)) (hl : (f + nb) * d ≤ l.length)
    (hfit : nodalSize (renumber (sepSlice l f nb d)) nb d (firsts (sepSlice l f nb d)).length
      ≤ (firsts (sepSlice l f nb d)).length * 15) :
    ∃ gi gv,
      mesh_to_nodal (List.replicate ((firsts (sepSlice l f nb d)).length + 1) 0)
        (List.replicate ((firsts (sepSlice l f nb d)).length * 15) 0)
        (renumber (sepSlice l f nb d)) (nb : Int) (d : Int)
        (((firsts (sepSlice l f nb d)).length : Nat) : Int) = some (gi, gv) ∧
      sep_partitioning MAX mt ext l globalNbElem (d : Int) (f : Int) ((f : Int) + (nb : Int) - 1)
          firstNode lastNode curNode
        = some [Event.lock,
            Event.METIS_PartGraphRecursive (((firsts (sepSlice l f nb d)).length : Nat) : Int) 1
              gi gv (ceilDiv (nb : Int) MAX),
            Event.unlock,
            Event.tree_creation l (some (renumber (sepSlice l f nb d)))
              (overwrite (List.replicate (firsts (sepSlice l f nb d)).length 0)
                (ext.nodePart (Event.METIS_PartGraphRecursive
                  (((firsts (sepSlice l f nb d)).length : Nat) : Int) 1 gi gv
                  (ceilDiv (nb : Int) MAX))))
              none globalNbElem (d : Int) 0 (ceilDiv (nb : Int) MAX - 1) (f : Int)
              ((f : Int) + (nb : Int) - 1) firstNode lastNode 0 curNode true] := by
  have hSl := length_sepSlice l f nb d hl
  obtain ⟨gi, gv, hrun, -⟩ := mesh_to_nodal_spec
    (List.replicate ((firsts (sepSlice l f nb d)).length + 1) 0)
    (List.replicate ((firsts (sepSlice l f nb d)).length * 15) 0)
    (renumber (sepSlice l f nb d)) nb d (firsts (sepSlice l f nb d)).length
    (by rw [length_renumber, hSl]) (renumber_range _) (by simp) (by simpa using hfit)
  refine ⟨gi, gv, hrun, ?_⟩
  have e : (f : Int) + (nb : Int) - 1 - (f : Int) + 1 = (nb : Int) := by ring
  have hcond : ¬ (ceilDiv (nb : Int) MAX < 2 ∨ (nb : Int) ≤ MAX) := by
    rw [ceilDiv_lt_two_iff _ _ hMAX]; omega
  have e1 : (nb : Int) * (d : Int) = ((nb * d : Nat) : Int) := by push_cast; rfl
  have e2 : (((firsts (sepSlice l f nb d)).length : Nat) : Int) + 1
      = (((firsts (sepSlice l f nb d)).length + 1 : Nat) : Int) := by push_cast; rfl
  have e3 : (((firsts (sepSlice l f nb d)).length : Nat) : Int) * 15
      = (((firsts (sepSlice l f nb d)).length * 15 : Nat) : Int) := by push_cast; rfl
  simp only [sep_partitioning, e, hcond, if_false, e1, alloc_natCast, Option.bind_eq_bind,
    Option.some_bind, create_sepToNode_fresh l f nb d hl, e2, e3, hrun, Option.pure_def]


theorem ceilDiv_nonneg (n m : Int) (hn : 0 ≤ n) (hm : 0 < m) : 0 ≤ ceilDiv n m := by
  by_contra h
  have h1 := (ceilDiv_le_iff n m (-1) hm).1 (by omega)
  omega

/-- Run of `partitioning` on a legal 1-based mesh whose nodal graph fits the
`graphValue` buffer of `15 * nbNodes` cells, when the external partitioner
returns ids of `[0, nbPart)` and `elemPerm` has a cell per element. -/
theorem partitioning_run (MAX : Int) (mt : Bool) (ext : Extern) (elemPerm l : List Int)
    (nbElem d N : Nat) (hMAX : 0 < MAX) (hlen : l.length = nbElem * d)
    (hr : ∀ x ∈ l, 1 ≤ x ∧ x ≤ (N : Int))
    (hfit : nodalSize (l.map fun v => v - 1) nbElem d N ≤ N * 15)
    (hpart : ∀ call i, i < N →
      0 ≤ ext.nodePart call i ∧ ext.nodePart call i < ceilDiv (nbElem : Int) MAX)
    (hperm : nbElem ≤ elemPerm.length) :
    ∃ gi gv nodePart nodePartSize elemPerm' build,
      mesh_to_nodal (List.replicate (N + 1) 0) (List.replicate (N * 15) 0)
        (l.map fun v => v - 1) (nbElem : Int) (d : Int) (N : Int) = some (gi, gv) ∧
      nodePart = overwrite (List.replicate N 0)
        (ext.nodePart (Event.METIS_PartGraphRecursive (N : Int) 1 gi gv
          (ceilDiv (nbElem : Int) MAX))) ∧
      nodePartSize.length = (ceilDiv (nbElem : Int) MAX).toNat ∧
      (∀ p, p < (ceilDiv (nbElem : Int) MAX).toNat →
        nodePartSize[p]? = some ((nodePart.count (p : Int) : Nat) : Int)) ∧
      elemPerm'.length = elemPerm.length ∧
      (∀ p, p < nbElem → elemPerm'[p]? = some (p : Int)) ∧
      elemPerm'.drop nbElem = elemPerm.drop nbElem ∧
      build = Event.tree_creation (l.map fun v => v - 1) none nodePart (some nodePartSize)
        (nbElem : Int) (d : Int) 0 (ceilDiv (nbElem : Int) MAX - 1) 0 ((nbElem : Int) - 1) 0
        ((N : Int) - 1) 0 0 false ∧
      partitioning MAX mt ext elemPerm l (nbElem : Int) (d : Int) (N : Int)
        = some { elemToNode :=
                   (overwrite (l.map fun v => v - 1) (ext.reordered build)).map fun v => v + 1,
                 elemPerm := elemPerm',
                 trace := (if mt then [Event.set_commLevel (ceilDiv (nbElem : Int) MAX)]
                     else []) ++
                   [Event.METIS_PartGraphRecursive (N : Int) 1 gi gv
                      (ceilDiv (nbElem : Int) MAX),
                    Event.DC_create_permutation nodePart (N : Int)
                      (ceilDiv (nbElem : Int) MAX),
                    build] } := by
  obtain ⟨gi, gv, hrun, -⟩ := mesh_to_nodal_spec (List.replicate (N + 1) 0)
    (List.replicate (N * 15) 0) (l.map fun v => v - 1) nbElem d N
    (by rw [List.length_map, hlen])
    (by
      intro x hx
      obtain ⟨y, hy, rfl⟩ := List.mem_map.1 hx
      have := hr y hy
      constructor <;> omega)
    (by simp) (by simpa using hfit)
  have hk0 := ceilDiv_nonneg (nbElem : Int) MAX (by omega) hMAX
  obtain ⟨K, hK⟩ := Int.eq_ofNat_of_zero_le hk0
  have hnpl : (overwrite (List.replicate N 0)
      (ext.nodePart (Event.METIS_PartGraphRecursive (N : Int) 1 gi gv
        (ceilDiv (nbElem : Int) MAX)))).length = N := by
    rw [length_overwrite, List.length_replicate]
  obtain ⟨nps, hnps, hnpsl, hnpsc⟩ := count_loop
    (overwrite (List.replicate N 0)
      (ext.nodePart (Event.METIS_PartGraphRecursive (N : Int) 1 gi gv
        (ceilDiv (nbElem : Int) MAX)))) K
    (by
      intro x hx
      obtain ⟨i, hi, rfl⟩ := List.mem_map.1 hx
      have hi' : i < N := by simpa using hi
      have := hpart (Event.METIS_PartGraphRecursive (N : Int) 1 gi gv
        (ceilDiv (nbElem : Int) MAX)) i hi'
      exact ⟨this.1, by rw [← hK]; exact this.2⟩)
  rw [hnpl] at hnps
  obtain ⟨ep, hep, hepl, hepp, hepd⟩ := identity_loop elemPerm nbElem hperm
  have hKn : (ceilDiv (nbElem : Int) MAX).toNat = K := by rw [hK]; simp
  refine ⟨gi, gv, _, nps, ep, _, hrun, rfl, by rw [hKn]; exact hnpsl,
    by rw [hKn]; exact hnpsc, hepl, hepp, hepd, rfl, ?_⟩
  have e1 : ((nbElem : Int) * (d : Int)).toNat = l.length := by
    rw [hlen, ← Nat.cast_mul, Int.toNat_ofNat]
  have e2 : (N : Int) + 1 = ((N + 1 : Nat) : Int) := by push_cast; rfl
  have e3 : (N : Int) * 15 = ((N * 15 : Nat) : Int) := by push_cast; rfl
  have hdec := forUp_map (fun v => v - 1) l
  have hinc := forUp_map (fun v => v + 1)
    (overwrite (l.map fun v => v - 1)
      (ext.reordered (Event.tree_creation (l.map fun v => v - 1) none
        (overwrite (List.replicate N 0)
          (ext.nodePart (Event.METIS_PartGraphRecursive (N : Int) 1 gi gv
            (ceilDiv (nbElem : Int) MAX))))
        (some nps) (nbElem : Int) (d : Int) 0 (ceilDiv (nbElem : Int) MAX - 1) 0
        ((nbElem : Int) - 1) 0 ((N : Int) - 1) 0 0 false)))
  rw [length_overwrite, List.length_map] at hinc
  have hal : alloc (ceilDiv (nbElem : Int) MAX) 0 = some (List.replicate K 0) := by
    rw [hK]; exact alloc_natCast K 0
  simp only [partitioning, e1, e2, e3, alloc_natCast, hdec, hrun, hal, Int.toNat_ofNat, hnps,
    hep, hinc, Option.bind_eq_bind, Option.some_bind, Option.pure_def]

/-! ## Claims on mesh_to_nodal -/

/-- With the index written by `mesh_to_nodal`, the slice of node `i` starts
at the entry count of the nodes before it and has one cell per neighbour. -/
theorem adjacency_eq (l : List Int) (nbElem d N : Nat) (gi gv : List Int)
    (hgi : ∀ u, u ≤ N → gi[u]? = some ((offset l nbElem d N u : Nat) : Int))
    (i : Nat) (hi : i < N) :
    adjacency gi gv i = slice gv (offset l nbElem d N i) (neighbours l nbElem d N i).length := by
  have h1 := hgi i (by omega)
  have h2 := hgi (i + 1) (by omega)
  have h3 := offset_succ l nbElem d N i
  simp only [adjacency, slice, List.getD_eq_getElem?_getD, h1, h2, Option.getD_some,
    Int.toNat_ofNat]
  congr 1
  omega

/-- The written prefix of `graphValue` is the concatenation of the slices. -/
theorem take_offset_eq_flatten (l : List Int) (nbElem d N : Nat) (gv : List Int) (k : Nat) :
    gv.take (offset l nbElem d N k) =
      ((List.range k).map fun i =>
        slice gv (offset l nbElem d N i) (neighbours l nbElem d N i).length).flatten := by
  induction k with
  | zero => simp [offset]
  | succ k ih =>
    rw [offset_succ, List.take_add, ih, List.range_succ, List.map_append, List.flatten_append]
    simp [slice]

/-- C1: on a legal mesh (connectivity of length `nbElem * dimElem` with
entries in `[0, nbNodes)`; the caller's buffers large enough) `mesh_to_nodal`
returns, and for nodes `i`, `j` below `nbNodes` the node `j` is stored in
`graphValue[graphIndex[i] .. graphIndex[i+1])` exactly when `i ≠ j` and some
element `e < nbElem` holds both `i` and `j` among its `dimElem` entries. -/
theorem mesh_to_nodal_cooccurrence (graphIndex graphValue elemToNode : List Int)
    (nbElem dimElem nbNodes : Nat)
    (hlen : elemToNode.length = nbElem * dimElem)
    (hrange : ∀ x ∈ elemToNode, 0 ≤ x ∧ x < (nbNodes : Int))
    (hIndex : nbNodes + 1 ≤ graphIndex.length)
    (hValue : nodalSize elemToNode nbElem dimElem nbNodes ≤ graphValue.length) :
    ∃ gi gv, mesh_to_nodal graphIndex graphValue elemToNode nbElem dimElem nbNodes
        = some (gi, gv) ∧
      ∀ i j : Nat, i < nbNodes → j < nbNodes →
        ((j : Int) ∈ adjacency gi gv i ↔
          i ≠ j ∧ ∃ e, e < nbElem ∧ (i : Int) ∈ elemNodes elemToNode dimElem e ∧
            (j : Int) ∈ elemNodes elemToNode dimElem e) := by
  obtain ⟨gi, gv, hrun, -, -, hgi, -, -, hadj⟩ :=
    mesh_to_nodal_spec graphIndex graphValue elemToNode nbElem dimElem nbNodes hlen hrange
      hIndex hValue
  refine ⟨gi, gv, hrun, ?_⟩
  intro i j hi hj
  rw [adjacency_eq elemToNode nbElem dimElem nbNodes gi gv hgi i hi, (hadj i hi).2]
  constructor
  · rintro ⟨j', hjj, hmem⟩
    have : j = j' := by exact_mod_cast hjj
    subst this
    obtain ⟨-, hne, he⟩ := (mem_neighbours _ _ _ _ _ _).1 hmem
    exact ⟨fun h => hne h.symm, he⟩
  · rintro ⟨hne, he⟩
    exact ⟨j, rfl, (mem_neighbours _ _ _ _ _ _).2 ⟨hj, fun h => hne h.symm, he⟩⟩

/-- Instance of C1 on two triangles sharing an edge. -/
theorem mesh_to_nodal_cooccurrence_witness :
    ∃ gi gv, mesh_to_nodal (List.replicate 5 0) (List.replicate 10 0) [0, 1, 2, 1, 2, 3]
        ((2 : Nat) : Int) ((3 : Nat) : Int) ((4 : Nat) : Int) = some (gi, gv) ∧
      ∀ i j : Nat, i < 4 → j < 4 →
        ((j : Int) ∈ adjacency gi gv i ↔
          i ≠ j ∧ ∃ e, e < 2 ∧ (i : Int) ∈ elemNodes [0, 1, 2, 1, 2, 3] 3 e ∧
            (j : Int) ∈ elemNodes [0, 1, 2, 1, 2, 3] 3 e) :=
  mesh_to_nodal_cooccurrence (List.replicate 5 0) (List.replicate 10 0) [0, 1, 2, 1, 2, 3] 2 3 4
    (by decide) (by decide) (by decide) (by decide)


/-- C2: the graph written by `mesh_to_nodal` on a legal mesh has no self-loop
and no duplicate edge: the entries of the slice of every node `i` are
pairwise distinct and none of them is `i`. -/
theorem mesh_to_nodal_simple (graphIndex graphValue elemToNode : List Int)
    (nbElem dimElem nbNodes : Nat)
    (hlen : elemToNode.length = nbElem * dimElem)
    (hrange : ∀ x ∈ elemToNode, 0 ≤ x ∧ x < (nbNodes : Int))
    (hIndex : nbNodes + 1 ≤ graphIndex.length)
    (hValue : nodalSize elemToNode nbElem dimElem nbNodes ≤ graphValue.length) :
    ∃ gi gv, mesh_to_nodal graphIndex graphValue elemToNode nbElem dimElem nbNodes
        = some (gi, gv) ∧
      ∀ i : Nat, i < nbNodes →
        (adjacency gi gv i).Nodup ∧ (i : Int) ∉ adjacency gi gv i := by
  obtain ⟨gi, gv, hrun, -, -, hgi, -, -, hadj⟩ :=
    mesh_to_nodal_spec graphIndex graphValue elemToNode nbElem dimElem nbNodes hlen hrange
      hIndex hValue
  refine ⟨gi, gv, hrun, ?_⟩
  intro i hi
  rw [adjacency_eq elemToNode nbElem dimElem nbNodes gi gv hgi i hi]
  refine ⟨(hadj i hi).1, ?_⟩
  intro hmem
  obtain ⟨j, hij, hj⟩ := ((hadj i hi).2 _).1 hmem
  have : i = j := by exact_mod_cast hij
  subst this
  exact ((mem_neighbours _ _ _ _ _ _).1 hj).2.1 rfl

/-- Instance of C2 on three elements that repeat nodes. -/
theorem mesh_to_nodal_simple_witness :
    ∃ gi gv, mesh_to_nodal (List.replicate 4 0) (List.replicate 6 0) [0, 0, 1, 1, 2, 2, 2, 1, 0]
        ((3 : Nat) : Int) ((3 : Nat) : Int) ((3 : Nat) : Int) = some (gi, gv) ∧
      ∀ i : Nat, i < 3 → (adjacency gi gv i).Nodup ∧ (i : Int) ∉ adjacency gi gv i :=
  mesh_to_nodal_simple (List.replicate 4 0) (List.replicate 6 0) [0, 0, 1, 1, 2, 2, 2, 1, 0] 3 3 3
    (by decide) (by decide) (by decide) (by decide)

/-- C3: the graph written by `mesh_to_nodal` on a legal mesh is symmetric:
`j` is stored in the slice of `i` exactly when `i` is stored in the slice
of `j`. -/
theorem mesh_to_nodal_symmetric (graphIndex graphValue elemToNode : List Int)
    (nbElem dimElem nbNodes : Nat)
    (hlen : elemToNode.length = nbElem * dimElem)
    (hrange : ∀ x ∈ elemToNode, 0 ≤ x ∧ x < (nbNodes : Int))
    (hIndex : nbNodes + 1 ≤ graphIndex.length)
    (hValue : nodalSize elemToNode nbElem dimElem nbNodes ≤ graphValue.length) :
    ∃ gi gv, mesh_to_nodal graphIndex graphValue elemToNode nbElem dimElem nbNodes
        = some (gi, gv) ∧
      ∀ i j : Nat, i < nbNodes → j < nbNodes →
        ((j : Int) ∈ adjacency gi gv i ↔ (i : Int) ∈ adjacency gi gv j) := by
  obtain ⟨gi, gv, hrun, -, -, hgi, -, -, hadj⟩ :=
    mesh_to_nodal_spec graphIndex graphValue elemToNode nbElem dimElem nbNodes hlen hrange
      hIndex hValue
  refine ⟨gi, gv, hrun, ?_⟩
  have key : ∀ i j : Nat, i < nbNodes → j < nbNodes →
      (j : Int) ∈ adjacency gi gv i → (i : Int) ∈ adjacency gi gv j := by
    intro i j hi hj
    rw [adjacency_eq elemToNode nbElem dimElem nbNodes gi gv hgi i hi,
      adjacency_eq elemToNode nbElem dimElem nbNodes gi gv hgi j hj, (hadj i hi).2, (hadj j hj).2]
    rintro ⟨j', hjj, hmem⟩
    have : j = j' := by exact_mod_cast hjj
    subst this
    obtain ⟨-, hne, e, he, h1, h2⟩ := (mem_neighbours _ _ _ _ _ _).1 hmem
    exact ⟨i, rfl, (mem_neighbours _ _ _ _ _ _).2 ⟨hi, fun h => hne h.symm, e, he, h2, h1⟩⟩
  intro i j hi hj
  exact ⟨key i j hi hj, key j i hj hi⟩

/-- Instance of C3 on a chain of four segments. -/
theorem mesh_to_nodal_symmetric_witness :
    ∃ gi gv, mesh_to_nodal (List.replicate 6 0) (List.replicate 8 0) [0, 1, 1, 2, 3, 4, 4, 2]
        ((4 : Nat) : Int) ((2 : Nat) : Int) ((5 : Nat) : Int) = some (gi, gv) ∧
      ∀ i j : Nat, i < 5 → j < 5 →
        ((j : Int) ∈ adjacency gi gv i ↔ (i : Int) ∈ adjacency gi gv j) :=
  mesh_to_nodal_symmetric (List.replicate 6 0) (List.replicate 8 0) [0, 1, 1, 2, 3, 4, 4, 2] 4 2 5
    (by decide) (by decide) (by decide) (by decide)

/-- C4: on a legal mesh `mesh_to_nodal` writes a well-formed CSR index:
`graphIndex[0] = 0`; `graphIndex[i] ≤ graphIndex[i+1]` for `i < nbNodes`;
`graphIndex[nbNodes]` is the number `n` of cells written to `graphValue`
(the first `n` cells are the slices of the nodes `0 .. nbNodes-1` one after
the other, the cells from `n` on are untouched); every written cell is a
node id in `[0, nbNodes)`; and the slice of node `i` lists the neighbours
of `i`. -/
theorem mesh_to_nodal_csr (graphIndex graphValue elemToNode : List Int)
    (nbElem dimElem nbNodes : Nat)
    (hlen : elemToNode.length = nbElem * dimElem)
    (hrange : ∀ x ∈ elemToNode, 0 ≤ x ∧ x < (nbNodes : Int))
    (hIndex : nbNodes + 1 ≤ graphIndex.length)
    (hValue : nodalSize elemToNode nbElem dimElem nbNodes ≤ graphValue.length) :
    ∃ gi gv, mesh_to_nodal graphIndex graphValue elemToNode nbElem dimElem nbNodes
        = some (gi, gv) ∧
      gi[0]? = some 0 ∧
      (∀ i : Nat, i < nbNodes →
        ∃ a b : Nat, gi[i]? = some (a : Int) ∧ gi[i + 1]? = some (b : Int) ∧ a ≤ b) ∧
      (∃ n : Nat, gi[nbNodes]? = some (n : Int) ∧ n ≤ gv.length ∧
        gv.take n = ((List.range nbNodes).map (adjacency gi gv)).flatten ∧
        gv.drop n = graphValue.drop n ∧
        ∀ x ∈ gv.take n, 0 ≤ x ∧ x < (nbNodes : Int)) ∧
      (∀ i : Nat, i < nbNodes →
        (adjacency gi gv i).Perm
          ((neighbours elemToNode nbElem dimElem nbNodes i).map fun j : Nat => (j : Int))) := by
  obtain ⟨gi, gv, hrun, -, hgvl, hgi, -, hgvd, hadj⟩ :=
    mesh_to_nodal_spec graphIndex graphValue elemToNode nbElem dimElem nbNodes hlen hrange
      hIndex hValue
  have hflat : gv.take (offset elemToNode nbElem dimElem nbNodes nbNodes) =
      ((List.range nbNodes).map (adjacency gi gv)).flatten := by
    rw [take_offset_eq_flatten]
    congr 1
    apply List.map_congr_left
    intro i hi
    rw [adjacency_eq elemToNode nbElem dimElem nbNodes gi gv hgi i (List.mem_range.1 hi)]
  refine ⟨gi, gv, hrun, ?_, ?_, ⟨offset elemToNode nbElem dimElem nbNodes nbNodes,
    hgi nbNodes (le_refl _), ?_, hflat, hgvd, ?_⟩, ?_⟩
  · simpa [offset] using hgi 0 (Nat.zero_le _)
  · intro i hi
    exact ⟨_, _, hgi i (by omega), hgi (i + 1) (by omega),
      offset_mono elemToNode nbElem dimElem nbNodes (by omega)⟩
  · rw [hgvl]; exact hValue
  · intro x hx
    rw [hflat, List.mem_flatten] at hx
    obtain ⟨A, hA, hxA⟩ := hx
    obtain ⟨i, hi, rfl⟩ := List.mem_map.1 hA
    have hi' := List.mem_range.1 hi
    rw [adjacency_eq elemToNode nbElem dimElem nbNodes gi gv hgi i hi'] at hxA
    obtain ⟨j, rfl, hj⟩ := ((hadj i hi').2 x).1 hxA
    have := ((mem_neighbours _ _ _ _ _ _).1 hj).1
    exact ⟨by omega, by exact_mod_cast this⟩
  · intro i hi
    rw [adjacency_eq elemToNode nbElem dimElem nbNodes gi gv hgi i hi]
    exact (hadj i hi).perm

/-- Instance of C4 on two triangles over five nodes, one node unused. -/
theorem mesh_to_nodal_csr_witness :
    ∃ gi gv, mesh_to_nodal (List.replicate 7 9) (List.replicate 12 7) [0, 1, 3, 3, 1, 4]
        ((2 : Nat) : Int) ((3 : Nat) : Int) ((5 : Nat) : Int) = some (gi, gv) ∧
      gi[0]? = some 0 ∧
      (∀ i : Nat, i < 5 →
        ∃ a b : Nat, gi[i]? = some (a : Int) ∧ gi[i + 1]? = some (b : Int) ∧ a ≤ b) ∧
      (∃ n : Nat, gi[5]? = some (n : Int) ∧ n ≤ gv.length ∧
        gv.take n = ((List.range 5).map (adjacency gi gv)).flatten ∧
        gv.drop n = (List.replicate 12 7).drop n ∧
        ∀ x ∈ gv.take n, 0 ≤ x ∧ x < ((5 : Nat) : Int)) ∧
      (∀ i : Nat, i < 5 →
        (adjacency gi gv i).Perm
          ((neighbours [0, 1, 3, 3, 1, 4] 2 3 5 i).map fun j : Nat => (j : Int))) :=
  mesh_to_nodal_csr (List.replicate 7 9) (List.replicate 12 7) [0, 1, 3, 3, 1, 4] 2 3 5
    (by decide) (by decide) (by decide) (by decide)

/-! ## Claims on create_sepToNode -/

/-- Form of `create_sepToNode_spec` for an element range given by its two
ends `first ≤ last + 1`. -/
theorem create_sepToNode_run (buf l : List Int) (first last : Int) (d : Nat)
    (h0 : 0 ≤ first) (h1 : first ≤ last + 1)
    (hin : (last + 1) * (d : Int) ≤ (l.length : Int))
    (hbuf : (last - first + 1) * (d : Int) ≤ (buf.length : Int)) :
    ∃ s, create_sepToNode buf l first last (d : Int)
        = some (s, l,
            (((firsts (sepSlice l first.toNat (last - first + 1).toNat d)).length : Nat) : Int)) ∧
      s.length = buf.length ∧
      (∀ p, p < (last - first + 1).toNat * d →
        s[p]? = ((sepSlice l first.toNat (last - first + 1).toNat d)[p]?).map fun x =>
          (((firsts (sepSlice l first.toNat (last - first + 1).toNat d)).indexOf x : Nat) : Int)) ∧
      s.drop ((last - first + 1).toNat * d) = buf.drop ((last - first + 1).toNat * d) ∧
      (sepSlice l first.toNat (last - first + 1).toNat d).length
        = (last - first + 1).toNat * d := by
  have hf : first = ((first.toNat : Nat) : Int) := (Int.toNat_of_nonneg h0).symm
  have hnb : last - first + 1 = (((last - first + 1).toNat : Nat) : Int) :=
    (Int.toNat_of_nonneg (by omega)).symm
  have hlast : last = ((first.toNat : Nat) : Int) + (((last - first + 1).toNat : Nat) : Int) - 1 := by
    omega
  have hl : (first.toNat + (last - first + 1).toNat) * d ≤ l.length := by
    have : last + 1 = ((first.toNat + (last - first + 1).toNat : Nat) : Int) := by
      push_cast; omega
    rw [this] at hin
    exact_mod_cast hin
  have hb : (last - first + 1).toNat * d ≤ buf.length := by
    rw [hnb] at hbuf
    exact_mod_cast hbuf
  obtain ⟨s, hs, h2, h3, h4⟩ :=
    create_sepToNode_spec buf l first.toNat (last - first + 1).toNat d hl hb
  refine ⟨s, ?_, h2, h3, h4, length_sepSlice l _ _ d hl⟩
  rw [← hs]
  congr 1

/-- C5: for an element range `[firstSepElem, lastSepElem]` (possibly empty)
inside the connectivity array, `create_sepToNode` returns the number of
distinct node ids of the slice, every entry written to `sepToNode` lies in
`[0, count)` and every id of `[0, count)` is written at least once. -/
theorem create_sepToNode_contiguous (sepToNode elemToNode : List Int)
    (firstSepElem lastSepElem : Int) (dimElem : Nat)
    (hfirst : 0 ≤ firstSepElem) (hrange : firstSepElem ≤ lastSepElem + 1)
    (hin : (lastSepElem + 1) * (dimElem : Int) ≤ (elemToNode.length : Int))
    (hbuf : (lastSepElem - firstSepElem + 1) * (dimElem : Int) ≤ (sepToNode.length : Int)) :
    ∃ s e n, create_sepToNode sepToNode elemToNode firstSepElem lastSepElem dimElem
        = some (s, e, n) ∧
      n = (((sepSlice elemToNode firstSepElem.toNat (lastSepElem - firstSepElem + 1).toNat
              dimElem).toFinset.card : Nat) : Int) ∧
      (∀ p : Nat, p < (lastSepElem - firstSepElem + 1).toNat * dimElem →
        ∃ x, s[p]? = some x ∧ 0 ≤ x ∧ x < n) ∧
      (∀ c : Int, 0 ≤ c → c < n →
        ∃ p : Nat, p < (lastSepElem - firstSepElem + 1).toNat * dimElem ∧ s[p]? = some c) := by
  obtain ⟨s, hs, -, hp, -, hSl⟩ :=
    create_sepToNode_run sepToNode elemToNode firstSepElem lastSepElem dimElem hfirst hrange
      hin hbuf
  refine ⟨s, elemToNode, _, hs, by rw [card_firsts], ?_, ?_⟩
  · intro p hpl
    have hlt : p < (sepSlice elemToNode firstSepElem.toNat
        (lastSepElem - firstSepElem + 1).toNat dimElem).length := by omega
    refine ⟨(((firsts (sepSlice elemToNode firstSepElem.toNat
        (lastSepElem - firstSepElem + 1).toNat dimElem)).indexOf
          (sepSlice elemToNode firstSepElem.toNat
            (lastSepElem - firstSepElem + 1).toNat dimElem)[p] : Nat) : Int),
      by rw [hp p hpl, List.getElem?_eq_getElem hlt]; rfl, by omega, ?_⟩
    have : _ ∈ firsts (sepSlice elemToNode firstSepElem.toNat
        (lastSepElem - firstSepElem + 1).toNat dimElem) :=
      (mem_firsts _ _).2 (List.getElem_mem hlt)
    exact_mod_cast List.indexOf_lt_length.2 this
  · intro c hc0 hcn
    obtain ⟨k, rfl⟩ := Int.eq_ofNat_of_zero_le hc0
    have hk : k < (firsts (sepSlice elemToNode firstSepElem.toNat
        (lastSepElem - firstSepElem + 1).toNat dimElem)).length := by exact_mod_cast hcn
    have hmem := (mem_firsts _ _).1 (List.getElem_mem hk)
    obtain ⟨p, hpl, hpe⟩ := List.mem_iff_getElem.1 hmem
    refine ⟨p, by omega, ?_⟩
    rw [hp p (by omega), List.getElem?_eq_getElem hpl, hpe]
    simp only [Option.map_some']
    rw [List.indexOf_getElem (nodup_firsts _) k hk]

/-- Instance of C5 on the elements 1 and 2 of a four-element mesh. -/
theorem create_sepToNode_contiguous_witness :
    ∃ s e n, create_sepToNode (List.replicate 6 0) [7, 8, 9, 5, 9, 7, 3, 5, 5, 1, 1, 1] 1 2
        ((3 : Nat) : Int) = some (s, e, n) ∧
      n = (((sepSlice [7, 8, 9, 5, 9, 7, 3, 5, 5, 1, 1, 1] (1 : Int).toNat
              ((2 : Int) - 1 + 1).toNat 3).toFinset.card : Nat) : Int) ∧
      (∀ p : Nat, p < ((2 : Int) - 1 + 1).toNat * 3 → ∃ x, s[p]? = some x ∧ 0 ≤ x ∧ x < n) ∧
      (∀ c : Int, 0 ≤ c → c < n →
        ∃ p : Nat, p < ((2 : Int) - 1 + 1).toNat * 3 ∧ s[p]? = some c) :=
  create_sepToNode_contiguous (List.replicate 6 0) [7, 8, 9, 5, 9, 7, 3, 5, 5, 1, 1, 1] 1 2 3
    (by decide) (by decide) (by decide) (by decide)

/-- C6: `create_sepToNode` gives each original node one local id: two
positions of the copied slice receive the same local id exactly when they
hold the same original node, and the connectivity array is returned
unchanged. -/
theorem create_sepToNode_injective (sepToNode elemToNode : List Int)
    (firstSepElem lastSepElem : Int) (dimElem : Nat)
    (hfirst : 0 ≤ firstSepElem) (hrange : firstSepElem ≤ lastSepElem + 1)
    (hin : (lastSepElem + 1) * (dimElem : Int) ≤ (elemToNode.length : Int))
    (hbuf : (lastSepElem - firstSepElem + 1) * (dimElem : Int) ≤ (sepToNode.length : Int)) :
    ∃ s e n, create_sepToNode sepToNode elemToNode firstSepElem lastSepElem dimElem
        = some (s, e, n) ∧
      e = elemToNode ∧
      ∀ p q : Nat, p < (lastSepElem - firstSepElem + 1).toNat * dimElem →
        q < (lastSepElem - firstSepElem + 1).toNat * dimElem →
        (s[p]? = s[q]? ↔
          elemToNode[firstSepElem.toNat * dimElem + p]?
            = elemToNode[firstSepElem.toNat * dimElem + q]?) := by
  obtain ⟨s, hs, -, hp, -, hSl⟩ :=
    create_sepToNode_run sepToNode elemToNode firstSepElem lastSepElem dimElem hfirst hrange
      hin hbuf
  refine ⟨s, elemToNode, _, hs, rfl, ?_⟩
  intro p q hpl hql
  have hp' : p < (sepSlice elemToNode firstSepElem.toNat
      (lastSepElem - firstSepElem + 1).toNat dimElem).length := by omega
  have hq' : q < (sepSlice elemToNode firstSepElem.toNat
      (lastSepElem - firstSepElem + 1).toNat dimElem).length := by omega
  rw [hp p hpl, hp q hql, ← getElem?_sepSlice elemToNode _ _ dimElem p hpl,
    ← getElem?_sepSlice elemToNode _ _ dimElem q hql, List.getElem?_eq_getElem hp',
    List.getElem?_eq_getElem hq']
  simp only [Option.map_some', Option.some.injEq, Nat.cast_inj]
  exact List.indexOf_inj ((mem_firsts _ _).2 (List.getElem_mem hp'))
    ((mem_firsts _ _).2 (List.getElem_mem hq'))

/-- Instance of C6 on the elements 1 and 2 of a three-element mesh. -/
theorem create_sepToNode_injective_witness :
    ∃ s e n, create_sepToNode (List.replicate 4 0) [4, 4, 6, 2, 6, 4] 1 2
        ((2 : Nat) : Int) = some (s, e, n) ∧
      e = [4, 4, 6, 2, 6, 4] ∧
      ∀ p q : Nat, p < ((2 : Int) - 1 + 1).toNat * 2 → q < ((2 : Int) - 1 + 1).toNat * 2 →
        (s[p]? = s[q]? ↔
          ([4, 4, 6, 2, 6, 4] : List Int)[(1 : Int).toNat * 2 + p]?
            = ([4, 4, 6, 2, 6, 4] : List Int)[(1 : Int).toNat * 2 + q]?) :=
  create_sepToNode_injective (List.replicate 4 0) [4, 4, 6, 2, 6, 4] 1 2 2
    (by decide) (by decide) (by decide) (by decide)

/-- C7: `create_sepToNode` numbers the nodes in first-occurrence order: the
local id written at position `p` is the number of distinct original ids
that occur in the slice before the first occurrence of the node at `p`. -/
theorem create_sepToNode_first_occurrence (sepToNode elemToNode : List Int)
    (firstSepElem lastSepElem : Int) (dimElem : Nat)
    (hfirst : 0 ≤ firstSepElem) (hrange : firstSepElem ≤ lastSepElem + 1)
    (hin : (lastSepElem + 1) * (dimElem : Int) ≤ (elemToNode.length : Int))
    (hbuf : (lastSepElem - firstSepElem + 1) * (dimElem : Int) ≤ (sepToNode.length : Int)) :
    ∃ s e n, create_sepToNode sepToNode elemToNode firstSepElem lastSepElem dimElem
        = some (s, e, n) ∧
      ∀ p : Nat, p < (lastSepElem - firstSepElem + 1).toNat * dimElem →
        ∃ x, (sepSlice elemToNode firstSepElem.toNat (lastSepElem - firstSepElem + 1).toNat
                dimElem)[p]? = some x ∧
          s[p]? = some ((((sepSlice elemToNode firstSepElem.toNat
              (lastSepElem - firstSepElem + 1).toNat dimElem).take
                ((sepSlice elemToNode firstSepElem.toNat
                  (lastSepElem - firstSepElem + 1).toNat dimElem).indexOf x)).toFinset.card
                    : Nat) : Int) := by
  obtain ⟨s, hs, -, hp, -, hSl⟩ :=
    create_sepToNode_run sepToNode elemToNode firstSepElem lastSepElem dimElem hfirst hrange
      hin hbuf
  refine ⟨s, elemToNode, _, hs, ?_⟩
  intro p hpl
  have hp' : p < (sepSlice elemToNode firstSepElem.toNat
      (lastSepElem - firstSepElem + 1).toNat dimElem).length := by omega
  refine ⟨_, List.getElem?_eq_getElem hp', ?_⟩
  rw [hp p hpl, List.getElem?_eq_getElem hp']
  simp only [Option.map_some']
  rw [indexOf_firsts _ _ (List.getElem_mem hp'), card_firsts]

/-- Instance of C7 on a three-element mesh of segments. -/
theorem create_sepToNode_first_occurrence_witness :
    ∃ s e n, create_sepToNode (List.replicate 6 0) [3, 1, 3, 8, 1, 0] 0 2
        ((2 : Nat) : Int) = some (s, e, n) ∧
      ∀ p : Nat, p < ((2 : Int) - 0 + 1).toNat * 2 →
        ∃ x, (sepSlice [3, 1, 3, 8, 1, 0] (0 : Int).toNat ((2 : Int) - 0 + 1).toNat 2)[p]?
            = some x ∧
          s[p]? = some ((((sepSlice [3, 1, 3, 8, 1, 0] (0 : Int).toNat
              ((2 : Int) - 0 + 1).toNat 2).take
                ((sepSlice [3, 1, 3, 8, 1, 0] (0 : Int).toNat
                  ((2 : Int) - 0 + 1).toNat 2).indexOf x)).toFinset.card : Nat) : Int) :=
  create_sepToNode_first_occurrence (List.replicate 6 0) [3, 1, 3, 8, 1, 0] 0 2 2
    (by decide) (by decide) (by decide) (by decide)

/-! ## Claims on the partition drivers -/

/-- C8: with a positive threshold, `sep_partitioning` takes its early exit
exactly when the separator has at most `MAX_ELEM_PER_PART` elements (the
test on `ceil (nbSepElem / MAX_ELEM_PER_PART)` adds no case).  In that case
the only tree operation is `init_dc_tree` over
`[firstSepElem, lastSepElem]` with the separator and leaf flags set, and
neither the external partitioner nor the tree builder is called; in the
other case no leaf is initialised. -/
theorem sep_partitioning_leaf (MAX_ELEM_PER_PART : Int) (MULTITHREADED_COMM : Bool)
    (ext : Extern) (elemToNode : List Int)
    (globalNbElem dimElem firstSepElem lastSepElem firstNode lastNode curNode : Int)
    (hMAX : 0 < MAX_ELEM_PER_PART) :
    ((ceilDiv (lastSepElem - firstSepElem + 1) MAX_ELEM_PER_PART < 2 ∨
        lastSepElem - firstSepElem + 1 ≤ MAX_ELEM_PER_PART) ↔
      lastSepElem - firstSepElem + 1 ≤ MAX_ELEM_PER_PART) ∧
    (lastSepElem - firstSepElem + 1 ≤ MAX_ELEM_PER_PART →
      sep_partitioning MAX_ELEM_PER_PART MULTITHREADED_COMM ext elemToNode globalNbElem dimElem
          firstSepElem lastSepElem firstNode lastNode curNode
        = some ((if MULTITHREADED_COMM then
                  [Event.fill_node_owner elemToNode firstSepElem lastSepElem dimElem firstNode
                    lastNode curNode true]
                else []) ++
            [Event.init_dc_tree firstSepElem lastSepElem 0 firstNode lastNode true true]) ∧
      ∀ tr, sep_partitioning MAX_ELEM_PER_PART MULTITHREADED_COMM ext elemToNode globalNbElem
          dimElem firstSepElem lastSepElem firstNode lastNode curNode = some tr →
        ∀ ev ∈ tr, ev.isPartitionerCall = false ∧ ev.isTreeBuilderCall = false) ∧
    (MAX_ELEM_PER_PART < lastSepElem - firstSepElem + 1 →
      ∀ tr, sep_partitioning MAX_ELEM_PER_PART MULTITHREADED_COMM ext elemToNode globalNbElem
          dimElem firstSepElem lastSepElem firstNode lastNode curNode = some tr →
        ∀ ev ∈ tr, ev.isLeafInit = false) := by
  have hiff := ceilDiv_lt_two_iff (lastSepElem - firstSepElem + 1) MAX_ELEM_PER_PART hMAX
  refine ⟨by rw [hiff]; simp, ?_, ?_⟩
  · intro hle
    have hrun : sep_partitioning MAX_ELEM_PER_PART MULTITHREADED_COMM ext elemToNode globalNbElem
        dimElem firstSepElem lastSepElem firstNode lastNode curNode
        = some ((if MULTITHREADED_COMM then
                  [Event.fill_node_owner elemToNode firstSepElem lastSepElem dimElem firstNode
                    lastNode curNode true]
                else []) ++
            [Event.init_dc_tree firstSepElem lastSepElem 0 firstNode lastNode true true]) := by
      simp only [sep_partitioning, hle, or_true, if_true]
    refine ⟨hrun, ?_⟩
    intro tr htr ev hev
    rw [hrun] at htr
    have := Option.some.inj htr
    subst this
    cases MULTITHREADED_COMM
    · simp only [Bool.false_eq_true, if_false, List.nil_append, List.mem_singleton] at hev
      subst hev
      simp [Event.isPartitionerCall, Event.isTreeBuilderCall]
    · simp only [if_true, List.singleton_append, List.mem_cons, List.mem_singleton,
        List.not_mem_nil, or_false] at hev
      rcases hev with h | h <;> subst h <;>
        simp [Event.isPartitionerCall, Event.isTreeBuilderCall]
  · intro hgt tr htr ev hev
    have hcond : ¬ (ceilDiv (lastSepElem - firstSepElem + 1) MAX_ELEM_PER_PART < 2 ∨
        lastSepElem - firstSepElem + 1 ≤ MAX_ELEM_PER_PART) := by
      rw [hiff]; omega
    simp only [sep_partitioning, hcond, if_false, Option.bind_eq_bind, Option.bind_eq_some,
      Option.pure_def, Option.some.injEq] at htr
    obtain ⟨_, _, _, _, _, _, _, _, _, _, _, _, rfl⟩ := htr
    simp only [List.mem_cons, List.mem_singleton, List.not_mem_nil, or_false] at hev
    rcases hev with h | h | h | h <;> subst h <;> simp [Event.isLeafInit]

/-- Instance of C8 on a separator of three elements with threshold 3. -/
theorem sep_partitioning_leaf_witness :
    ((ceilDiv ((6 : Int) - 4 + 1) 3 < 2 ∨ (6 : Int) - 4 + 1 ≤ 3) ↔ (6 : Int) - 4 + 1 ≤ 3) ∧
    ((6 : Int) - 4 + 1 ≤ 3 →
      sep_partitioning 3 false ⟨fun _ _ => 0, fun _ _ => 0⟩ [] 10 4 4 6 0 20 5
        = some ((if false then [Event.fill_node_owner [] 4 6 4 0 20 5 true] else []) ++
            [Event.init_dc_tree 4 6 0 0 20 true true]) ∧
      ∀ tr, sep_partitioning 3 false ⟨fun _ _ => 0, fun _ _ => 0⟩ [] 10 4 4 6 0 20 5 = some tr →
        ∀ ev ∈ tr, ev.isPartitionerCall = false ∧ ev.isTreeBuilderCall = false) ∧
    ((3 : Int) < 6 - 4 + 1 →
      ∀ tr, sep_partitioning 3 false ⟨fun _ _ => 0, fun _ _ => 0⟩ [] 10 4 4 6 0 20 5 = some tr →
        ∀ ev ∈ tr, ev.isLeafInit = false) :=
  sep_partitioning_leaf 3 false ⟨fun _ _ => 0, fun _ _ => 0⟩ [] 10 4 4 6 0 20 5 (by decide)


/-- C9: for a separator with more than `MAX_ELEM_PER_PART > 0` elements
(inside the connectivity array, its nodal graph fitting the `graphValue`
buffer) `sep_partitioning` renumbers the separator with `create_sepToNode`,
builds the nodal graph of the local connectivity on `nbSepNodes` vertices
(the count returned by `create_sepToNode`), calls the external partitioner
under the lock for `nbSepPart = ceil (nbSepElem / MAX_ELEM_PER_PART)` parts,
`nbSepPart ≥ 2`, and then calls the tree builder on
`[firstSepElem, lastSepElem]` with the partition interval
`[0, nbSepPart - 1]`, the local connectivity and the separator flag set. -/
theorem sep_partitioning_split (MAX_ELEM_PER_PART : Int) (MULTITHREADED_COMM : Bool)
    (ext : Extern) (elemToNode : List Int) (globalNbElem : Int) (dimElem : Nat)
    (firstSepElem lastSepElem firstNode lastNode curNode : Int)
    (hMAX : 0 < MAX_ELEM_PER_PART)
    (hbig : MAX_ELEM_PER_PART < lastSepElem - firstSepElem + 1)
    (hfirst : 0 ≤ firstSepElem)
    (hin : (lastSepElem + 1) * (dimElem : Int) ≤ (elemToNode.length : Int))
    (hfit : nodalSize (renumber (sepNodes elemToNode firstSepElem lastSepElem dimElem))
        (lastSepElem - firstSepElem + 1).toNat dimElem
        (firsts (sepNodes elemToNode firstSepElem lastSepElem dimElem)).length
      ≤ (firsts (sepNodes elemToNode firstSepElem lastSepElem dimElem)).length * 15) :
    ∃ gi gv,
      create_sepToNode (List.replicate ((lastSepElem - firstSepElem + 1).toNat * dimElem) 0)
          elemToNode firstSepElem lastSepElem dimElem
        = some (renumber (sepNodes elemToNode firstSepElem lastSepElem dimElem), elemToNode,
            (((firsts (sepNodes elemToNode firstSepElem lastSepElem dimElem)).length : Nat)
              : Int)) ∧
      mesh_to_nodal
          (List.replicate
            ((firsts (sepNodes elemToNode firstSepElem lastSepElem dimElem)).length + 1) 0)
          (List.replicate
            ((firsts (sepNodes elemToNode firstSepElem lastSepElem dimElem)).length * 15) 0)
          (renumber (sepNodes elemToNode firstSepElem lastSepElem dimElem))
          (lastSepElem - firstSepElem + 1) dimElem
          (((firsts (sepNodes elemToNode firstSepElem lastSepElem dimElem)).length : Nat) : Int)
        = some (gi, gv) ∧
      2 ≤ ceilDiv (lastSepElem - firstSepElem + 1) MAX_ELEM_PER_PART ∧
      lastSepElem - firstSepElem + 1
        ≤ ceilDiv (lastSepElem - firstSepElem + 1) MAX_ELEM_PER_PART * MAX_ELEM_PER_PART ∧
      (∀ k : Int, lastSepElem - firstSepElem + 1 ≤ k * MAX_ELEM_PER_PART →
        ceilDiv (lastSepElem - firstSepElem + 1) MAX_ELEM_PER_PART ≤ k) ∧
      sep_partitioning MAX_ELEM_PER_PART MULTITHREADED_COMM ext elemToNode globalNbElem dimElem
          firstSepElem lastSepElem firstNode lastNode curNode
        = some [Event.lock,
            Event.METIS_PartGraphRecursive
              (((firsts (sepNodes elemToNode firstSepElem lastSepElem dimElem)).length : Nat)
                : Int) 1 gi gv (ceilDiv (lastSepElem - firstSepElem + 1) MAX_ELEM_PER_PART),
            Event.unlock,
            Event.tree_creation elemToNode
              (some (renumber (sepNodes elemToNode firstSepElem lastSepElem dimElem)))
              (overwrite
                (List.replicate
                  (firsts (sepNodes elemToNode firstSepElem lastSepElem dimElem)).length 0)
                (ext.nodePart (Event.METIS_PartGraphRecursive
                  (((firsts (sepNodes elemToNode firstSepElem lastSepElem dimElem)).length
                    : Nat) : Int) 1 gi gv
                  (ceilDiv (lastSepElem - firstSepElem + 1) MAX_ELEM_PER_PART))))
              none globalNbElem dimElem 0
              (ceilDiv (lastSepElem - firstSepElem + 1) MAX_ELEM_PER_PART - 1)
              firstSepElem lastSepElem firstNode lastNode 0 curNode true] := by
  obtain ⟨f, rfl⟩ := Int.eq_ofNat_of_zero_le hfirst
  obtain ⟨nb, hnb⟩ := Int.eq_ofNat_of_zero_le
    (show 0 ≤ lastSepElem - (f : Int) + 1 by omega)
  have hlast : lastSepElem = (f : Int) + (nb : Int) - 1 := by omega
  subst hlast
  have e : (f : Int) + (nb : Int) - 1 - (f : Int) + 1 = (nb : Int) := by ring
  have hl : (f + nb) * dimElem ≤ elemToNode.length := by
    have : (f : Int) + (nb : Int) - 1 + 1 = ((f + nb : Nat) : Int) := by push_cast; ring
    rw [this] at hin
    exact_mod_cast hin
  simp only [sepNodes, e, Int.toNat_ofNat] at hfit ⊢
  rw [e] at hbig
  obtain ⟨gi, gv, hrun, hsep⟩ := sep_partitioning_run MAX_ELEM_PER_PART MULTITHREADED_COMM ext
    elemToNode globalNbElem f nb dimElem firstNode lastNode curNode hMAX hbig hl hfit
  have hle := ceilDiv_lt_two_iff (nb : Int) MAX_ELEM_PER_PART hMAX
  have hleast := ceilDiv_least (nb : Int) MAX_ELEM_PER_PART hMAX
  refine ⟨gi, gv, create_sepToNode_fresh elemToNode f nb dimElem hl, hrun, ?_, hleast.1,
    hleast.2, hsep⟩
  by_contra hc
  have := hle.1 (by omega)
  omega


/-- Instance of C9 on a separator of two triangles with threshold 1. -/
theorem sep_partitioning_split_witness :
    ∃ gi gv,
      create_sepToNode (List.replicate (((2 : Int) - 1 + 1).toNat * 3) 0)
          [7, 8, 9, 5, 9, 7, 3, 5, 5, 1, 1, 1] 1 2 ((3 : Nat) : Int)
        = some (renumber (sepNodes [7, 8, 9, 5, 9, 7, 3, 5, 5, 1, 1, 1] 1 2 3),
            [7, 8, 9, 5, 9, 7, 3, 5, 5, 1, 1, 1],
            (((firsts (sepNodes [7, 8, 9, 5, 9, 7, 3, 5, 5, 1, 1, 1] 1 2 3)).length : Nat)
              : Int)) ∧
      mesh_to_nodal
          (List.replicate
            ((firsts (sepNodes [7, 8, 9, 5, 9, 7, 3, 5, 5, 1, 1, 1] 1 2 3)).length + 1) 0)
          (List.replicate
            ((firsts (sepNodes [7, 8, 9, 5, 9, 7, 3, 5, 5, 1, 1, 1] 1 2 3)).length * 15) 0)
          (renumber (sepNodes [7, 8, 9, 5, 9, 7, 3, 5, 5, 1, 1, 1] 1 2 3))
          ((2 : Int) - 1 + 1) ((3 : Nat) : Int)
          (((firsts (sepNodes [7, 8, 9, 5, 9, 7, 3, 5, 5, 1, 1, 1] 1 2 3)).length : Nat) : Int)
        = some (gi, gv) ∧
      2 ≤ ceilDiv ((2 : Int) - 1 + 1) 1 ∧
      (2 : Int) - 1 + 1 ≤ ceilDiv ((2 : Int) - 1 + 1) 1 * 1 ∧
      (∀ k : Int, (2 : Int) - 1 + 1 ≤ k * 1 → ceilDiv ((2 : Int) - 1 + 1) 1 ≤ k) ∧
      sep_partitioning 1 false ⟨fun _ _ => 0, fun _ _ => 0⟩
          [7, 8, 9, 5, 9, 7, 3, 5, 5, 1, 1, 1] 4 ((3 : Nat) : Int) 1 2 0 10 3
        = some [Event.lock,
            Event.METIS_PartGraphRecursive
              (((firsts (sepNodes [7, 8, 9, 5, 9, 7, 3, 5, 5, 1, 1, 1] 1 2 3)).length : Nat)
                : Int) 1 gi gv (ceilDiv ((2 : Int) - 1 + 1) 1),
            Event.unlock,
            Event.tree_creation [7, 8, 9, 5, 9, 7, 3, 5, 5, 1, 1, 1]
              (some (renumber (sepNodes [7, 8, 9, 5, 9, 7, 3, 5, 5, 1, 1, 1] 1 2 3)))
              (overwrite
                (List.replicate
                  (firsts (sepNodes [7, 8, 9, 5, 9, 7, 3, 5, 5, 1, 1, 1] 1 2 3)).length 0)
                ((⟨fun _ _ => 0, fun _ _ => 0⟩ : Extern).nodePart
                  (Event.METIS_PartGraphRecursive
                    (((firsts (sepNodes [7, 8, 9, 5, 9, 7, 3, 5, 5, 1, 1, 1] 1 2 3)).length
                      : Nat) : Int) 1 gi gv (ceilDiv ((2 : Int) - 1 + 1) 1))))
              none 4 ((3 : Nat) : Int) 0 (ceilDiv ((2 : Int) - 1 + 1) 1 - 1)
              1 2 0 10 0 3 true] :=
  sep_partitioning_split 1 false ⟨fun _ _ => 0, fun _ _ => 0⟩
    [7, 8, 9, 5, 9, 7, 3, 5, 5, 1, 1, 1] 4 3 1 2 0 10 3
    (by decide) (by decide) (by decide) (by decide) (by decide)

/-- C10: on a legal 1-based mesh (nodal graph fitting the `graphValue`
buffer, external partitioner returning ids of `[0, nbPart)`, `elemPerm`
holding a cell per element) `partitioning` returns, and the `nbPart` that it
passes to the external partitioner and uses for the partition interval
`[0, nbPart - 1]` of the tree builder is the least integer `k` with
`nbElem ≤ k * MAX_ELEM_PER_PART`. -/
theorem partitioning_nbPart (MAX_ELEM_PER_PART : Int) (MULTITHREADED_COMM : Bool)
    (ext : Extern) (elemPerm elemToNode : List Int) (nbElem dimElem nbNodes : Nat)
    (hMAX : 0 < MAX_ELEM_PER_PART)
    (hlen : elemToNode.length = nbElem * dimElem)
    (hrange : ∀ x ∈ elemToNode, 1 ≤ x ∧ x ≤ (nbNodes : Int))
    (hfit : nodalSize (elemToNode.map fun v => v - 1) nbElem dimElem nbNodes ≤ nbNodes * 15)
    (hpart : ∀ call i, i < nbNodes →
      0 ≤ ext.nodePart call i ∧
        ext.nodePart call i < ceilDiv (nbElem : Int) MAX_ELEM_PER_PART)
    (hperm : nbElem ≤ elemPerm.length) :
    ∃ out nbPart gi gv nodePart nodePartSize e,
      partitioning MAX_ELEM_PER_PART MULTITHREADED_COMM ext elemPerm elemToNode nbElem dimElem
        nbNodes = some out ∧
      out.trace = (if MULTITHREADED_COMM then [Event.set_commLevel nbPart] else []) ++
        [Event.METIS_PartGraphRecursive nbNodes 1 gi gv nbPart,
         Event.DC_create_permutation nodePart nbNodes nbPart,
         Event.tree_creation e none nodePart (some nodePartSize) nbElem dimElem
           0 (nbPart - 1) 0 ((nbElem : Int) - 1) 0 ((nbNodes : Int) - 1) 0 0 false] ∧
      (nbElem : Int) ≤ nbPart * MAX_ELEM_PER_PART ∧
      ∀ k : Int, (nbElem : Int) ≤ k * MAX_ELEM_PER_PART → nbPart ≤ k := by
  obtain ⟨gi, gv, nodePart, nodePartSize, elemPerm', build, -, -, -, -, -, -, -, hbuild, hrun⟩ :=
    partitioning_run MAX_ELEM_PER_PART MULTITHREADED_COMM ext elemPerm elemToNode nbElem
      dimElem nbNodes hMAX hlen hrange hfit hpart hperm
  have hleast := ceilDiv_least (nbElem : Int) MAX_ELEM_PER_PART hMAX
  refine ⟨_, ceilDiv (nbElem : Int) MAX_ELEM_PER_PART, gi, gv, nodePart, nodePartSize,
    elemToNode.map fun v => v - 1, hrun, ?_, hleast.1, hleast.2⟩
  rw [hbuild]

/-- Instance of C10 on three triangles over four nodes with threshold 2. -/
theorem partitioning_nbPart_witness :
    ∃ out nbPart gi gv nodePart nodePartSize e,
      partitioning 2 true ⟨fun _ _ => 1, fun _ _ => 3⟩ [9, 9, 9] [1, 2, 3, 2, 3, 4, 4, 1, 1]
        ((3 : Nat) : Int) ((3 : Nat) : Int) ((4 : Nat) : Int) = some out ∧
      out.trace = (if true then [Event.set_commLevel nbPart] else []) ++
        [Event.METIS_PartGraphRecursive ((4 : Nat) : Int) 1 gi gv nbPart,
         Event.DC_create_permutation nodePart ((4 : Nat) : Int) nbPart,
         Event.tree_creation e none nodePart (some nodePartSize) ((3 : Nat) : Int)
           ((3 : Nat) : Int) 0 (nbPart - 1) 0 (((3 : Nat) : Int) - 1) 0
           (((4 : Nat) : Int) - 1) 0 0 false] ∧
      ((3 : Nat) : Int) ≤ nbPart * 2 ∧
      ∀ k : Int, ((3 : Nat) : Int) ≤ k * 2 → nbPart ≤ k :=
  partitioning_nbPart 2 true ⟨fun _ _ => 1, fun _ _ => 3⟩ [9, 9, 9] [1, 2, 3, 2, 3, 4, 4, 1, 1]
    3 3 4 (by decide) (by decide) (by decide) (by decide)
    (fun _ _ _ => ⟨show (0 : Int) ≤ 1 by decide,
      show (1 : Int) < ceilDiv ((3 : Nat) : Int) 2 by decide⟩) (by decide)

/-! ## Counting lemmas -/

theorem start_cons (x : Int) (l : List Int) (v : Nat) :
    start (x :: l) v = start l v + if 0 ≤ x ∧ x < (v : Int) then 1 else 0 := by
  induction v with
  | zero =>
    have : ¬ (0 ≤ x ∧ x < ((0 : Nat) : Int)) := by push_cast; omega
    simp only [this, if_false]
    simp [start]
  | succ v ih =>
    rw [start_succ, start_succ, ih, List.count_cons]
    simp only [beq_iff_eq, Nat.cast_add, Nat.cast_one]
    split_ifs <;> omega

/-- The occurrence counts of the values `0 .. M-1` add up to the length of
a list whose entries all lie in `[0, M)`. -/
theorem start_eq_length (l : List Int) (M : Nat) (hr : ∀ x ∈ l, 0 ≤ x ∧ x < (M : Int)) :
    start l M = l.length := by
  induction l with
  | nil => simp [start]
  | cons x l ih =>
    rw [start_cons, ih (fun y hy => hr y (List.mem_cons_of_mem _ hy))]
    have := hr x (List.mem_cons_self _ _)
    simp [this]

/-- An array of per-value counts of a list with entries in `[0, K)` sums to
the length of the list. -/
theorem counts_sum (l a : List Int) (K : Nat) (hr : ∀ x ∈ l, 0 ≤ x ∧ x < (K : Int))
    (hlen : a.length = K)
    (hc : ∀ p, p < K → a[p]? = some ((l.count (p : Int) : Nat) : Int)) :
    a.sum = (l.length : Int) := by
  have ha : a = (List.range K).map fun p : Nat => ((l.count (p : Int) : Nat) : Int) := by
    apply List.ext_getElem?
    intro p
    by_cases hp : p < K
    · simp [hc p hp, hp]
    · rw [List.getElem?_eq_none (by omega), List.getElem?_eq_none (by simp; omega)]
  have hsum : ∀ k : Nat,
      ((List.range k).map fun p : Nat => ((l.count (p : Int) : Nat) : Int)).sum
        = ((start l k : Nat) : Int) := by
    intro k
    induction k with
    | zero => simp [start]
    | succ k ih =>
      rw [List.range_succ, List.map_append, List.sum_append, ih, start_succ]
      simp
  rw [ha, hsum, start_eq_length l K hr]

theorem ceilDiv_eq_one (n m : Int) (hm : 0 < m) (h1 : 1 ≤ n) (h2 : n ≤ m) : ceilDiv n m = 1 := by
  have ha := (ceilDiv_le_iff n m 1 hm).2 (by omega)
  have hb : ¬ ceilDiv n m ≤ 0 := fun h => by
    have := (ceilDiv_le_iff n m 0 hm).1 h
    omega
  omega


/-! ## Size of the nodal graph -/

theorem length_neighbours_le (l : List Int) (nbElem d N i : Nat) (hi : i < N) :
    (neighbours l nbElem d N i).length ≤ N - 1 := by
  have hsub : neighbours l nbElem d N i ⊆ (List.range N).erase i := by
    intro j hj
    obtain ⟨hjN, hji, -⟩ := (mem_neighbours l nbElem d N i j).1 hj
    exact (List.mem_erase_of_ne hji).2 (List.mem_range.2 hjN)
  have h := (List.subperm_of_subset (nodup_neighbours l nbElem d N i) hsub).length_le
  rw [List.length_erase_of_mem (List.mem_range.2 hi), List.length_range] at h
  exact h

theorem offset_le_mul (l : List Int) (nbElem d N k : Nat) (hk : k ≤ N) :
    offset l nbElem d N k ≤ k * (N - 1) := by
  induction k with
  | zero => simp [offset]
  | succ k ih =>
    rw [offset_succ]
    have h1 := ih (by omega)
    have h2 := length_neighbours_le l nbElem d N k (by omega)
    have : (k + 1) * (N - 1) = k * (N - 1) + (N - 1) := by ring
    omega

theorem offset_eq_sum (l : List Int) (nbElem d N k : Nat) :
    offset l nbElem d N k = ∑ i ∈ Finset.range k, (neighbours l nbElem d N i).length := by
  induction k with
  | zero => simp [offset]
  | succ k ih => rw [offset_succ, Finset.sum_range_succ, ih]

/-- Ordered pairs of distinct nodes of one element: at most `d * (d - 1)`. -/
theorem card_offDiag_elemNodes (l : List Int) (d e : Nat) :
    ((elemNodes l d e).toFinset).offDiag.card ≤ d * (d - 1) := by
  rw [Finset.offDiag_card]
  have h1 : (elemNodes l d e).toFinset.card ≤ d :=
    (List.toFinset_card_le _).trans (by simp [elemNodes])
  have h2 : (elemNodes l d e).toFinset.card * (elemNodes l d e).toFinset.card
      - (elemNodes l d e).toFinset.card
      = (elemNodes l d e).toFinset.card * ((elemNodes l d e).toFinset.card - 1) := by
    rw [Nat.mul_sub_one]
  rw [h2]
  exact Nat.mul_le_mul h1 (by omega)

/-- The nodal graph has at most `d * (d - 1)` adjacency entries per element. -/
theorem nodalSize_le_elems (l : List Int) (nbElem d N : Nat) :
    nodalSize l nbElem d N ≤ nbElem * (d * (d - 1)) := by
  unfold nodalSize
  rw [offset_eq_sum]
  have hcard : ∀ i, (neighbours l nbElem d N i).length
      = ((neighbours l nbElem d N i).toFinset).card := fun i =>
    (List.toFinset_card_of_nodup (nodup_neighbours l nbElem d N i)).symm
  simp only [hcard]
  rw [← Finset.card_sigma]
  have hle : ((Finset.range N).sigma fun i => (neighbours l nbElem d N i).toFinset).card
      ≤ ((Finset.range nbElem).biUnion fun e => ((elemNodes l d e).toFinset).offDiag).card := by
    apply Finset.card_le_card_of_injOn (fun p : (_ : Nat) × Nat => ((p.1 : Int), (p.2 : Int)))
    · rintro ⟨i, j⟩ hp
      rw [Finset.mem_sigma, List.mem_toFinset] at hp
      obtain ⟨-, hji, e, he, hie, hje⟩ := (mem_neighbours l nbElem d N i j).1 hp.2
      rw [Finset.mem_biUnion]
      refine ⟨e, Finset.mem_range.2 he, ?_⟩
      rw [Finset.mem_offDiag]
      refine ⟨List.mem_toFinset.2 hie, List.mem_toFinset.2 hje, ?_⟩
      show (i : Int) ≠ (j : Int)
      intro h
      exact hji (by exact_mod_cast h.symm)
    · rintro ⟨i, j⟩ - ⟨i', j'⟩ - h
      simp only [Prod.mk.injEq, Nat.cast_inj] at h
      obtain ⟨rfl, rfl⟩ := h
      rfl
  refine hle.trans (Finset.card_biUnion_le.trans ?_)
  have := Finset.sum_le_card_nsmul (Finset.range nbElem)
    (fun e => ((elemNodes l d e).toFinset).offDiag.card) (d * (d - 1))
    (fun e _ => card_offDiag_elemNodes l d e)
  simpa using this

theorem nodalSize_le_nodes (l : List Int) (nbElem d N : Nat) :
    nodalSize l nbElem d N ≤ N * (N - 1) :=
  offset_le_mul l nbElem d N N (le_refl _)


/-! ## The nodal graph of a renumbered separator -/

/-- Membership in a slice written by `mesh_to_nodal`, from its main lemma. -/
theorem mem_adjacency_iff (l : List Int) (nbElem d N : Nat) (gi gv : List Int)
    (hgi : ∀ u, u ≤ N → gi[u]? = some ((offset l nbElem d N u : Nat) : Int))
    (hadj : ∀ u, u < N → AdjOK l nbElem d N u
      (slice gv (offset l nbElem d N u) (neighbours l nbElem d N u).length))
    (i j : Nat) (hi : i < N) (hj : j < N) :
    (j : Int) ∈ adjacency gi gv i ↔
      i ≠ j ∧ ∃ e, e < nbElem ∧ (i : Int) ∈ elemNodes l d e ∧ (j : Int) ∈ elemNodes l d e := by
  rw [adjacency_eq l nbElem d N gi gv hgi i hi, (hadj i hi).2]
  constructor
  · rintro ⟨j', hjj, hmem⟩
    have : j = j' := by exact_mod_cast hjj
    subst this
    obtain ⟨-, hne, he⟩ := (mem_neighbours _ _ _ _ _ _).1 hmem
    exact ⟨fun h => hne h.symm, he⟩
  · rintro ⟨hne, he⟩
    exact ⟨j, rfl, (mem_neighbours _ _ _ _ _ _).2 ⟨hj, fun h => hne h.symm, he⟩⟩

theorem mem_of_mem_elemNodes (S : List Int) (d e : Nat) (x : Int) (h : x ∈ elemNodes S d e) :
    x ∈ S :=
  List.mem_of_mem_drop (List.mem_of_mem_take h)

theorem elemNodes_renumber (S : List Int) (d e : Nat) :
    elemNodes (renumber S) d e
      = (elemNodes S d e).map fun x => (((firsts S).indexOf x : Nat) : Int) := by
  simp [elemNodes, renumber, List.map_drop, List.map_take]

/-- The local id of a node of the slice lies in a renumbered element exactly
when the node lies in the element. -/
theorem rank_mem_elemNodes (S : List Int) (d e : Nat) (x : Int) (hx : x ∈ S) :
    (((firsts S).indexOf x : Nat) : Int) ∈ elemNodes (renumber S) d e ↔ x ∈ elemNodes S d e := by
  rw [elemNodes_renumber, List.mem_map]
  constructor
  · rintro ⟨y, hy, hxy⟩
    have hyS := mem_of_mem_elemNodes S d e y hy
    have : (firsts S).indexOf y = (firsts S).indexOf x := by exact_mod_cast hxy
    rw [List.indexOf_inj ((mem_firsts S y).2 hyS) ((mem_firsts S x).2 hx)] at this
    rw [← this]; exact hy
  · intro h
    exact ⟨x, h, rfl⟩

/-- Element `e` of the separator slice is element `f + e` of the mesh. -/
theorem mem_elemNodes_sepSlice (l : List Int) (f nb d e : Nat) (he : e < nb) (x : Int) :
    x ∈ elemNodes (sepSlice l f nb d) d e ↔ x ∈ elemNodes l d (f + e) := by
  rw [mem_elemNodes_iff, mem_elemNodes_iff]
  have hlt : ∀ t, t < d → e * d + t < nb * d := by
    intro t ht
    calc e * d + t < e * d + d := by omega
      _ = (e + 1) * d := by ring
      _ ≤ nb * d := Nat.mul_le_mul_right d he
  have hidx : ∀ t, f * d + (e * d + t) = (f + e) * d + t := by intro t; ring
  constructor
  · rintro ⟨t, ht, h⟩
    rw [getElem?_sepSlice l f nb d _ (hlt t ht), hidx] at h
    exact ⟨t, ht, h⟩
  · rintro ⟨t, ht, h⟩
    refine ⟨t, ht, ?_⟩
    rw [getElem?_sepSlice l f nb d _ (hlt t ht), hidx]
    exact h

/-- Run of `create_sepToNode` on a buffer of exactly the size of the slice. -/
theorem create_sepToNode_exact (buf l : List Int) (f nb d : Nat) (hl : (f + nb) * d ≤ l.length)
    (hb : buf.length = nb * d) :
    create_sepToNode buf l (f : Int) ((f : Int) + (nb : Int) - 1) (d : Int)
      = some (renumber (sepSlice l f nb d), l,
          (((firsts (sepSlice l f nb d)).length : Nat) : Int)) := by
  obtain ⟨s, hs, hsl, hp, -⟩ := create_sepToNode_spec buf l f nb d hl (by omega)
  have hSl := length_sepSlice l f nb d hl
  have : s = renumber (sepSlice l f nb d) := by
    apply List.ext_getElem?
    intro p
    by_cases h : p < nb * d
    · rw [hp p h]; simp [renumber, List.getElem?_map]
    · rw [List.getElem?_eq_none (by omega),
        List.getElem?_eq_none (by rw [length_renumber]; omega)]
  rw [hs, this]

/-! ## Claims on locking, index base and memory safety -/

/-- C11, as the code has it: every call of the external partitioner made by
`sep_partitioning` lies between a `lock` and the matching `unlock` of
`metisMutex`; the call made by `partitioning` itself is made with no lock
taken (its trace holds a partitioner call and no lock operation). -/
theorem partitioner_calls_lock (MAX_ELEM_PER_PART : Int) (MULTITHREADED_COMM : Bool)
    (ext : Extern) (elemPerm elemToNode : List Int)
    (globalNbElem dimElem firstSepElem lastSepElem firstNode lastNode curNode : Int)
    (nbElem nbNodes : Int) :
    (∀ tr, sep_partitioning MAX_ELEM_PER_PART MULTITHREADED_COMM ext elemToNode globalNbElem
        dimElem firstSepElem lastSepElem firstNode lastNode curNode = some tr →
      callsUnderLock false tr = true) ∧
    (∀ out, partitioning MAX_ELEM_PER_PART MULTITHREADED_COMM ext elemPerm elemToNode nbElem
        dimElem nbNodes = some out →
      (∀ ev ∈ out.trace, ev.isLockOp = false) ∧
      (∃ ev ∈ out.trace, ev.isPartitionerCall = true) ∧
      callsUnderLock false out.trace = false) := by
  constructor
  · intro tr htr
    by_cases hcond : ceilDiv (lastSepElem - firstSepElem + 1) MAX_ELEM_PER_PART < 2 ∨
        lastSepElem - firstSepElem + 1 ≤ MAX_ELEM_PER_PART
    · simp only [sep_partitioning, hcond, if_true, Option.some.injEq] at htr
      subst htr
      cases MULTITHREADED_COMM <;> simp [callsUnderLock]
    · simp only [sep_partitioning, hcond, if_false, Option.bind_eq_bind, Option.bind_eq_some,
        Option.pure_def, Option.some.injEq] at htr
      obtain ⟨_, _, _, _, _, _, _, _, _, _, _, _, rfl⟩ := htr
      simp [callsUnderLock]
  · intro out hout
    simp only [partitioning, Option.bind_eq_bind, Option.bind_eq_some, Option.pure_def,
      Option.some.injEq] at hout
    obtain ⟨_, _, _, _, _, _, _, _, _, _, _, _, _, _, _, _, _, _, rfl⟩ := hout
    cases MULTITHREADED_COMM <;>
      simp [callsUnderLock, Event.isLockOp, Event.isPartitionerCall]

/-- Instance of C11 on a separator of two triangles and a mesh of two
triangles: both runs return a trace. -/
theorem partitioner_calls_lock_witness :
    (∃ tr, sep_partitioning 1 false ⟨fun _ _ => 0, fun _ _ => 0⟩
        [7, 8, 9, 5, 9, 7, 3, 5, 5, 1, 1, 1] 4 3 1 2 0 10 3 = some tr ∧
      callsUnderLock false tr = true) ∧
    (∃ out, partitioning 1 false ⟨fun _ _ => 0, fun _ _ => 0⟩ [0, 0] [1, 2, 3, 2, 3, 4] 2 3 4
        = some out ∧
      (∀ ev ∈ out.trace, ev.isLockOp = false) ∧
      (∃ ev ∈ out.trace, ev.isPartitionerCall = true) ∧
      callsUnderLock false out.trace = false) := by
  have h := partitioner_calls_lock 1 false ⟨fun _ _ => 0, fun _ _ => 0⟩ [0, 0]
    [7, 8, 9, 5, 9, 7, 3, 5, 5, 1, 1, 1] 4 3 1 2 0 10 3 2 4
  have h' := partitioner_calls_lock 1 false ⟨fun _ _ => 0, fun _ _ => 0⟩ [0, 0]
    [1, 2, 3, 2, 3, 4] 4 3 1 2 0 10 3 2 4
  have hs : (sep_partitioning 1 false ⟨fun _ _ => 0, fun _ _ => 0⟩
      [7, 8, 9, 5, 9, 7, 3, 5, 5, 1, 1, 1] 4 3 1 2 0 10 3).isSome = true := by decide
  have hp : (partitioning 1 false ⟨fun _ _ => 0, fun _ _ => 0⟩ [0, 0] [1, 2, 3, 2, 3, 4]
      2 3 4).isSome = true := by decide
  obtain ⟨tr, htr⟩ := Option.isSome_iff_exists.1 hs
  obtain ⟨out, hout⟩ := Option.isSome_iff_exists.1 hp
  exact ⟨⟨tr, htr, h.1 tr htr⟩, ⟨out, hout, h'.2 out hout⟩⟩

/-- Counterexample to C11 as stated: on a mesh of two triangles the trace of
`partitioning` holds a call of the external partitioner that is not under
the lock. -/
theorem partitioning_call_without_lock :
    (partitioning 1 false ⟨fun _ _ => 0, fun _ _ => 0⟩ [0, 0] [1, 2, 3, 2, 3, 4] 2 3 4).map
        (fun o => callsUnderLock false o.trace) = some false := by
  decide


/-- C12: on a legal 1-based mesh `partitioning` hands the connectivity with
every entry decremented to the graph builder and to the tree builder, and on
return every entry is the value the tree builder left there plus one; when
the tree builder leaves the array as it found it, the array on return is the
array on entry. -/
theorem partitioning_index_base (MAX_ELEM_PER_PART : Int) (MULTITHREADED_COMM : Bool)
    (ext : Extern) (elemPerm elemToNode : List Int) (nbElem dimElem nbNodes : Nat)
    (hMAX : 0 < MAX_ELEM_PER_PART)
    (hlen : elemToNode.length = nbElem * dimElem)
    (hrange : ∀ x ∈ elemToNode, 1 ≤ x ∧ x ≤ (nbNodes : Int))
    (hfit : nodalSize (elemToNode.map fun v => v - 1) nbElem dimElem nbNodes ≤ nbNodes * 15)
    (hpart : ∀ call i, i < nbNodes →
      0 ≤ ext.nodePart call i ∧
        ext.nodePart call i < ceilDiv (nbElem : Int) MAX_ELEM_PER_PART)
    (hperm : nbElem ≤ elemPerm.length) :
    ∃ out gi gv nodePart nodePartSize build,
      partitioning MAX_ELEM_PER_PART MULTITHREADED_COMM ext elemPerm elemToNode nbElem dimElem
        nbNodes = some out ∧
      mesh_to_nodal (List.replicate (nbNodes + 1) 0) (List.replicate (nbNodes * 15) 0)
        (elemToNode.map fun v => v - 1) nbElem dimElem nbNodes = some (gi, gv) ∧
      Event.METIS_PartGraphRecursive nbNodes 1 gi gv
        (ceilDiv (nbElem : Int) MAX_ELEM_PER_PART) ∈ out.trace ∧
      build = Event.tree_creation (elemToNode.map fun v => v - 1) none nodePart
        (some nodePartSize) nbElem dimElem 0 (ceilDiv (nbElem : Int) MAX_ELEM_PER_PART - 1)
        0 ((nbElem : Int) - 1) 0 ((nbNodes : Int) - 1) 0 0 false ∧
      build ∈ out.trace ∧
      out.elemToNode.length = elemToNode.length ∧
      (∀ i, i < elemToNode.length → out.elemToNode[i]? = some (ext.reordered build i + 1)) ∧
      ((∀ i, i < elemToNode.length → elemToNode[i]? = some (ext.reordered build i + 1)) →
        out.elemToNode = elemToNode) := by
  obtain ⟨gi, gv, nodePart, nodePartSize, elemPerm', build, hg, -, -, -, -, -, -, hbuild, hrun⟩ :=
    partitioning_run MAX_ELEM_PER_PART MULTITHREADED_COMM ext elemPerm elemToNode nbElem
      dimElem nbNodes hMAX hlen hrange hfit hpart hperm
  have hget : ∀ i, i < elemToNode.length →
      ((overwrite (elemToNode.map fun v => v - 1) (ext.reordered build)).map
        fun v => v + 1)[i]? = some (ext.reordered build i + 1) := by
    intro i hi
    rw [List.getElem?_map, getElem?_overwrite _ _ i (by simpa using hi)]
    rfl
  refine ⟨_, gi, gv, nodePart, nodePartSize, build, hrun, hg, ?_, hbuild, ?_, ?_, hget, ?_⟩
  · simp
  · simp
  · simp [length_overwrite]
  · intro hsame
    apply List.ext_getElem?
    intro i
    by_cases hi : i < elemToNode.length
    · show ((overwrite (elemToNode.map fun v => v - 1) (ext.reordered build)).map
        fun v => v + 1)[i]? = _
      rw [hget i hi, hsame i hi]
    · show ((overwrite (elemToNode.map fun v => v - 1) (ext.reordered build)).map
        fun v => v + 1)[i]? = _
      rw [List.getElem?_eq_none (by simp [length_overwrite]; omega),
        List.getElem?_eq_none (by omega)]

/-- Instance of C12 on three triangles over four nodes. -/
theorem partitioning_index_base_witness :
    ∃ out gi gv nodePart nodePartSize build,
      partitioning 2 false ⟨fun _ _ => 1, fun _ i => (i % 4 : Nat)⟩ [9, 9, 9]
        [1, 2, 3, 2, 3, 4, 4, 1, 1] ((3 : Nat) : Int) ((3 : Nat) : Int) ((4 : Nat) : Int)
        = some out ∧
      mesh_to_nodal (List.replicate (4 + 1) 0) (List.replicate (4 * 15) 0)
        (([1, 2, 3, 2, 3, 4, 4, 1, 1] : List Int).map fun v => v - 1) ((3 : Nat) : Int)
        ((3 : Nat) : Int) ((4 : Nat) : Int) = some (gi, gv) ∧
      Event.METIS_PartGraphRecursive ((4 : Nat) : Int) 1 gi gv
        (ceilDiv ((3 : Nat) : Int) 2) ∈ out.trace ∧
      build = Event.tree_creation (([1, 2, 3, 2, 3, 4, 4, 1, 1] : List Int).map fun v => v - 1)
        none nodePart (some nodePartSize) ((3 : Nat) : Int) ((3 : Nat) : Int) 0
        (ceilDiv ((3 : Nat) : Int) 2 - 1) 0 (((3 : Nat) : Int) - 1) 0 (((4 : Nat) : Int) - 1)
        0 0 false ∧
      build ∈ out.trace ∧
      out.elemToNode.length = ([1, 2, 3, 2, 3, 4, 4, 1, 1] : List Int).length ∧
      (∀ i, i < ([1, 2, 3, 2, 3, 4, 4, 1, 1] : List Int).length →
        out.elemToNode[i]?
          = some ((⟨fun _ _ => 1, fun _ i => (i % 4 : Nat)⟩ : Extern).reordered build i + 1)) ∧
      ((∀ i, i < ([1, 2, 3, 2, 3, 4, 4, 1, 1] : List Int).length →
          ([1, 2, 3, 2, 3, 4, 4, 1, 1] : List Int)[i]?
            = some ((⟨fun _ _ => 1, fun _ i => (i % 4 : Nat)⟩ : Extern).reordered build i + 1)) →
        out.elemToNode = [1, 2, 3, 2, 3, 4, 4, 1, 1]) :=
  partitioning_index_base 2 false ⟨fun _ _ => 1, fun _ i => (i % 4 : Nat)⟩ [9, 9, 9]
    [1, 2, 3, 2, 3, 4, 4, 1, 1] 3 3 4 (by decide) (by decide) (by decide) (by decide)
    (fun _ _ _ => ⟨show (0 : Int) ≤ 1 by decide,
      show (1 : Int) < ceilDiv ((3 : Nat) : Int) 2 by decide⟩) (by decide)


/-- C13: on a legal mesh (the empty mesh, unused nodes, repeated nodes and
disconnected meshes included), with a `graphIndex` buffer of `nbNodes + 1`
cells and a `graphValue` buffer that holds the adjacency entries,
`mesh_to_nodal` runs to its end: no read or write of `nPtr`, `nInd`,
`marker`, `graphIndex`, `graphValue` or `elemToNode` leaves its array.  The
size given to `nInd`, read from `nPtr[nbNodes]` after the first three loops,
is `nbElem * dimElem`. -/
theorem mesh_to_nodal_no_fault (graphIndex graphValue elemToNode : List Int)
    (nbElem dimElem nbNodes : Nat)
    (hlen : elemToNode.length = nbElem * dimElem)
    (hrange : ∀ x ∈ elemToNode, 0 ≤ x ∧ x < (nbNodes : Int))
    (hIndex : nbNodes + 1 ≤ graphIndex.length)
    (hValue : nodalSize elemToNode nbElem dimElem nbNodes ≤ graphValue.length) :
    (∃ p1 p2 p3,
      forUp (countStep elemToNode) ((dimElem : Int) * (nbElem : Int)).toNat 0
        (List.replicate (nbNodes + 1) 0) = some p1 ∧
      forUp prefixStep ((nbNodes : Int) - 1).toNat 1 p1 = some p2 ∧
      shiftRight (nbNodes : Int) p2 = some p3 ∧
      rd p3 (nbNodes : Int) = some ((nbElem * dimElem : Nat) : Int)) ∧
    ∃ gi gv, mesh_to_nodal graphIndex graphValue elemToNode nbElem dimElem nbNodes
        = some (gi, gv) ∧
      gi.length = graphIndex.length ∧ gv.length = graphValue.length := by
  obtain ⟨p1, p2, p3, -, -, h1, h2, h3, h4, -⟩ :=
    incidence elemToNode nbNodes nbElem dimElem hlen hrange
  obtain ⟨gi, gv, hrun, hl1, hl2, -⟩ :=
    mesh_to_nodal_spec graphIndex graphValue elemToNode nbElem dimElem nbNodes hlen hrange
      hIndex hValue
  refine ⟨⟨p1, p2, p3, h1, h2, h3, ?_⟩, gi, gv, hrun, hl1, hl2⟩
  rw [h4, start_eq_length elemToNode nbNodes hrange, hlen]

/-- Instance of C13 on a mesh with an unused node, a repeated node and two
components. -/
theorem mesh_to_nodal_no_fault_witness :
    (∃ p1 p2 p3,
      forUp (countStep [0, 0, 1, 3, 4, 4]) (((3 : Nat) : Int) * ((2 : Nat) : Int)).toNat 0
        (List.replicate (5 + 1) 0) = some p1 ∧
      forUp prefixStep (((5 : Nat) : Int) - 1).toNat 1 p1 = some p2 ∧
      shiftRight ((5 : Nat) : Int) p2 = some p3 ∧
      rd p3 ((5 : Nat) : Int) = some ((2 * 3 : Nat) : Int)) ∧
    ∃ gi gv, mesh_to_nodal (List.replicate 6 0) (List.replicate 4 0) [0, 0, 1, 3, 4, 4]
        ((2 : Nat) : Int) ((3 : Nat) : Int) ((5 : Nat) : Int) = some (gi, gv) ∧
      gi.length = (List.replicate 6 (0 : Int)).length ∧
      gv.length = (List.replicate 4 (0 : Int)).length :=
  mesh_to_nodal_no_fault (List.replicate 6 0) (List.replicate 4 0) [0, 0, 1, 3, 4, 4] 2 3 5
    (by decide) (by decide) (by decide) (by decide)

/-- C14, as the code has it: for a legal mesh whose nodal graph has at most
`15 * nbNodes` adjacency entries, `mesh_to_nodal` run on the buffer of
`nbNodes * 15` cells that `partitioning` and `sep_partitioning` allocate
returns, the number of entries written is `graphIndex[nbNodes]`, it is at
most the capacity, and the cells past it are untouched. -/
theorem graphValue_capacity (graphIndex elemToNode : List Int) (nbElem dimElem nbNodes : Nat)
    (hlen : elemToNode.length = nbElem * dimElem)
    (hrange : ∀ x ∈ elemToNode, 0 ≤ x ∧ x < (nbNodes : Int))
    (hIndex : nbNodes + 1 ≤ graphIndex.length)
    (hfit : nodalSize elemToNode nbElem dimElem nbNodes ≤ nbNodes * 15) :
    ∃ gi gv n, mesh_to_nodal graphIndex (List.replicate (nbNodes * 15) 0) elemToNode nbElem
        dimElem nbNodes = some (gi, gv) ∧
      gi[nbNodes]? = some ((n : Nat) : Int) ∧
      n = nodalSize elemToNode nbElem dimElem nbNodes ∧
      n ≤ nbNodes * 15 ∧ gv.length = nbNodes * 15 ∧
      gv.drop n = List.replicate (nbNodes * 15 - n) 0 := by
  obtain ⟨gi, gv, hrun, -, hl2, hgi, -, hgvd, -⟩ :=
    mesh_to_nodal_spec graphIndex (List.replicate (nbNodes * 15) 0) elemToNode nbElem dimElem
      nbNodes hlen hrange hIndex (by simpa using hfit)
  refine ⟨gi, gv, nodalSize elemToNode nbElem dimElem nbNodes, hrun, hgi nbNodes (le_refl _),
    rfl, hfit, by simpa using hl2, ?_⟩
  show gv.drop (offset elemToNode nbElem dimElem nbNodes nbNodes) = _
  rw [hgvd, List.drop_replicate]
  rfl

/-- Instance of C14 on two tetrahedra sharing a face. -/
theorem graphValue_capacity_witness :
    ∃ gi gv n, mesh_to_nodal (List.replicate 6 0) (List.replicate (5 * 15) 0)
        [0, 1, 2, 3, 1, 2, 3, 4] ((2 : Nat) : Int) ((4 : Nat) : Int) ((5 : Nat) : Int)
        = some (gi, gv) ∧
      gi[5]? = some ((n : Nat) : Int) ∧
      n = nodalSize [0, 1, 2, 3, 1, 2, 3, 4] 2 4 5 ∧
      n ≤ 5 * 15 ∧ gv.length = 5 * 15 ∧
      gv.drop n = List.replicate (5 * 15 - n) 0 :=
  graphValue_capacity (List.replicate 6 0) [0, 1, 2, 3, 1, 2, 3, 4] 2 4 5
    (by decide) (by decide) (by decide) (by decide)

set_option maxRecDepth 100000 in
/-- Counterexample to C14 as stated: one element of 17 distinct nodes has
`17 * 16 = 272` adjacency entries, more than the `15 * 17 = 255` cells of the
buffer; with room for them `graphIndex[nbNodes]` is 272, and on the buffer
of 255 cells a write leaves the array. -/
theorem graphValue_capacity_exceeded :
    (mesh_to_nodal (List.replicate 18 0) (List.replicate 272 0)
        [0, 1, 2, 3, 4, 5, 6, 7, 8, 9, 10, 11, 12, 13, 14, 15, 16] 1 17 17).map
      (fun r => r.1[17]?) = some (some 272) ∧
    ¬ ((272 : Int) ≤ 15 * 17) ∧
    mesh_to_nodal (List.replicate 18 0) (List.replicate (17 * 15) 0)
      [0, 1, 2, 3, 4, 5, 6, 7, 8, 9, 10, 11, 12, 13, 14, 15, 16] 1 17 17 = none := by
  refine ⟨by decide, by decide, by decide⟩

/-! ## Claims on the node counts, the single-part mesh and the graph size -/

/-- C15: on a legal run of `partitioning`, the array `nodePartSize` handed
to the tree builder has one cell per partition id; cell `p` holds the number
of nodes `i` with `nodePart[i] = p` (0 when no node received `p`), and the
cells add up to `nbNodes`. -/
theorem partitioning_nodePartSize (MAX_ELEM_PER_PART : Int) (MULTITHREADED_COMM : Bool)
    (ext : Extern) (elemPerm elemToNode : List Int) (nbElem dimElem nbNodes : Nat)
    (hMAX : 0 < MAX_ELEM_PER_PART)
    (hlen : elemToNode.length = nbElem * dimElem)
    (hrange : ∀ x ∈ elemToNode, 1 ≤ x ∧ x ≤ (nbNodes : Int))
    (hfit : nodalSize (elemToNode.map fun v => v - 1) nbElem dimElem nbNodes ≤ nbNodes * 15)
    (hpart : ∀ call i, i < nbNodes →
      0 ≤ ext.nodePart call i ∧
        ext.nodePart call i < ceilDiv (nbElem : Int) MAX_ELEM_PER_PART)
    (hperm : nbElem ≤ elemPerm.length) :
    ∃ out gi gv nodePart nodePartSize e,
      partitioning MAX_ELEM_PER_PART MULTITHREADED_COMM ext elemPerm elemToNode nbElem dimElem
        nbNodes = some out ∧
      nodePart = overwrite (List.replicate nbNodes 0)
        (ext.nodePart (Event.METIS_PartGraphRecursive nbNodes 1 gi gv
          (ceilDiv (nbElem : Int) MAX_ELEM_PER_PART))) ∧
      Event.tree_creation e none nodePart (some nodePartSize) nbElem dimElem 0
        (ceilDiv (nbElem : Int) MAX_ELEM_PER_PART - 1) 0 ((nbElem : Int) - 1) 0
        ((nbNodes : Int) - 1) 0 0 false ∈ out.trace ∧
      nodePart.length = nbNodes ∧
      nodePartSize.length = (ceilDiv (nbElem : Int) MAX_ELEM_PER_PART).toNat ∧
      (∀ p, p < (ceilDiv (nbElem : Int) MAX_ELEM_PER_PART).toNat →
        nodePartSize[p]? = some ((nodePart.count (p : Int) : Nat) : Int)) ∧
      nodePartSize.sum = (nbNodes : Int) := by
  obtain ⟨gi, gv, nodePart, nodePartSize, elemPerm', build, -, hnp, hl, hc, -, -, -, hbuild,
      hrun⟩ :=
    partitioning_run MAX_ELEM_PER_PART MULTITHREADED_COMM ext elemPerm elemToNode nbElem
      dimElem nbNodes hMAX hlen hrange hfit hpart hperm
  have hk0 := ceilDiv_nonneg (nbElem : Int) MAX_ELEM_PER_PART (by omega) hMAX
  have hnl : nodePart.length = nbNodes := by
    rw [hnp, length_overwrite, List.length_replicate]
  have hr : ∀ x ∈ nodePart, 0 ≤ x ∧
      x < (((ceilDiv (nbElem : Int) MAX_ELEM_PER_PART).toNat : Nat) : Int) := by
    intro x hx
    rw [hnp] at hx
    obtain ⟨i, hi, rfl⟩ := List.mem_map.1 hx
    have hi' : i < nbNodes := by simpa using hi
    have := hpart (Event.METIS_PartGraphRecursive nbNodes 1 gi gv
      (ceilDiv (nbElem : Int) MAX_ELEM_PER_PART)) i hi'
    rw [Int.toNat_of_nonneg hk0]
    exact this
  refine ⟨_, gi, gv, nodePart, nodePartSize, elemToNode.map fun v => v - 1, hrun, hnp, ?_, hnl,
    hl, hc, ?_⟩
  · rw [hbuild]; simp
  · rw [counts_sum nodePart nodePartSize _ hr hl hc, hnl]

/-- Instance of C15 on three triangles and two parts, one of which receives
no node. -/
theorem partitioning_nodePartSize_witness :
    ∃ out gi gv nodePart nodePartSize e,
      partitioning 2 false ⟨fun _ _ => 1, fun _ _ => 3⟩ [9, 9, 9] [1, 2, 3, 2, 3, 4, 4, 1, 1]
        ((3 : Nat) : Int) ((3 : Nat) : Int) ((4 : Nat) : Int) = some out ∧
      nodePart = overwrite (List.replicate 4 0)
        ((⟨fun _ _ => 1, fun _ _ => 3⟩ : Extern).nodePart
          (Event.METIS_PartGraphRecursive ((4 : Nat) : Int) 1 gi gv
            (ceilDiv ((3 : Nat) : Int) 2))) ∧
      Event.tree_creation e none nodePart (some nodePartSize) ((3 : Nat) : Int)
        ((3 : Nat) : Int) 0 (ceilDiv ((3 : Nat) : Int) 2 - 1) 0 (((3 : Nat) : Int) - 1) 0
        (((4 : Nat) : Int) - 1) 0 0 false ∈ out.trace ∧
      nodePart.length = 4 ∧
      nodePartSize.length = (ceilDiv ((3 : Nat) : Int) 2).toNat ∧
      (∀ p, p < (ceilDiv ((3 : Nat) : Int) 2).toNat →
        nodePartSize[p]? = some ((nodePart.count (p : Int) : Nat) : Int)) ∧
      nodePartSize.sum = ((4 : Nat) : Int) :=
  partitioning_nodePartSize 2 false ⟨fun _ _ => 1, fun _ _ => 3⟩ [9, 9, 9]
    [1, 2, 3, 2, 3, 4, 4, 1, 1] 3 3 4 (by decide) (by decide) (by decide) (by decide)
    (fun _ _ _ => ⟨show (0 : Int) ≤ 1 by decide,
      show (1 : Int) < ceilDiv ((3 : Nat) : Int) 2 by decide⟩) (by decide)


/-- Run of `partitioning` on a mesh that fits one leaf
(`1 ≤ nbElem ≤ MAX_ELEM_PER_PART`): `nbPart` is 1 and the trace is the call
of the external partitioner for one part, the permutation call and the call
of the tree builder for the root. -/
theorem partitioning_single (MAX : Int) (mt : Bool) (ext : Extern) (elemPerm l : List Int)
    (nbElem d N : Nat) (h1 : 1 ≤ nbElem) (h2 : (nbElem : Int) ≤ MAX)
    (hlen : l.length = nbElem * d) (hr : ∀ x ∈ l, 1 ≤ x ∧ x ≤ (N : Int))
    (hfit : nodalSize (l.map fun v => v - 1) nbElem d N ≤ N * 15)
    (hpart : ∀ call i, i < N → ext.nodePart call i = 0)
    (hperm : nbElem ≤ elemPerm.length) :
    ceilDiv (nbElem : Int) MAX = 1 ∧
    ∃ out gi gv nodePart nodePartSize,
      partitioning MAX mt ext elemPerm l (nbElem : Int) (d : Int) (N : Int) = some out ∧
      out.trace = (if mt then [Event.set_commLevel 1] else []) ++
        [Event.METIS_PartGraphRecursive (N : Int) 1 gi gv 1,
         Event.DC_create_permutation nodePart (N : Int) 1,
         Event.tree_creation (l.map fun v => v - 1) none nodePart (some nodePartSize)
           (nbElem : Int) (d : Int) 0 0 0 ((nbElem : Int) - 1) 0 ((N : Int) - 1) 0 0 false] := by
  have hMAX : 0 < MAX := by omega
  have hk : ceilDiv (nbElem : Int) MAX = 1 := ceilDiv_eq_one _ _ hMAX (by omega) h2
  refine ⟨hk, ?_⟩
  obtain ⟨gi, gv, nodePart, nodePartSize, elemPerm', build, -, -, -, -, -, -, -, hbuild, hrun⟩ :=
    partitioning_run MAX mt ext elemPerm l nbElem d N hMAX hlen hr hfit
      (fun call i hi => by rw [hpart call i hi, hk]; omega) hperm
  refine ⟨_, gi, gv, nodePart, nodePartSize, hrun, ?_⟩
  rw [hbuild, hk]
  rfl

/-- C16: for a mesh with `1 ≤ nbElem ≤ MAX_ELEM_PER_PART` (run legal, the
partitioner returning the only id 0) `partitioning` computes `nbPart = 1`
and its one call of the tree builder is for the root with
`firstPart = lastPart = 0`, the elements `[0, nbElem - 1]`, the nodes
`[0, nbNodes - 1]` and the separator flag false; by the termination rule of
the tree builder such a call builds a single leaf that is not a separator. -/
theorem partitioning_single_leaf (MAX_ELEM_PER_PART : Int) (MULTITHREADED_COMM : Bool)
    (ext : Extern) (elemPerm elemToNode : List Int) (nbElem dimElem nbNodes : Nat)
    (hone : 1 ≤ nbElem) (hsmall : (nbElem : Int) ≤ MAX_ELEM_PER_PART)
    (hlen : elemToNode.length = nbElem * dimElem)
    (hrange : ∀ x ∈ elemToNode, 1 ≤ x ∧ x ≤ (nbNodes : Int))
    (hfit : nodalSize (elemToNode.map fun v => v - 1) nbElem dimElem nbNodes ≤ nbNodes * 15)
    (hpart : ∀ call i, i < nbNodes → ext.nodePart call i = 0)
    (hperm : nbElem ≤ elemPerm.length) :
    ∃ out e nodePart nodePartSize build,
      partitioning MAX_ELEM_PER_PART MULTITHREADED_COMM ext elemPerm elemToNode nbElem dimElem
        nbNodes = some out ∧
      ceilDiv (nbElem : Int) MAX_ELEM_PER_PART = 1 ∧
      build = Event.tree_creation e none nodePart (some nodePartSize) nbElem dimElem
        0 0 0 ((nbElem : Int) - 1) 0 ((nbNodes : Int) - 1) 0 0 false ∧
      build ∈ out.trace ∧
      (∀ ev ∈ out.trace, ev.isTreeBuilderCall = true → ev = build) ∧
      build.buildsLeaf = some false := by
  obtain ⟨hk, out, gi, gv, nodePart, nodePartSize, hrun, htr⟩ :=
    partitioning_single MAX_ELEM_PER_PART MULTITHREADED_COMM ext elemPerm elemToNode nbElem
      dimElem nbNodes hone hsmall hlen hrange hfit hpart hperm
  refine ⟨out, elemToNode.map fun v => v - 1, nodePart, nodePartSize, _, hrun, hk, rfl, ?_, ?_,
    by simp [Event.buildsLeaf]⟩
  · rw [htr]; simp
  · intro ev hev hcall
    rw [htr] at hev
    cases MULTITHREADED_COMM <;>
      simp only [Bool.false_eq_true, if_false, if_true, List.nil_append, List.singleton_append,
        List.mem_cons, List.mem_singleton, List.not_mem_nil, or_false] at hev
    · rcases hev with h | h | h
      · subst h; simp [Event.isTreeBuilderCall] at hcall
      · subst h; simp [Event.isTreeBuilderCall] at hcall
      · exact h
    · rcases hev with h | h | h | h
      · subst h; simp [Event.isTreeBuilderCall] at hcall
      · subst h; simp [Event.isTreeBuilderCall] at hcall
      · subst h; simp [Event.isTreeBuilderCall] at hcall
      · exact h

/-- Instance of C16 on a mesh of two triangles with the threshold equal to
its element count. -/
theorem partitioning_single_leaf_witness :
    ∃ out e nodePart nodePartSize build,
      partitioning 2 false ⟨fun _ _ => 0, fun _ _ => 0⟩ [0, 0] [1, 2, 3, 2, 3, 4]
        ((2 : Nat) : Int) ((3 : Nat) : Int) ((4 : Nat) : Int) = some out ∧
      ceilDiv ((2 : Nat) : Int) 2 = 1 ∧
      build = Event.tree_creation e none nodePart (some nodePartSize) ((2 : Nat) : Int)
        ((3 : Nat) : Int) 0 0 0 (((2 : Nat) : Int) - 1) 0 (((4 : Nat) : Int) - 1) 0 0 false ∧
      build ∈ out.trace ∧
      (∀ ev ∈ out.trace, ev.isTreeBuilderCall = true → ev = build) ∧
      build.buildsLeaf = some false :=
  partitioning_single_leaf 2 false ⟨fun _ _ => 0, fun _ _ => 0⟩ [0, 0] [1, 2, 3, 2, 3, 4] 2 3 4
    (by decide) (by decide) (by decide) (by decide) (by decide) (fun _ _ _ => rfl) (by decide)

/-- C17, as the code has it: for a mesh with `1 ≤ nbElem ≤ MAX_ELEM_PER_PART`
(run legal) `partitioning` computes `nbPart = 1` and still calls the
external partitioner, once and for one part, before it calls the tree
builder: there is no short cut. -/
theorem partitioning_single_part (MAX_ELEM_PER_PART : Int) (MULTITHREADED_COMM : Bool)
    (ext : Extern) (elemPerm elemToNode : List Int) (nbElem dimElem nbNodes : Nat)
    (hone : 1 ≤ nbElem) (hsmall : (nbElem : Int) ≤ MAX_ELEM_PER_PART)
    (hlen : elemToNode.length = nbElem * dimElem)
    (hrange : ∀ x ∈ elemToNode, 1 ≤ x ∧ x ≤ (nbNodes : Int))
    (hfit : nodalSize (elemToNode.map fun v => v - 1) nbElem dimElem nbNodes ≤ nbNodes * 15)
    (hpart : ∀ call i, i < nbNodes → ext.nodePart call i = 0)
    (hperm : nbElem ≤ elemPerm.length) :
    ∃ out gi gv nodePart nodePartSize e,
      partitioning MAX_ELEM_PER_PART MULTITHREADED_COMM ext elemPerm elemToNode nbElem dimElem
        nbNodes = some out ∧
      out.trace = (if MULTITHREADED_COMM then [Event.set_commLevel 1] else []) ++
        [Event.METIS_PartGraphRecursive nbNodes 1 gi gv 1,
         Event.DC_create_permutation nodePart nbNodes 1,
         Event.tree_creation e none nodePart (some nodePartSize) nbElem dimElem
           0 0 0 ((nbElem : Int) - 1) 0 ((nbNodes : Int) - 1) 0 0 false] ∧
      (out.trace.filter Event.isPartitionerCall).length = 1 := by
  obtain ⟨-, out, gi, gv, nodePart, nodePartSize, hrun, htr⟩ :=
    partitioning_single MAX_ELEM_PER_PART MULTITHREADED_COMM ext elemPerm elemToNode nbElem
      dimElem nbNodes hone hsmall hlen hrange hfit hpart hperm
  refine ⟨out, gi, gv, nodePart, nodePartSize, elemToNode.map fun v => v - 1, hrun, htr, ?_⟩
  rw [htr]
  cases MULTITHREADED_COMM <;> simp [List.filter, Event.isPartitionerCall]

/-- Instance of C17 on a mesh of two triangles with threshold 5. -/
theorem partitioning_single_part_witness :
    ∃ out gi gv nodePart nodePartSize e,
      partitioning 5 true ⟨fun _ _ => 0, fun _ _ => 0⟩ [0, 0] [1, 2, 3, 2, 3, 4]
        ((2 : Nat) : Int) ((3 : Nat) : Int) ((4 : Nat) : Int) = some out ∧
      out.trace = (if true then [Event.set_commLevel 1] else []) ++
        [Event.METIS_PartGraphRecursive ((4 : Nat) : Int) 1 gi gv 1,
         Event.DC_create_permutation nodePart ((4 : Nat) : Int) 1,
         Event.tree_creation e none nodePart (some nodePartSize) ((2 : Nat) : Int)
           ((3 : Nat) : Int) 0 0 0 (((2 : Nat) : Int) - 1) 0 (((4 : Nat) : Int) - 1) 0 0
           false] ∧
      (out.trace.filter Event.isPartitionerCall).length = 1 :=
  partitioning_single_part 5 true ⟨fun _ _ => 0, fun _ _ => 0⟩ [0, 0] [1, 2, 3, 2, 3, 4] 2 3 4
    (by decide) (by decide) (by decide) (by decide) (by decide) (fun _ _ _ => rfl) (by decide)

/-- Counterexample to C17 as stated: on a mesh of two triangles with
threshold 5 (`1 ≤ nbElem ≤ MAX_ELEM_PER_PART`) the trace of `partitioning`
holds a call of the external partitioner. -/
theorem partitioning_single_part_calls :
    (partitioning 5 false ⟨fun _ _ => 0, fun _ _ => 0⟩ [0, 0] [1, 2, 3, 2, 3, 4] 2 3 4).map
        (fun o => o.trace.any Event.isPartitionerCall) = some true := by
  decide


/-- C18: on a legal mesh the number of adjacency entries written by
`mesh_to_nodal`, `graphIndex[nbNodes]`, is at most
`nbElem * dimElem * (dimElem - 1)` and at most `nbNodes * (nbNodes - 1)`. -/
theorem mesh_to_nodal_size (graphIndex graphValue elemToNode : List Int)
    (nbElem dimElem nbNodes : Nat)
    (hlen : elemToNode.length = nbElem * dimElem)
    (hrange : ∀ x ∈ elemToNode, 0 ≤ x ∧ x < (nbNodes : Int))
    (hIndex : nbNodes + 1 ≤ graphIndex.length)
    (hValue : nodalSize elemToNode nbElem dimElem nbNodes ≤ graphValue.length) :
    ∃ gi gv n, mesh_to_nodal graphIndex graphValue elemToNode nbElem dimElem nbNodes
        = some (gi, gv) ∧
      gi[nbNodes]? = some ((n : Nat) : Int) ∧
      n ≤ nbElem * dimElem * (dimElem - 1) ∧ n ≤ nbNodes * (nbNodes - 1) := by
  obtain ⟨gi, gv, hrun, -, -, hgi, -⟩ :=
    mesh_to_nodal_spec graphIndex graphValue elemToNode nbElem dimElem nbNodes hlen hrange
      hIndex hValue
  refine ⟨gi, gv, nodalSize elemToNode nbElem dimElem nbNodes, hrun, hgi nbNodes (le_refl _),
    ?_, nodalSize_le_nodes elemToNode nbElem dimElem nbNodes⟩
  rw [Nat.mul_assoc]
  exact nodalSize_le_elems elemToNode nbElem dimElem nbNodes

/-- Instance of C18 on two tetrahedra sharing a face. -/
theorem mesh_to_nodal_size_witness :
    ∃ gi gv n, mesh_to_nodal (List.replicate 6 0) (List.replicate 20 0)
        [0, 1, 2, 3, 1, 2, 3, 4] ((2 : Nat) : Int) ((4 : Nat) : Int) ((5 : Nat) : Int)
        = some (gi, gv) ∧
      gi[5]? = some ((n : Nat) : Int) ∧
      n ≤ 2 * 4 * (4 - 1) ∧ n ≤ 5 * (5 - 1) :=
  mesh_to_nodal_size (List.replicate 6 0) (List.replicate 20 0) [0, 1, 2, 3, 1, 2, 3, 4] 2 4 5
    (by decide) (by decide) (by decide) (by decide)

/-- C19: for a separator range `[firstSepElem, lastSepElem]` inside the
connectivity array, `create_sepToNode` followed by `mesh_to_nodal` on
`(sepToNode, nbSepElem, nbSepNodes)` returns; the entries of `sepToNode` lie
in `[0, nbSepNodes)` (the precondition of `mesh_to_nodal`); and for two
positions `p`, `q` of the slice the local id at `q` is stored in the slice
of the local id at `p` exactly when the original nodes at `p` and `q` differ
and some element of `[firstSepElem, lastSepElem]` holds both. -/
theorem separator_graph (sepToNode graphIndex graphValue elemToNode : List Int)
    (firstSepElem lastSepElem : Int) (dimElem : Nat)
    (hfirst : 0 ≤ firstSepElem) (hrange : firstSepElem ≤ lastSepElem + 1)
    (hin : (lastSepElem + 1) * (dimElem : Int) ≤ (elemToNode.length : Int))
    (hbuf : sepToNode.length = (lastSepElem - firstSepElem + 1).toNat * dimElem)
    (hIndex : (firsts (sepNodes elemToNode firstSepElem lastSepElem dimElem)).length + 1
      ≤ graphIndex.length)
    (hValue : nodalSize (renumber (sepNodes elemToNode firstSepElem lastSepElem dimElem))
        (lastSepElem - firstSepElem + 1).toNat dimElem
        (firsts (sepNodes elemToNode firstSepElem lastSepElem dimElem)).length
      ≤ graphValue.length) :
    ∃ s e nbSepNodes gi gv,
      create_sepToNode sepToNode elemToNode firstSepElem lastSepElem dimElem
        = some (s, e, ((nbSepNodes : Nat) : Int)) ∧
      (∀ x ∈ s, 0 ≤ x ∧ x < ((nbSepNodes : Nat) : Int)) ∧
      mesh_to_nodal graphIndex graphValue s (lastSepElem - firstSepElem + 1) dimElem
        ((nbSepNodes : Nat) : Int) = some (gi, gv) ∧
      ∀ p q : Nat, p < (lastSepElem - firstSepElem + 1).toNat * dimElem →
        q < (lastSepElem - firstSepElem + 1).toNat * dimElem →
        ∃ (a b : Nat) (x y : Int),
          s[p]? = some (a : Int) ∧ s[q]? = some (b : Int) ∧
          elemToNode[firstSepElem.toNat * dimElem + p]? = some x ∧
          elemToNode[firstSepElem.toNat * dimElem + q]? = some y ∧
          ((b : Int) ∈ adjacency gi gv a ↔
            x ≠ y ∧ ∃ k : Nat, firstSepElem ≤ (k : Int) ∧ (k : Int) ≤ lastSepElem ∧
              x ∈ elemNodes elemToNode dimElem k ∧ y ∈ elemNodes elemToNode dimElem k) := by
  obtain ⟨f, rfl⟩ := Int.eq_ofNat_of_zero_le hfirst
  obtain ⟨nb, hnb⟩ := Int.eq_ofNat_of_zero_le
    (show 0 ≤ lastSepElem - (f : Int) + 1 by omega)
  have hlast : lastSepElem = (f : Int) + (nb : Int) - 1 := by omega
  subst hlast
  have e : (f : Int) + (nb : Int) - 1 - (f : Int) + 1 = (nb : Int) := by ring
  have hl : (f + nb) * dimElem ≤ elemToNode.length := by
    have : (f : Int) + (nb : Int) - 1 + 1 = ((f + nb : Nat) : Int) := by push_cast; ring
    rw [this] at hin
    exact_mod_cast hin
  simp only [sepNodes, e, Int.toNat_ofNat] at hbuf hIndex hValue ⊢
  have hSl := length_sepSlice elemToNode f nb dimElem hl
  obtain ⟨gi, gv, hrun, -, -, hgi, -, -, hadj⟩ := mesh_to_nodal_spec graphIndex graphValue
    (renumber (sepSlice elemToNode f nb dimElem)) nb dimElem
    (firsts (sepSlice elemToNode f nb dimElem)).length
    (by rw [length_renumber, hSl]) (renumber_range _) hIndex hValue
  refine ⟨_, elemToNode, _, gi, gv, create_sepToNode_exact sepToNode elemToNode f nb dimElem hl
    hbuf, renumber_range _, hrun, ?_⟩
  intro p q hp hq
  have hpS : p < (sepSlice elemToNode f nb dimElem).length := by omega
  have hqS : q < (sepSlice elemToNode f nb dimElem).length := by omega
  have hxm := List.getElem_mem hpS
  have hym := List.getElem_mem hqS
  have hrk : ∀ z ∈ sepSlice elemToNode f nb dimElem,
      (firsts (sepSlice elemToNode f nb dimElem)).indexOf z
        < (firsts (sepSlice elemToNode f nb dimElem)).length := fun z hz =>
    List.indexOf_lt_length.2 ((mem_firsts _ z).2 hz)
  refine ⟨(firsts (sepSlice elemToNode f nb dimElem)).indexOf
      (sepSlice elemToNode f nb dimElem)[p],
    (firsts (sepSlice elemToNode f nb dimElem)).indexOf (sepSlice elemToNode f nb dimElem)[q],
    (sepSlice elemToNode f nb dimElem)[p], (sepSlice elemToNode f nb dimElem)[q],
    ?_, ?_, ?_, ?_, ?_⟩
  · simp [renumber, List.getElem?_map, List.getElem?_eq_getElem hpS]
  · simp [renumber, List.getElem?_map, List.getElem?_eq_getElem hqS]
  · rw [← getElem?_sepSlice elemToNode f nb dimElem p hp, List.getElem?_eq_getElem hpS]
  · rw [← getElem?_sepSlice elemToNode f nb dimElem q hq, List.getElem?_eq_getElem hqS]
  · rw [mem_adjacency_iff _ nb dimElem _ gi gv hgi hadj _ _ (hrk _ hxm) (hrk _ hym)]
    constructor
    · rintro ⟨hne, k, hk, hxk, hyk⟩
      rw [rank_mem_elemNodes _ _ _ _ hxm, mem_elemNodes_sepSlice _ _ _ _ _ hk] at hxk
      rw [rank_mem_elemNodes _ _ _ _ hym, mem_elemNodes_sepSlice _ _ _ _ _ hk] at hyk
      refine ⟨fun h => hne (by rw [h]), f + k, by push_cast; omega, by push_cast; omega, hxk,
        hyk⟩
    · rintro ⟨hne, k, hk1, hk2, hxk, hyk⟩
      have hkf : f ≤ k := by exact_mod_cast hk1
      have hkn : k - f < nb := by omega
      have hk : f + (k - f) = k := by omega
      refine ⟨fun h => hne ((List.indexOf_inj ((mem_firsts _ _).2 hxm)
        ((mem_firsts _ _).2 hym)).1 h), k - f, hkn, ?_, ?_⟩
      · rw [rank_mem_elemNodes _ _ _ _ hxm, mem_elemNodes_sepSlice _ _ _ _ _ hkn, hk]
        exact hxk
      · rw [rank_mem_elemNodes _ _ _ _ hym, mem_elemNodes_sepSlice _ _ _ _ _ hkn, hk]
        exact hyk

/-- Instance of C19 on the elements 1 and 2 of a four-element mesh. -/
theorem separator_graph_witness :
    ∃ s e nbSepNodes gi gv,
      create_sepToNode (List.replicate 6 0) [7, 8, 9, 5, 9, 7, 3, 5, 5, 1, 1, 1] 1 2
        ((3 : Nat) : Int) = some (s, e, ((nbSepNodes : Nat) : Int)) ∧
      (∀ x ∈ s, 0 ≤ x ∧ x < ((nbSepNodes : Nat) : Int)) ∧
      mesh_to_nodal (List.replicate 5 0) (List.replicate 9 0) s ((2 : Int) - 1 + 1)
        ((3 : Nat) : Int) ((nbSepNodes : Nat) : Int) = some (gi, gv) ∧
      ∀ p q : Nat, p < ((2 : Int) - 1 + 1).toNat * 3 → q < ((2 : Int) - 1 + 1).toNat * 3 →
        ∃ (a b : Nat) (x y : Int),
          s[p]? = some (a : Int) ∧ s[q]? = some (b : Int) ∧
          ([7, 8, 9, 5, 9, 7, 3, 5, 5, 1, 1, 1] : List Int)[(1 : Int).toNat * 3 + p]? = some x ∧
          ([7, 8, 9, 5, 9, 7, 3, 5, 5, 1, 1, 1] : List Int)[(1 : Int).toNat * 3 + q]? = some y ∧
          ((b : Int) ∈ adjacency gi gv a ↔
            x ≠ y ∧ ∃ k : Nat, (1 : Int) ≤ (k : Int) ∧ (k : Int) ≤ 2 ∧
              x ∈ elemNodes [7, 8, 9, 5, 9, 7, 3, 5, 5, 1, 1, 1] 3 k ∧
              y ∈ elemNodes [7, 8, 9, 5, 9, 7, 3, 5, 5, 1, 1, 1] 3 k) :=
  separator_graph (List.replicate 6 0) (List.replicate 5 0) (List.replicate 9 0)
    [7, 8, 9, 5, 9, 7, 3, 5, 5, 1, 1, 1] 1 2 3
    (by decide) (by decide) (by decide) (by decide) (by decide) (by decide)

end DC
